import Mathlib

/-! # codebaseify: ignore rules, content classification and the tree walk

A shallow embedding of `gitignore.go` and `processor.go` together with the
parts of the Go standard library they call (`strings`, `unicode/utf8`,
`path/filepath` for a Unix build, where the path separator is `/`).

Go strings are byte sequences; they are modelled as lists of byte values.
-/

namespace Codebaseify

/-- A Go `string` / `[]byte`: its bytes, in order. -/
abbrev Str := List Nat

/-- UTF-8 encoding of one code point (used only to write string literals). -/
def encodeRune (c : Nat) : Str :=
  if c < 0x80 then [c]
  else if c < 0x800 then [0xC0 + c / 64, 0x80 + c % 64]
  else if c < 0x10000 then [0xE0 + c / 4096, 0x80 + c / 64 % 64, 0x80 + c % 64]
  else [0xF0 + c / 262144, 0x80 + c / 4096 % 64, 0x80 + c / 64 % 64, 0x80 + c % 64]

/-- The bytes of a string literal. -/
def str (s : String) : Str := s.toList.flatMap fun c => encodeRune c.toNat

/-! ## unicode/utf8 -/

namespace utf8

def RuneError : Nat := 0xFFFD
def RuneSelf : Nat := 0x80
def UTFMax : Nat := 4

/-- Continuation byte test used by the decoder (`locb <= b <= hicb`). -/
def isCont (b : Nat) : Bool := 0x80 ≤ b && b ≤ 0xBF

/-- Go `utf8.DecodeRuneInString`: the first rune of `s` and its width in bytes.
Invalid or short encodings give `(RuneError, 1)`, the empty string `(RuneError, 0)`. -/
def DecodeRune : Str → Nat × Nat
  | [] => (RuneError, 0)
  | s0 :: t =>
    if s0 < 0x80 then (s0, 1)
    else if s0 < 0xC2 then (RuneError, 1)
    else if s0 < 0xE0 then
      match t with
      | s1 :: _ =>
        if isCont s1 then (((s0 &&& 0x1F) <<< 6) ||| (s1 &&& 0x3F), 2) else (RuneError, 1)
      | _ => (RuneError, 1)
    else if s0 < 0xF0 then
      let lo := if s0 = 0xE0 then 0xA0 else 0x80
      let hi := if s0 = 0xED then 0x9F else 0xBF
      match t with
      | s1 :: s2 :: _ =>
        if s1 < lo || hi < s1 then (RuneError, 1)
        else if !isCont s2 then (RuneError, 1)
        else (((s0 &&& 0x0F) <<< 12) ||| ((s1 &&& 0x3F) <<< 6) ||| (s2 &&& 0x3F), 3)
      | _ => (RuneError, 1)
    else if s0 < 0xF5 then
      let lo := if s0 = 0xF0 then 0x90 else 0x80
      let hi := if s0 = 0xF4 then 0x8F else 0xBF
      match t with
      | s1 :: s2 :: s3 :: _ =>
        if s1 < lo || hi < s1 then (RuneError, 1)
        else if !isCont s2 then (RuneError, 1)
        else if !isCont s3 then (RuneError, 1)
        else (((s0 &&& 0x07) <<< 18) ||| ((s1 &&& 0x3F) <<< 12) ||| ((s2 &&& 0x3F) <<< 6)
                ||| (s3 &&& 0x3F), 4)
      | _ => (RuneError, 1)
    else (RuneError, 1)

/-- Go `utf8.RuneStart`: the byte is not a continuation byte. -/
def RuneStart (b : Nat) : Bool := (b &&& 0xC0) != 0x80

/-- The backwards search of `DecodeLastRuneInString` for the start of the last rune:
`for start--; start >= lim; start-- { if RuneStart(s[start]) { break } }`. -/
def backUp (s : Str) (lim : Int) : Nat → Int → Int
  | 0, start => start
  | k + 1, start =>
    if start ≥ lim then
      if RuneStart (s.getD start.toNat 0) then start else backUp s lim k (start - 1)
    else start

/-- Go `utf8.DecodeLastRuneInString`: the last rune of `s` and its width. -/
def DecodeLastRune (s : Str) : Nat × Nat :=
  let stop := s.length
  if stop = 0 then (RuneError, 0)
  else
    let r := s.getD (stop - 1) 0
    if r < RuneSelf then (r, 1)
    else
      let lim : Int := if (stop : Int) - UTFMax < 0 then 0 else (stop : Int) - UTFMax
      let start0 := backUp s lim UTFMax ((stop : Int) - 2)
      let start := if start0 < 0 then 0 else start0.toNat
      let (r, size) := DecodeRune ((s.take stop).drop start)
      if start + size ≠ stop then (RuneError, 1) else (r, size)

end utf8

/-! ## unicode -/

namespace unicode

/-- Go `unicode.IsSpace`: the Unicode White_Space property. -/
def IsSpace (r : Nat) : Bool :=
  if r ≤ 0xFF then
    r = 9 || r = 10 || r = 11 || r = 12 || r = 13 || r = 32 || r = 0x85 || r = 0xA0
  else
    r = 0x1680 || (0x2000 ≤ r && r ≤ 0x200a) || r = 0x2028 || r = 0x2029 || r = 0x202f
      || r = 0x205f || r = 0x3000

end unicode

/-! ## strings -/

namespace strings

/-- Go `strings.HasPrefix`. -/
def HasPrefix (s pre : Str) : Bool := pre.isPrefixOf s

/-- Go `strings.HasSuffix`. -/
def HasSuffix (s suf : Str) : Bool := suf.isSuffixOf s

/-- Go `strings.TrimSuffix`. -/
def TrimSuffix (s suf : Str) : Str :=
  if HasSuffix s suf then s.take (s.length - suf.length) else s

/-- Go `strings.Contains`: `substr` occurs in `s` (the empty string occurs everywhere). -/
def Contains : Str → Str → Bool
  | [], substr => substr.isEmpty
  | c :: cs, substr => substr.isPrefixOf (c :: cs) || Contains cs substr

/-- The loop of `strings.Replace(s, old, new, -1)` for a non-empty `old`: scan left to
right, replacing each non-overlapping occurrence; `skip` counts the bytes of the
occurrence just replaced that are still to be passed over. -/
def replaceLoop (old new : Str) : Nat → Str → Str
  | _, [] => []
  | k + 1, _ :: cs => replaceLoop old new k cs
  | 0, c :: cs =>
    if old.isPrefixOf (c :: cs) then new ++ replaceLoop old new (old.length - 1) cs
    else c :: replaceLoop old new 0 cs

/-- Go `strings.ReplaceAll(s, old, new)`, equally `strings.Replace(s, old, new, -1)`,
for the non-empty `old` strings this program passes. -/
def ReplaceAll (s old new : Str) : Str :=
  if old = new then s else replaceLoop old new 0 s

/-- The table `asciiSpace` of package `strings`. -/
def asciiSpace (c : Nat) : Bool :=
  c = 9 || c = 10 || c = 11 || c = 12 || c = 13 || c = 32

/-- Go `indexFunc(s, f, truth)`: byte index of the first rune `r` with `f r = truth`. -/
def indexFuncLoop (f : Nat → Bool) (truth : Bool) : Nat → Nat → Str → Option Nat
  | 0, _, _ => none
  | fuel + 1, i, s =>
    if s = [] then none
    else
      let (r, w) := utf8.DecodeRune s
      if f r == truth then some i else indexFuncLoop f truth fuel (i + w) (s.drop w)

def indexFunc (s : Str) (f : Nat → Bool) (truth : Bool) : Option Nat :=
  indexFuncLoop f truth s.length 0 s

/-- Go `lastIndexFunc(s, f, truth)`: byte index of the last rune `r` with `f r = truth`. -/
def lastIndexFuncLoop (f : Nat → Bool) (truth : Bool) (s : Str) : Nat → Nat → Option Nat
  | 0, _ => none
  | fuel + 1, i =>
    if i = 0 then none
    else
      let (r, size) := utf8.DecodeLastRune (s.take i)
      let i := i - size
      if f r == truth then some i else lastIndexFuncLoop f truth s fuel i

def lastIndexFunc (s : Str) (f : Nat → Bool) (truth : Bool) : Option Nat :=
  lastIndexFuncLoop f truth s s.length s.length

/-- Go `strings.TrimLeftFunc`. -/
def TrimLeftFunc (s : Str) (f : Nat → Bool) : Str :=
  match indexFunc s f false with
  | none => []
  | some i => s.drop i

/-- Go `strings.TrimRightFunc`. -/
def TrimRightFunc (s : Str) (f : Nat → Bool) : Str :=
  match lastIndexFunc s f false with
  | some i =>
    if s.getD i 0 ≥ utf8.RuneSelf then s.take (i + (utf8.DecodeRune (s.drop i)).2)
    else s.take (i + 1)
  | none => s.take 0

/-- Go `strings.TrimFunc`. -/
def TrimFunc (s : Str) (f : Nat → Bool) : Str := TrimRightFunc (TrimLeftFunc s f) f

/-- Second loop of `strings.TrimSpace`: from the end, drop ASCII space bytes; on a
non-ASCII byte fall back to `TrimRightFunc`. `s` is already trimmed on the left. -/
def trimSpaceStop (s : Str) : Nat → Str
  | 0 => s.take 0
  | stop + 1 =>
    let c := s.getD stop 0
    if c ≥ utf8.RuneSelf then TrimRightFunc (s.take (stop + 1)) unicode.IsSpace
    else if !asciiSpace c then s.take (stop + 1)
    else trimSpaceStop s stop

/-- Go `strings.TrimSpace`: first loop over the leading bytes (ASCII fast path, with the
fall back to `TrimFunc` on a non-ASCII byte), then the loop from the end. -/
def TrimSpace : Str → Str
  | [] => []
  | c :: cs =>
    if c ≥ utf8.RuneSelf then TrimFunc (c :: cs) unicode.IsSpace
    else if !asciiSpace c then trimSpaceStop (c :: cs) (c :: cs).length
    else TrimSpace cs

end strings

/-! ## gitignore.go : the rule set and the ignore-file parser -/

/-- The three package-level rule variables of `gitignore.go`. `ignoredPaths` is a
`map[string]bool`, kept as an association list. -/
structure RuleSet where
  ignoredPaths : List (Str × Bool)
  ignoredPatterns : List Str
  ignoredDirs : List Str
  deriving DecidableEq, Repr

/-- Indexing a `map[string]bool`: the stored value, `false` for a missing key. -/
def mapGet : List (Str × Bool) → Str → Bool
  | [], _ => false
  | (k, v) :: rest, key => if k = key then v else mapGet rest key

/-- The initial values of the package-level variables. -/
def defaultRules : RuleSet :=
  { ignoredPaths := []
    ignoredPatterns := [str "*.log", str "tmp/", str "*.md"]
    ignoredDirs := [str ".git", str ".gitignore", str "build"] }

/-- Body of the `for scanner.Scan()` loop of `parseGitignore`, for one scanned line. -/
def parseLine (rs : RuleSet) (text : Str) : RuleSet :=
  let line := strings.TrimSpace text
  if line = [] || strings.HasPrefix line (str "#") then rs
  else if strings.HasPrefix line (str "!") then rs
  else
    let pattern := line
    if strings.HasSuffix pattern (str "/") then
      { rs with ignoredDirs := rs.ignoredDirs ++ [strings.TrimSuffix pattern (str "/")] }
    else
      { rs with ignoredPatterns := rs.ignoredPatterns ++ [pattern] }

/-- The scan loop of `parseGitignore` over the lines the scanner delivers. -/
def parseLines : RuleSet → List Str → RuleSet
  | rs, [] => rs
  | rs, text :: rest => parseLines (parseLine rs text) rest

/-- What reading an open file gives: the bytes delivered up to the end of the file or,
when `readError` holds, up to a failing read. -/
structure FileReads where
  data : Str
  readError : Bool
  deriving DecidableEq, Repr

namespace bufio

/-- Go `bufio.MaxScanTokenSize`, the largest buffer a `Scanner` allocates. -/
def MaxScanTokenSize : Nat := 64 * 1024

/-- The two errors `Scanner.Err` can report here: `ErrTooLong`, or the error of a read. -/
inductive ScanError where
  | tooLong
  | read
  deriving DecidableEq, Repr

/-- Go `dropCR`: the line without one final carriage return. -/
def dropCR (data : Str) : Str := if data.getLast? = some 13 then data.dropLast else data

/-- Go `bufio.Scanner` with the split function `ScanLines` and the default buffer, over
the bytes the reads deliver: the tokens `Scan` returns and the value of `Err` after the
last call. `line` holds, last byte first, the bytes read since the last newline. A line
that does not fit the buffer together with its newline stops the scan with `ErrTooLong`:
that line and everything after it are never delivered. A read error ends the scan as the
end of the file does (the bytes read before it form the last line) and is then reported. -/
def scanFrom (readError : Bool) : Str → Str → List Str × Option ScanError
  | [], line =>
    if MaxScanTokenSize ≤ line.length then ([], some .tooLong)
    else (if line = [] then [] else [dropCR line.reverse], if readError then some .read else none)
  | c :: rest, line =>
    if c = 10 then
      if MaxScanTokenSize ≤ line.length then ([], some .tooLong)
      else
        let r := scanFrom readError rest []
        (dropCR line.reverse :: r.1, r.2)
    else scanFrom readError rest (c :: line)

/-- The tokens of `for scanner.Scan() { ... scanner.Text() ... }` and `scanner.Err()`. -/
def Scan (f : FileReads) : List Str × Option ScanError := scanFrom f.readError f.data []

end bufio

/-- Go `parseGitignore`: `none` is an ignore file that cannot be opened (the rules stay
as they are), `some f` what reading the opened file gives. The error of the scanner is
printed and changes nothing else. -/
def parseGitignore (rs : RuleSet) (file : Option FileReads) : RuleSet :=
  match file with
  | none => rs
  | some f => parseLines rs (bufio.Scan f).1

/-! ## path/filepath (Unix) -/

namespace filepath

/-- Go `filepath.Separator` on Unix. -/
def Separator : Nat := 47

/-- Go `filepath.ToSlash`: the identity where the separator already is `/`. -/
def ToSlash (path : Str) : Str := path

/-- Go `filepath.Base`: the last element of `path`, trailing slashes removed first;
`.` for the empty path and `/` for a path of slashes only. -/
def Base (path : Str) : Str :=
  if path = [] then [46]
  else
    let path := path.rdropWhile (· == Separator)
    let path := path.rtakeWhile (· != Separator)
    if path = [] then [Separator] else path

/-- The loop of `filepath.Ext`, run from the last byte backwards; `acc` is the part of
the path already passed. -/
def extLoop : Str → Str → Str
  | [], _ => []
  | c :: before, acc =>
    if c == Separator then []
    else if c = 46 then c :: acc
    else extLoop before (c :: acc)

/-- Go `filepath.Ext`: the suffix beginning at the final dot of the final element, or
empty when that element has no dot. -/
def Ext (path : Str) : Str := extLoop path.reverse []

/-- Go `scanChunk` after the leading stars are removed: the chunk runs to the first `*`
outside a bracket expression; a backslash protects the byte after it. -/
def scanSplit : Bool → Str → Str × Str
  | _, [] => ([], [])
  | inrange, c :: cs =>
    if c = 92 then
      match cs with
      | [] => ([c], [])
      | d :: ds => let (chunk, rest) := scanSplit inrange ds; (c :: d :: chunk, rest)
    else if c = 91 then
      let (chunk, rest) := scanSplit true cs; (c :: chunk, rest)
    else if c = 93 then
      let (chunk, rest) := scanSplit false cs; (c :: chunk, rest)
    else if c = 42 then
      if inrange then let (chunk, rest) := scanSplit inrange cs; (c :: chunk, rest)
      else ([], c :: cs)
    else
      let (chunk, rest) := scanSplit inrange cs; (c :: chunk, rest)

/-- Go `scanChunk`: `(star, chunk, rest)`. -/
def scanChunk (pattern : Str) : Bool × Str × Str :=
  let stripped := pattern.dropWhile (· == 42)
  let star : Bool := pattern.head? = some 42
  let (chunk, rest) := scanSplit false stripped
  (star, chunk, rest)

/-- Go `getEsc`: a possibly escaped rune of a bracket expression and the rest of the
chunk; `none` is `ErrBadPattern`. -/
def getEsc (chunk : Str) : Option (Nat × Str) :=
  match chunk with
  | [] => none
  | c :: cs =>
    if c = 45 || c = 93 then none
    else
      let chunk1 := if c = 92 then cs else c :: cs
      if chunk1 = [] then none
      else
        let (r, n) := utf8.DecodeRune chunk1
        let nchunk := chunk1.drop n
        if (r = utf8.RuneError && n = 1) || nchunk = [] then none
        else some (r, nchunk)

/-- The range loop of a bracket expression in `matchChunk`: `(match, rest of chunk)`,
`none` for `ErrBadPattern`. `seen` says `nrange > 0`. -/
def classLoop (r : Nat) : Nat → Str → Bool → Bool → Option (Bool × Str)
  | 0, _, _, _ => none
  | fuel + 1, chunk, matched, seen =>
    if chunk.head? = some 93 && seen then some (matched, chunk.tail)
    else
      match getEsc chunk with
      | none => none
      | some (lo, chunk1) =>
        if chunk1.head? = some 45 then
          match getEsc chunk1.tail with
          | none => none
          | some (hi, chunk2) =>
            classLoop r fuel chunk2 (matched || (lo ≤ r && r ≤ hi)) true
        else classLoop r fuel chunk1 (matched || (lo ≤ r && r ≤ lo)) true

/-- The loop of `matchChunk`. Result: `none` for `ErrBadPattern`, `some none` for no
match, `some (some rest)` for a match leaving `rest` of `s`. -/
def matchChunkLoop : Nat → Str → Str → Bool → Option (Option Str)
  | 0, _, _, _ => none
  | fuel + 1, chunk, s, failed =>
    match chunk with
    | [] => if failed then some none else some (some s)
    | c :: cs =>
      let failed := failed || s.isEmpty
      if c = 91 then
        let r := if failed then 0 else (utf8.DecodeRune s).1
        let s := if failed then s else s.drop (utf8.DecodeRune s).2
        let negated : Bool := cs.head? = some 94
        let chunk := if negated then cs.tail else cs
        match classLoop r (chunk.length + 1) chunk false false with
        | none => none
        | some (matched, chunk) =>
          matchChunkLoop fuel chunk s (failed || (matched == negated))
      else if c = 63 then
        let failed1 : Bool := failed || s.head? = some Separator
        let s := if failed then s else s.drop (utf8.DecodeRune s).2
        matchChunkLoop fuel cs s failed1
      else
        let chunk := if c = 92 then cs else c :: cs
        match chunk with
        | [] => none
        | d :: ds =>
          let failed1 : Bool := failed || s.head? ≠ some d
          let s := if failed then s else s.tail
          matchChunkLoop fuel ds s failed1

/-- Go `matchChunk`: does `chunk` match a beginning of `s`. -/
def matchChunk (chunk s : Str) : Option (Option Str) :=
  matchChunkLoop (chunk.length + 1) chunk s false

/-- The loop of `Match` that retries the chunk after skipping `i + 1` bytes of the
name, never skipping a separator. `last` says the pattern is exhausted.
Result as for `matchChunk`. -/
def starLoop (chunk : Str) (last : Bool) : Str → Option (Option Str)
  | [] => some none
  | c :: rest =>
    if c == Separator then some none
    else
      match matchChunk chunk rest with
      | none => none
      | some (some t) => if last && t ≠ [] then starLoop chunk last rest else some (some t)
      | some none => starLoop chunk last rest

/-- The `Pattern:` loop of `Match`. When the chunk matches nowhere the loop returns
`false` with no error, without looking at the rest of the pattern. -/
def matchLoop : Nat → Str → Str → Option Bool
  | 0, _, _ => none
  | fuel + 1, pattern, name =>
    if pattern = [] then some (name = [])
    else
      let (star, chunk, rest) := scanChunk pattern
      if star && chunk = [] then some (!strings.Contains name [Separator])
      else
        match matchChunk chunk name with
        | none => none
        | some r =>
          let goOn : Option Str :=
            match r with
            | some t => if t = [] || rest ≠ [] then some t else none
            | none => none
          match goOn with
          | some t => matchLoop fuel rest t
          | none =>
            let retry : Option (Option Str) := if star then starLoop chunk (rest = []) name
              else some none
            match retry with
            | none => none
            | some (some t) => matchLoop fuel rest t
            | some none => some false

/-- Go `filepath.Match(pattern, name)`: `some b` is `(b, nil)`, `none` is
`(false, ErrBadPattern)`. -/
def Match (pattern name : Str) : Option Bool :=
  matchLoop (pattern.length + 1) pattern name

/-- The value of `matched` in `matched, _ := filepath.Match(pattern, name)`. -/
def matched (pattern name : Str) : Bool := Match pattern name = some true

end filepath

namespace filepath

/-- The backtracking of `Clean` at a `..` element: starting from `w` (already
decremented once), move `w` down until it meets `dotdot` or a separator in the buffer. -/
def backtrack (out : Str) (dotdot : Nat) : Nat → Nat
  | 0 => 0
  | w + 1 =>
    if w + 1 > dotdot && out.getD (w + 1) 0 != Separator then backtrack out dotdot w
    else w + 1

/-- The main loop of `Clean` over the unread part of the path; `out` is the buffer
written so far and `dotdot` the index where `..` must stop. -/
def cleanLoop (rooted : Bool) : Nat → Str → Str → Nat → Str
  | 0, _, out, _ => out
  | fuel + 1, path, out, dotdot =>
    match path with
    | [] => out
    | c :: rest =>
      if c == Separator then cleanLoop rooted fuel rest out dotdot
      else if c = 46 && (rest = [] || rest.head? = some Separator) then
        cleanLoop rooted fuel rest out dotdot
      else if c = 46 && rest.head? = some 46 &&
          (rest.tail = [] || rest.tail.head? = some Separator) then
        if out.length > dotdot then
          cleanLoop rooted fuel rest.tail (out.take (backtrack out dotdot (out.length - 1))) dotdot
        else if !rooted then
          let out1 := if out.length > 0 then out ++ [Separator] else out
          let out2 := out1 ++ [46, 46]
          cleanLoop rooted fuel rest.tail out2 out2.length
        else cleanLoop rooted fuel rest.tail out dotdot
      else
        let out1 :=
          if (rooted && out.length ≠ 1) || (!rooted && out.length ≠ 0) then out ++ [Separator]
          else out
        cleanLoop rooted fuel ((c :: rest).dropWhile (· != Separator))
          (out1 ++ (c :: rest).takeWhile (· != Separator)) dotdot

/-- Go `filepath.Clean`: the shortest path name equivalent to `path` by purely lexical
processing. -/
def Clean (path : Str) : Str :=
  if path = [] then [46]
  else
    let rooted : Bool := path.head? = some Separator
    let out :=
      if rooted then cleanLoop rooted (path.length + 1) path.tail [Separator] 1
      else cleanLoop rooted (path.length + 1) path [] 0
    if out = [] then [46] else out

/-- Go `filepath.Join` of a directory path and an entry name. -/
def Join (dir name : Str) : Str :=
  if dir ≠ [] then Clean (dir ++ [Separator] ++ name)
  else if name ≠ [] then Clean name
  else []

/-- Index of the next separator at or after `i` (the length when there is none). -/
def nextSep (s : Str) (i : Nat) : Nat := i + ((s.drop i).takeWhile (· != Separator)).length

/-- The loop of `Rel` that positions `base[b0:bi]` and `targ[t0:ti]` at the first
differing elements; the result is `(b0, bi, t0, ti)`. -/
def relLoop (base targ : Str) : Nat → Nat → Nat → Nat → Nat → Nat × Nat × Nat × Nat
  | 0, b0, bi, t0, ti => (b0, bi, t0, ti)
  | fuel + 1, b0, bi, t0, ti =>
    if bi < base.length && ti < targ.length then
      let bi := nextSep base bi
      let ti := nextSep targ ti
      if (targ.take ti).drop t0 ≠ (base.take bi).drop b0 then (b0, bi, t0, ti)
      else
        let bi := if bi < base.length then bi + 1 else bi
        let ti := if ti < targ.length then ti + 1 else ti
        relLoop base targ fuel bi bi ti ti
    else (b0, bi, t0, ti)

/-- Go `filepath.Rel(basepath, targpath)`; `none` is the error "can't make ... relative
to ...". The result is a clean path: a target that cleans to `.` adds no element, and a
base whose first element not shared with the target is `..` cannot be left lexically. -/
def Rel (basepath targpath : Str) : Option Str :=
  let base := Clean basepath
  let targ := Clean targpath
  if targ = base then some [46]
  else
    let base := if base = [46] then [] else base
    let targ := if targ = [46] then [] else targ
    let baseSlashed : Bool := base.head? = some Separator
    let targSlashed : Bool := targ.head? = some Separator
    if baseSlashed != targSlashed then none
    else
      let bl := base.length
      let tl := targ.length
      let (b0, _, t0, _) := relLoop base targ (bl + 1) 0 0 0 0
      if (base.drop b0).takeWhile (· != Separator) = [46, 46] then none
      else if b0 ≠ bl then
        let seps := ((base.take bl).drop b0).count Separator
        let ups := [46, 46] ++ (List.replicate seps [Separator, 46, 46]).flatten
        if t0 ≠ tl then some (ups ++ [Separator] ++ targ.drop t0) else some ups
      else some (targ.drop t0)

end filepath

/-! ## gitignore.go : the path classifier -/

/-- What a run reads besides the tree: the package-level variables (the rule set of
`gitignore.go` and `outputFile`, `rootDir` of `main.go`) and, for the open output
document handed to `processProject`, `writeLimit`: the number of bytes it accepts in
all before `WriteString` fails, `none` when no write fails. -/
structure Globals where
  rules : RuleSet
  outputFile : Str
  rootDir : Str
  writeLimit : Option Nat := none

/-- The `for _, ignoreDir := range ignoredDirs` loop of `shouldIgnoreDir`; `dir` is
`filepath.Base(path)`. The error of `filepath.Rel` is dropped, leaving `relPath`
empty. -/
def shouldIgnoreDirLoop (rootDir path dir : Str) : List Str → Bool
  | [] => false
  | ignoreDir :: rest =>
    if filepath.matched ignoreDir dir then true
    else if strings.Contains ignoreDir (str "**/") then
      let pattern := strings.ReplaceAll ignoreDir (str "**") (str "*")
      let relPath := (filepath.Rel rootDir path).getD []
      if filepath.matched pattern relPath then true
      else shouldIgnoreDirLoop rootDir path dir rest
    else shouldIgnoreDirLoop rootDir path dir rest

/-- Go `shouldIgnoreDir`. -/
def shouldIgnoreDir (g : Globals) (path : Str) : Bool :=
  let dir := filepath.Base path
  shouldIgnoreDirLoop g.rootDir path dir g.rules.ignoredDirs

/-- The `for _, pattern := range ignoredPatterns` loop of `shouldIgnoreFile`. -/
def shouldIgnoreFileLoop (relPath : Str) : List Str → Bool
  | [] => false
  | pattern :: rest =>
    if strings.Contains pattern (str "/") then
      if filepath.matched pattern relPath then true
      else shouldIgnoreFileLoop relPath rest
    else
      if filepath.matched pattern (filepath.Base relPath) then true
      else if strings.HasPrefix pattern (str "*") then
        let ext := filepath.Ext relPath
        if ext ≠ [] && strings.HasSuffix pattern ext then true
        else shouldIgnoreFileLoop relPath rest
      else shouldIgnoreFileLoop relPath rest

/-- Go `shouldIgnoreFile`. -/
def shouldIgnoreFile (g : Globals) (relPath : Str) : Bool :=
  let normalizedPath := filepath.ToSlash relPath
  if mapGet g.rules.ignoredPaths normalizedPath then true
  else if shouldIgnoreFileLoop relPath g.rules.ignoredPatterns then true
  else if filepath.Base relPath = g.outputFile then true
  else false

/-! ## processor.go -/

/-- What the file system gives for a file that is not a directory: it cannot be
opened, it opens but reading it fails, or it has the given bytes. -/
inductive FileData where
  | openError
  | readError
  | data (bytes : Str)
  deriving DecidableEq, Repr

/-- The table `binaryExtensions`. -/
def binaryExtensions : List (Str × Bool) :=
  [ (str ".jpg", true), (str ".jpeg", true), (str ".png", true), (str ".gif", true),
    (str ".pdf", true), (str ".doc", true), (str ".docx", true), (str ".ppt", true),
    (str ".pptx", true), (str ".xls", true), (str ".xlsx", true), (str ".zip", true),
    (str ".gz", true), (str ".tar", true), (str ".mp3", true), (str ".mp4", true),
    (str ".mov", true), (str ".avi", true), (str ".exe", true), (str ".dll", true),
    (str ".so", true), (str ".o", true), (str ".a", true), (str ".dylib", true),
    (str ".class", true), (str ".jar", true), (str ".pyc", true), (str ".pyo", true) ]

/-- Go `isBinaryFile`; `fd` is what the file system holds at `path`. -/
def isBinaryFile (path : Str) (fd : FileData) : Bool :=
  let ext := filepath.Ext path
  if mapGet binaryExtensions ext then true
  else
    match fd with
    | .openError => false
    | .readError => false
    | .data bytes =>
      let buf := bytes.take 512
      let n := buf.length
      if n = 0 then false
      else buf.contains 0

/-- Go `determineCodeFence`. -/
def determineCodeFence (path : Str) : Str :=
  let ext := filepath.Ext path
  if ext = str ".go" then str "go"
  else if ext = str ".js" then str "javascript"
  else if ext = str ".ts" then str "typescript"
  else if ext = str ".py" then str "python"
  else if ext = str ".java" then str "java"
  else if ext = str ".c" || ext = str ".cpp" || ext = str ".h" || ext = str ".hpp" then str "cpp"
  else if ext = str ".rb" then str "ruby"
  else if ext = str ".php" then str "php"
  else if ext = str ".sh" then str "bash"
  else if ext = str ".md" then str "markdown"
  else if ext = str ".html" then str "html"
  else if ext = str ".css" then str "css"
  else if ext = str ".json" then str "json"
  else if ext = str ".xml" then str "xml"
  else if ext = str ".yaml" || ext = str ".yml" then str "yaml"
  else if ext = str ".sql" then str "sql"
  else if ext = str ".rs" then str "rust"
  else if ext = str ".kt" then str "kotlin"
  else if ext = str ".swift" then str "swift"
  else if ext = str ".cs" then str "csharp"
  else if ext = str ".fs" then str "fsharp"
  else str "text"

/-- The string `processProject` writes for one included file (the two `fmt.Sprintf`
calls). -/
def formatEntry (path relPath content : Str) : Str :=
  let normalizedPath := filepath.ToSlash relPath
  let ext := filepath.Ext path
  if ext = str ".md" then
    let mdContent := strings.ReplaceAll content (str "```") (str "~~~")
    str "`" ++ normalizedPath ++ str "` (Markdown file)\n\n" ++ mdContent ++ str "\n\n"
  else
    let codeFence := determineCodeFence path
    let codeFence := if codeFence = [] then str "text" else codeFence
    str "`" ++ normalizedPath ++ str "`\n```" ++ codeFence ++ str "\n" ++ content
      ++ str "\n```\n\n"

/-- The host the program is built for. -/
inductive Host where
  | unix
  | windows
  deriving DecidableEq, Repr

/-- Go `filepath.Separator` of the host. -/
def Host.separator : Host → Nat
  | .unix => 47
  | .windows => 92

/-- Go `os.IsPathSeparator` of the host. -/
def Host.isPathSeparator : Host → Nat → Bool
  | .unix, c => c = 47
  | .windows, c => c = 92 || c = 47

/-- Go `filepath.ToSlash` on the host: every separator becomes a slash. -/
def filepath.ToSlashOn (h : Host) (path : Str) : Str :=
  if h.separator = 47 then path
  else path.map fun c => if c = h.separator then 47 else c

/-- The loop of `filepath.Ext` on the host, as `extLoop`. -/
def filepath.extLoopOn (h : Host) : Str → Str → Str
  | [], _ => []
  | c :: before, acc =>
    if h.isPathSeparator c then []
    else if c = 46 then c :: acc
    else filepath.extLoopOn h before (c :: acc)

/-- Go `filepath.Ext` on the host. -/
def filepath.ExtOn (h : Host) (path : Str) : Str := filepath.extLoopOn h path.reverse []

/-- Go `determineCodeFence` on the host. -/
def determineCodeFenceOn (h : Host) (path : Str) : Str :=
  let ext := filepath.ExtOn h path
  if ext = str ".go" then str "go"
  else if ext = str ".js" then str "javascript"
  else if ext = str ".ts" then str "typescript"
  else if ext = str ".py" then str "python"
  else if ext = str ".java" then str "java"
  else if ext = str ".c" || ext = str ".cpp" || ext = str ".h" || ext = str ".hpp" then str "cpp"
  else if ext = str ".rb" then str "ruby"
  else if ext = str ".php" then str "php"
  else if ext = str ".sh" then str "bash"
  else if ext = str ".md" then str "markdown"
  else if ext = str ".html" then str "html"
  else if ext = str ".css" then str "css"
  else if ext = str ".json" then str "json"
  else if ext = str ".xml" then str "xml"
  else if ext = str ".yaml" || ext = str ".yml" then str "yaml"
  else if ext = str ".sql" then str "sql"
  else if ext = str ".rs" then str "rust"
  else if ext = str ".kt" then str "kotlin"
  else if ext = str ".swift" then str "swift"
  else if ext = str ".cs" then str "csharp"
  else if ext = str ".fs" then str "fsharp"
  else str "text"

/-- The string `processProject` writes for one included file on the host; `formatEntry`
is the case of a Unix host. -/
def formatEntryOn (h : Host) (path relPath content : Str) : Str :=
  let normalizedPath := filepath.ToSlashOn h relPath
  let ext := filepath.ExtOn h path
  if ext = str ".md" then
    let mdContent := strings.ReplaceAll content (str "```") (str "~~~")
    str "`" ++ normalizedPath ++ str "` (Markdown file)\n\n" ++ mdContent ++ str "\n\n"
  else
    let codeFence := determineCodeFenceOn h path
    let codeFence := if codeFence = [] then str "text" else codeFence
    str "`" ++ normalizedPath ++ str "`\n```" ++ codeFence ++ str "\n" ++ content
      ++ str "\n```\n\n"

mutual
/-- A node of the directory tree as `filepath.Walk` sees it: a non-directory, a
directory (with whether its names can be read, and its entries in the order
`readDirNames` returns them), a name whose `Lstat` fails, or the open output document
itself, a file that holds at every moment the bytes written to it so far. -/
inductive Node where
  | file (d : FileData)
  | dir (listable : Bool) (entries : Entries)
  | nostat
  | document
/-- The entries of a directory, by name. -/
inductive Entries where
  | nil
  | cons (name : Str) (node : Node) (rest : Entries)
end

/-- The error value a `WalkFunc` returns. -/
inductive WalkErr where
  | nil
  | skipDir
  | err
  deriving DecidableEq, Repr

/-- State threaded through the walk: the bytes written to the output file so far and
the paths the walk function has been called on, in order. -/
structure WalkState where
  out : Str
  visited : List Str
  deriving DecidableEq, Repr

/-- Go `info.IsDir()`. -/
def Node.isDir : Node → Bool
  | .dir _ _ => true
  | _ => false

/-- Go `outputFile.WriteString(s)`: the state after the write and whether it failed. A
failing write leaves in the document the bytes that still fitted. -/
def writeString (g : Globals) (st : WalkState) (s : Str) : WalkState × Bool :=
  match g.writeLimit with
  | none => ({ st with out := st.out ++ s }, false)
  | some limit =>
    if st.out.length + s.length ≤ limit then ({ st with out := st.out ++ s }, false)
    else ({ st with out := st.out ++ s.take (limit - st.out.length) }, true)

/-- The part of the walk function for a node that is not a directory; `fd` is what the
file system holds at `path` when the function runs. -/
def visitFile (g : Globals) (rootDir : Str) (st : WalkState) (path : Str) (fd : FileData) :
    WalkState × WalkErr :=
  match filepath.Rel rootDir path with
  | none => (st, .err)
  | some relPath =>
    if shouldIgnoreFile g relPath then (st, .nil)
    else if isBinaryFile path fd then (st, .nil)
    else
      match fd with
      | .data content =>
        let w := writeString g st (formatEntry path relPath content)
        if w.2 then (w.1, .err) else (w.1, .nil)
      | _ => (st, .nil)

/-- The function literal passed to `filepath.Walk` in `processProject`, called on
`path` with the node found there; `err` says the walk reports an error for it. The open
output document is read as the bytes written so far. -/
def walkFn (g : Globals) (rootDir : Str) (st : WalkState) (path : Str) (node : Node)
    (err : Bool) : WalkState × WalkErr :=
  let st := { st with visited := st.visited ++ [path] }
  if err then (st, .err)
  else
    match node with
    | .nostat => (st, .err)
    | .dir _ _ => if shouldIgnoreDir g path then (st, .skipDir) else (st, .nil)
    | .file fd => visitFile g rootDir st path fd
    | .document => visitFile g rootDir st path (.data st.out)

mutual
/-- Go `walk` of `path/filepath`: calls the walk function on the node, then on the
entries of a directory it did not skip. -/
def walk (g : Globals) (rootDir : Str) (path : Str) : Node → WalkState → WalkState × WalkErr
  | .file fd, st => walkFn g rootDir st path (.file fd) false
  | .document, st => walkFn g rootDir st path .document false
  | .nostat, st => walkFn g rootDir st path .nostat true
  | .dir listable entries, st =>
    let r := walkFn g rootDir st path (.dir listable entries) (!listable)
    if !listable || r.2 ≠ .nil then r
    else walkEntries g rootDir path entries r.1
/-- The `for _, name := range names` loop of `walk`. -/
def walkEntries (g : Globals) (rootDir : Str) (path : Str) :
    Entries → WalkState → WalkState × WalkErr
  | .nil, st => (st, .nil)
  | .cons name node rest, st =>
    let filename := filepath.Join path name
    let r := walk g rootDir filename node st
    match node with
    | .nostat =>
      if r.2 ≠ .nil && r.2 ≠ .skipDir then r else walkEntries g rootDir path rest r.1
    | _ =>
      if r.2 ≠ .nil && (!node.isDir || r.2 ≠ .skipDir) then r
      else walkEntries g rootDir path rest r.1
end

/-- Go `filepath.Walk(root, fn)` for the walk function of `processProject`. -/
def Walk (g : Globals) (root : Str) (tree : Node) (st : WalkState) : WalkState × WalkErr :=
  let r := walk g root root tree st
  if r.2 = .skipDir then (r.1, .nil) else r

/-- Go `processProject(rootDir, outputFile)` run on a tree, the output file being empty
at the start: the final state and whether an error is returned. -/
def processProject (g : Globals) (rootDir : Str) (tree : Node) : WalkState × WalkErr :=
  Walk g rootDir tree { out := [], visited := [] }

/-! ## Vocabulary of the specification -/

/-- The trimmed text of a line that adds a rule: non-empty, not a comment (`#`), not
a negation (`!`). -/
def isRuleLine (t : Str) : Bool := t ≠ [] && t.head? ≠ some 35 && t.head? ≠ some 33

/-- The trimmed text ends with a slash. -/
def endsWithSlash (t : Str) : Bool := t.getLast? = some 47

/-- A negation line: its trimmed text starts with `!`. -/
def isNegationLine (text : Str) : Bool := (strings.TrimSpace text).head? = some 33

/-- The pattern glob-matches the name: `filepath.Match` reports a match and no error. -/
def globMatches (pattern name : Str) : Prop := filepath.Match pattern name = some true

instance (pattern name : Str) : Decidable (globMatches pattern name) := by
  unfold globMatches; infer_instance

/-- What one pattern contributes to `shouldIgnoreFile`. -/
def fileRuleHits (relPath pat : Str) : Prop :=
  (47 ∈ pat ∧ globMatches pat relPath) ∨
    (47 ∉ pat ∧ globMatches pat (filepath.Base relPath)) ∨
    (47 ∉ pat ∧ pat.head? = some 42 ∧ filepath.Ext relPath ≠ [] ∧ filepath.Ext relPath <:+ pat)

/-- The rule set and output name of `TestShouldIgnoreFile`. -/
def fileTestGlobals : Globals :=
  { rules :=
      { ignoredPaths := []
        ignoredPatterns := [str "*.log", str "*.tmp", str "secret.txt"]
        ignoredDirs := defaultRules.ignoredDirs }
    outputFile := str "project-prompt.md"
    rootDir := str "." }

/-- The rule set and root of `TestShouldIgnoreDir`. -/
def dirTestGlobals : Globals :=
  { rules :=
      { ignoredPaths := []
        ignoredPatterns := defaultRules.ignoredPatterns
        ignoredDirs := [str ".git", str "node_modules", str "dist"] }
    outputFile := str "project-prompt.md"
    rootDir := str "." }

/-- The ignore file of the negation scenario: `*.log`, `tmp/`, `!important.log`. -/
def negationScenario : FileReads :=
  { data := str "*.log\ntmp/\n!important.log\n", readError := false }

/-- The bytes of the file with the given lines, each ended by a newline, and then `last`,
the bytes after the last newline. -/
def fileOfLines : List Str → Str → Str
  | [], last => last
  | l :: ls, last => l ++ 10 :: fileOfLines ls last

/-- The lines of that file in order: `lines`, then `last` when it is not empty. -/
def linesOf (lines : List Str) (last : Str) : List Str :=
  lines ++ (if last = [] then [] else [last])

/-- The lines the scanner delivers: the lines before the first line of
`MaxScanTokenSize` bytes or more, each without its final carriage return. -/
def scannedLines (lines : List Str) (last : Str) : List Str :=
  ((linesOf lines last).takeWhile fun l => decide (l.length < bufio.MaxScanTokenSize)).map
    bufio.dropCR

/-- A line of 65536 bytes `a`, too long for the scanner. -/
def longLine : Str := List.replicate bufio.MaxScanTokenSize 97

/-- Globals with no rule at all and the output name `out.txt`. -/
def emptyGlobals : Globals :=
  { rules := { ignoredPaths := [], ignoredPatterns := [], ignoredDirs := [] }
    outputFile := str "out.txt"
    rootDir := str "." }

/-- The markdown escaping in the words of the specification: reading left to right,
each triple backtick becomes a triple tilde and every other byte is copied. -/
def tildeFences : Str → Str
  | 96 :: 96 :: 96 :: rest => 126 :: 126 :: 126 :: tildeFences rest
  | c :: rest => c :: tildeFences rest
  | [] => []

/-- A root directory holding one markdown file whose name begins with two backticks. -/
def backtickTree : Node :=
  .dir true (.cons (str "``.md") (.file (.data (str "x"))) .nil)

mutual
/-- The tree with everything below each directory that `shouldIgnoreDir` prunes taken
away; `path` is the path the walk gives the node. -/
def pruneNode (g : Globals) (path : Str) : Node → Node
  | .file d => .file d
  | .document => .document
  | .nostat => .nostat
  | .dir listable entries =>
    if shouldIgnoreDir g path then .dir listable .nil
    else .dir listable (pruneEntries g path entries)
/-- The entries of a directory at `path`, each pruned by `pruneNode`. -/
def pruneEntries (g : Globals) (path : Str) : Entries → Entries
  | .nil => .nil
  | .cons name node rest =>
    .cons name (pruneNode g (filepath.Join path name) node) (pruneEntries g path rest)
end

/-- The globals of `TestProcessProject`, with the root `/tmp/x`. -/
def projectTestGlobals : Globals :=
  { rules :=
      { ignoredPaths := []
        ignoredPatterns := [str "README.md"]
        ignoredDirs := [str ".git", str "build"] }
    outputFile := str "project-prompt.md"
    rootDir := str "/tmp/x" }

/-- A project with a text file below `build` and a source file beside it. -/
def buildTree : Node :=
  .dir true
    (.cons (str "build") (.dir true (.cons (str "binary") (.file (.data (str "plain text"))) .nil))
    (.cons (str "main.go") (.file (.data (str "package main\n"))) .nil))

/-! ## Test tables of the Go standard library, used to check the library model -/

/-- The table `matchTests` of `path/filepath`: pattern, name, and the result
(`none` for `ErrBadPattern`). -/
def matchTests : List (Str × Str × Option Bool) :=
  [ (str "abc", str "abc", some true),
    (str "*", str "abc", some true),
    (str "*c", str "abc", some true),
    (str "a*", str "a", some true),
    (str "a*", str "abc", some true),
    (str "a*", str "ab/c", some false),
    (str "a*/b", str "abc/b", some true),
    (str "a*/b", str "a/c/b", some false),
    (str "a*b*c*d*e*/f", str "axbxcxdxe/f", some true),
    (str "a*b*c*d*e*/f", str "axbxcxdxexxx/f", some true),
    (str "a*b*c*d*e*/f", str "axbxcxdxe/xxx/f", some false),
    (str "a*b*c*d*e*/f", str "axbxcxdxexxx/fff", some false),
    (str "a*b?c*x", str "abxbbxdbxebxczzx", some true),
    (str "a*b?c*x", str "abxbbxdbxebxczzy", some false),
    (str "ab[c]", str "abc", some true),
    (str "ab[b-d]", str "abc", some true),
    (str "ab[e-g]", str "abc", some false),
    (str "ab[^c]", str "abc", some false),
    (str "ab[^b-d]", str "abc", some false),
    (str "ab[^e-g]", str "abc", some true),
    (str "a\\*b", str "a*b", some true),
    (str "a\\*b", str "ab", some false),
    (str "a?b", str "a☺b", some true),
    (str "a[^a]b", str "a☺b", some true),
    (str "a???b", str "a☺b", some false),
    (str "a[^a][^a][^a]b", str "a☺b", some false),
    (str "[a-ζ]*", str "α", some true),
    (str "*[a-ζ]", str "A", some false),
    (str "a?b", str "a/b", some false),
    (str "a*b", str "a/b", some false),
    (str "[\\]a]", str "]", some true),
    (str "[\\-]", str "-", some true),
    (str "[x\\-]", str "x", some true),
    (str "[x\\-]", str "-", some true),
    (str "[x\\-]", str "z", some false),
    (str "[\\-x]", str "x", some true),
    (str "[\\-x]", str "-", some true),
    (str "[\\-x]", str "a", some false),
    (str "[]a]", str "]", none),
    (str "[-]", str "-", none),
    (str "[x-]", str "x", none),
    (str "[x-]", str "-", none),
    (str "[x-]", str "z", none),
    (str "[-x]", str "x", none),
    (str "[-x]", str "-", none),
    (str "[-x]", str "a", none),
    (str "\\", str "a", none),
    (str "[a-b-c]", str "a", none),
    (str "[", str "a", none),
    (str "[^", str "a", none),
    (str "[^bc", str "a", none),
    (str "a[", str "a", none),
    (str "a[", str "ab", none),
    (str "a[", str "x", none),
    (str "a/b[", str "x", none),
    (str "*x", str "xxx", some true) ]

/-- The table `cleantests` of `path/filepath` (Unix entries): path and result. -/
def cleanTests : List (Str × Str) :=
  [ (str "abc", str "abc"),
    (str "abc/def", str "abc/def"),
    (str "a/b/c", str "a/b/c"),
    (str ".", str "."),
    (str "..", str ".."),
    (str "../..", str "../.."),
    (str "../../abc", str "../../abc"),
    (str "/abc", str "/abc"),
    (str "/", str "/"),
    (str "", str "."),
    (str "abc/", str "abc"),
    (str "abc/def/", str "abc/def"),
    (str "a/b/c/", str "a/b/c"),
    (str "./", str "."),
    (str "../", str ".."),
    (str "../../", str "../.."),
    (str "/abc/", str "/abc"),
    (str "abc//def//ghi", str "abc/def/ghi"),
    (str "abc//", str "abc"),
    (str "abc/./def", str "abc/def"),
    (str "/./abc/def", str "/abc/def"),
    (str "abc/.", str "abc"),
    (str "abc/def/ghi/../jkl", str "abc/def/jkl"),
    (str "abc/def/../ghi/../jkl", str "abc/jkl"),
    (str "abc/def/..", str "abc"),
    (str "abc/def/../..", str "."),
    (str "/abc/def/../..", str "/"),
    (str "abc/def/../../..", str ".."),
    (str "/abc/def/../../..", str "/"),
    (str "abc/def/../../../ghi/jkl/../../../mno", str "../../mno"),
    (str "/../abc", str "/abc"),
    (str "abc/./../def", str "def"),
    (str "abc//./../def", str "def"),
    (str "abc/../../././../def", str "../../def"),
    (str "//abc", str "/abc"),
    (str "///abc", str "/abc"),
    (str "//abc//", str "/abc") ]

/-- Entries of the table `reltests` of `path/filepath`: base, target and the result
(`none` for an error). -/
def relTests : List (Str × Str × Option Str) :=
  [ (str "a/b", str "a/b", some (str ".")),
    (str "a/b/.", str "a/b", some (str ".")),
    (str "a/b", str "a/b/.", some (str ".")),
    (str "./a/b", str "a/b", some (str ".")),
    (str "a/b", str "./a/b", some (str ".")),
    (str "ab/cd", str "ab/cde", some (str "../cde")),
    (str "ab/cd", str "ab/c", some (str "../c")),
    (str "a/b", str "a/b/c/d", some (str "c/d")),
    (str "a/b", str "a/b/../c", some (str "../c")),
    (str "a/b/../c", str "a/b", some (str "../b")),
    (str "a/b/c", str "a/c/d", some (str "../../c/d")),
    (str "a/b", str "c/d", some (str "../../c/d")),
    (str "a/b/c/d", str "a/b", some (str "../..")),
    (str "a/b/c/d", str "a/b/", some (str "../..")),
    (str "a/b/c/d/", str "a/b", some (str "../..")),
    (str "a/b/c/d/", str "a/b/", some (str "../..")),
    (str "../../a/b", str "../../a/b/c/d", some (str "c/d")),
    (str "/a/b", str "/a/b", some (str ".")),
    (str "/a/b/.", str "/a/b", some (str ".")),
    (str "/a/b", str "/a/b/.", some (str ".")),
    (str "/ab/cd", str "/ab/cde", some (str "../cde")),
    (str "/ab/cd", str "/ab/c", some (str "../c")),
    (str "/a/b", str "/a/b/c/d", some (str "c/d")),
    (str "/a/b", str "/a/b/../c", some (str "../c")),
    (str "/a/b/../c", str "/a/b", some (str "../b")),
    (str "/a/b/c", str "/a/c/d", some (str "../../c/d")),
    (str "/a/b", str "/c/d", some (str "../../c/d")),
    (str "/a/b/c/d", str "/a/b", some (str "../..")),
    (str "/a/b/c/d", str "/a/b/", some (str "../..")),
    (str "/a/b/c/d/", str "/a/b", some (str "../..")),
    (str "/a/b/c/d/", str "/a/b/", some (str "../..")),
    (str "/../../a/b", str "/../../a/b/c/d", some (str "c/d")),
    (str ".", str "a/b", some (str "a/b")),
    (str ".", str "..", some (str "..")),
    (str "..", str ".", none),
    (str "..", str "a", none),
    (str "a", str "/a", none),
    (str "/a", str "a", none) ]

/-- Entries of the tables `basetests` and `exttests` of `path/filepath`. -/
def baseTests : List (Str × Str) :=
  [ (str "", str "."),
    (str ".", str "."),
    (str "/.", str "."),
    (str "/", str "/"),
    (str "////", str "/"),
    (str "x/", str "x"),
    (str "abc", str "abc"),
    (str "abc/def", str "def"),
    (str "a/b/.x", str ".x"),
    (str "a/b/c.", str "c."),
    (str "a/b/c.x", str "c.x") ]

/-- Entries of the table `exttests` of `path/filepath`. -/
def extTests : List (Str × Str) :=
  [ (str "path.go", str ".go"),
    (str "path.pb.go", str ".go"),
    (str "a.dir/b", str ""),
    (str "a.dir/b.go", str ".go"),
    (str "a.dir/", str "") ]

/-- Inputs and results of `strings.TrimSpace`. -/
def trimSpaceTests : List (Str × Str) :=
  [ (str "  a b \t", str "a b"),
    (str "\t*.log\r", str "*.log"),
    (str "\n \t", str ""),
    (str "  é\u00a0", str "é"),
    (str "\u3000x\u2003", str "x"),
    (str "# c ", str "# c") ]

/-- The project tree of `TestProcessProject`; `output.md` is the open output document. -/
def testProject : Node :=
  .dir true
    (.cons (str "README.md") (.file (.data (str "# Test Project\n")))
    (.cons (str "build") (.dir true (.cons (str "binary") (.file (.data [0, 1, 2, 3])) .nil))
    (.cons (str "docs.md")
      (.file (.data (str "# Documentation\n\n```go\nfunc example() {}\n```\n")))
    (.cons (str "main.go") (.file (.data (str "package main\n\nfunc main() {}\n")))
    (.cons (str "output.md") .document
    (.cons (str "utils")
      (.dir true
        (.cons (str "helper.go") (.file (.data (str "package utils\n\nfunc Helper() {}\n")))
          .nil))
      .nil))))))

/-- The extension-to-tag table of the specification: the cases of the `switch` in
`determineCodeFence`, as pairs. -/
def codeFenceTable : List (Str × Str) :=
  [ (str ".go", str "go"), (str ".js", str "javascript"), (str ".ts", str "typescript"),
    (str ".py", str "python"), (str ".java", str "java"), (str ".c", str "cpp"),
    (str ".cpp", str "cpp"), (str ".h", str "cpp"), (str ".hpp", str "cpp"),
    (str ".rb", str "ruby"), (str ".php", str "php"), (str ".sh", str "bash"),
    (str ".md", str "markdown"), (str ".html", str "html"), (str ".css", str "css"),
    (str ".json", str "json"), (str ".xml", str "xml"), (str ".yaml", str "yaml"),
    (str ".yml", str "yaml"), (str ".sql", str "sql"), (str ".rs", str "rust"),
    (str ".kt", str "kotlin"), (str ".swift", str "swift"), (str ".cs", str "csharp"),
    (str ".fs", str "fsharp") ]

/-- No rules, the output option set to the relative path `out/doc.txt`. -/
def outputPathGlobals : Globals :=
  { rules := { ignoredPaths := [], ignoredPatterns := [], ignoredDirs := [] }
    outputFile := str "out/doc.txt"
    rootDir := str "/r" }

/-- A project holding its own open output document `out/doc.txt` next to `main.go`. -/
def outputPathTree : Node :=
  .dir true
    (.cons (str "main.go") (.file (.data (str "package main\n")))
    (.cons (str "out") (.dir true (.cons (str "doc.txt") .document .nil))
      .nil))

/-- The globals the tool starts with: the default rules, the default output name. -/
def defaultGlobals : Globals :=
  { rules := defaultRules, outputFile := str "project-prompt.md", rootDir := str "/r" }

/-- The defaults without the file pattern `*.md`. -/
def defaultGlobalsNoMd : Globals :=
  { defaultGlobals with
    rules := { defaultRules with ignoredPatterns := [str "*.log", str "tmp/"] } }

/-- The scenario tree: `image.png` with text-like content, `main.go`, and `notes.md`
holding a fenced block. -/
def scenarioTree : Node :=
  .dir true
    (.cons (str "image.png") (.file (.data (str "fake png content")))
    (.cons (str "main.go") (.file (.data (str "package main\n")))
    (.cons (str "notes.md") (.file (.data (str "# Notes\n```go\nx := 1\n```\n"))) .nil)))

/-- Globals with the single file pattern `pat`, no exact paths, and the given directory
rules, output name and root. -/
def singlePattern (pat : Str) (dirs : List Str) (outputFile rootDir : Str) : Globals :=
  { rules := { ignoredPaths := [], ignoredPatterns := [pat], ignoredDirs := dirs }
    outputFile := outputFile
    rootDir := rootDir }

/-- Globals with the patterns `*.log`, `*.tmp`, `*.log` and the directory rules `.git`,
`dist`. -/
def orderGlobals : Globals :=
  { rules :=
      { ignoredPaths := []
        ignoredPatterns := [str "*.log", str "*.tmp", str "*.log"]
        ignoredDirs := [str ".git", str "dist"] }
    outputFile := str "project-prompt.md"
    rootDir := str "." }

/-- What one directory rule contributes to `shouldIgnoreDir`. -/
def dirRuleHits (rootDir p rule : Str) : Prop :=
  globMatches rule (filepath.Base p) ∨
    (str "**/" <:+: rule ∧
      ∃ rp, filepath.Rel rootDir p = some rp ∧
        globMatches (strings.ReplaceAll rule (str "**") (str "*")) rp)

/-- A pattern byte that stands for itself: not `*`, `?`, `[`, a backslash or `]`. -/
def plainByte (c : Nat) : Prop := c ≠ 42 ∧ c ≠ 63 ∧ c ≠ 91 ∧ c ≠ 92 ∧ c ≠ 93

instance (c : Nat) : Decidable (plainByte c) := by
  unfold plainByte; infer_instance

/-- A project whose only file is `tmp/notes.txt`. -/
def tmpTree : Node :=
  .dir true
    (.cons (str "tmp") (.dir true (.cons (str "notes.txt") (.file (.data (str "keep\n"))) .nil))
      .nil)


/-- A name as `readDirNames` returns it: not empty, without `/`, and neither `.` nor
`..`. -/
def goodName (n : Str) : Bool := decide (n ≠ [] ∧ 47 ∉ n ∧ n ≠ [46] ∧ n ≠ [46, 46])

/-- The names each preceded by a separator: `/a/b/c`. -/
def slashed : List Str → Str
  | [] => []
  | n :: ns => 47 :: n ++ slashed ns

/-- The absolute path with the given elements, as `os.Getwd` returns it: `/` when there
is none, else `/a/b/c`. -/
def absPath (segs : List Str) : Str := if segs = [] then [47] else slashed segs

/-- The path of the names below the root, relative to the root: `.` for the root itself,
else `a/b/c`. -/
def relPathOf (names : List Str) : Str := if names = [] then [46] else (slashed names).tail

mutual
/-- The tree enumerates without error: every directory lists its names, every name is a
name a directory listing can return, and every name can be examined. -/
def enumeratesNode : Node → Bool
  | .file _ => true
  | .document => true
  | .nostat => false
  | .dir listable entries => listable && enumeratesEntries entries
/-- The entries of a directory enumerate without error. -/
def enumeratesEntries : Entries → Bool
  | .nil => true
  | .cons name node rest => goodName name && enumeratesNode node && enumeratesEntries rest
end

/-- The entry of the file reached from the root by `names`, in the words of the
specification: its serialized entry when its root-relative path is not ignored, it is not
binary and its content can be read, and nothing otherwise. -/
def expectedEntry (g : Globals) (root names : List Str) (fd : FileData) : Str :=
  if shouldIgnoreFile g (relPathOf names) then []
  else if isBinaryFile (absPath (root ++ names)) fd then []
  else
    match fd with
    | .data content => formatEntry (absPath (root ++ names)) (relPathOf names) content
    | _ => []

mutual
/-- The output document in the words of the specification, after the node reached from
the root by `names`, `doc` being the document before it: a file adds its entry, a pruned
directory adds nothing, another directory adds what its entries add, in enumeration
order. The open output document, met as a file, has the content `doc`. -/
def expectedNode (g : Globals) (root : List Str) : Node → List Str → Str → Str
  | .file fd, names, doc => doc ++ expectedEntry g root names fd
  | .document, names, doc => doc ++ expectedEntry g root names (.data doc)
  | .nostat, _, doc => doc
  | .dir _ entries, names, doc =>
    if shouldIgnoreDir g (absPath (root ++ names)) then doc
    else expectedEntries g root entries names doc
/-- The output document after the entries of the directory at `names`. -/
def expectedEntries (g : Globals) (root : List Str) : Entries → List Str → Str → Str
  | .nil, _, doc => doc
  | .cons name node rest, names, doc =>
    expectedEntries g root rest names (expectedNode g root node (names ++ [name]) doc)
end

/-- A project with an unreadable file, a file that cannot be opened, a binary file, a
pruned directory and two readable sources. -/
def mixedTree : Node :=
  .dir true
    (.cons (str "a.go") (.file (.data (str "package a\n")))
    (.cons (str "locked.txt") (.file .readError)
    (.cons (str "gone.txt") (.file .openError)
    (.cons (str "img.png") (.file (.data (str "PNG")))
    (.cons (str "build") (.dir true (.cons (str "x.go") (.file (.data (str "package x\n"))) .nil))
    (.cons (str "sub") (.dir true (.cons (str "b.py") (.file (.data (str "pass\n"))) .nil))
      .nil))))))


/-- The bytes one end of a range of a bracket expression is read from: an optional
backslash, then one ASCII byte or the two to four bytes, all at least `0x80`, of a longer
rune; without the backslash the first byte is none of `-`, `]` and the backslash. -/
def classItem (item : Str) : Prop :=
  ∃ esc body, item = esc ++ body ∧
    ((esc = [] ∧ body.head? ≠ some 45 ∧ body.head? ≠ some 93 ∧ body.head? ≠ some 92) ∨
      esc = [92]) ∧
    ((∃ c, body = [c] ∧ c < 0x80) ∨ (body ≠ [] ∧ ∀ b ∈ body, 0x80 ≤ b))

/-- The rewriting of a directory rule in `shouldIgnoreDir` in plain words: reading left to
right, each pair of stars becomes one star and every other byte is copied. -/
def collapseStars : Str → Str
  | 42 :: 42 :: rest => 42 :: collapseStars rest
  | c :: rest => c :: collapseStars rest
  | [] => []

/-! # Theorems -/

/-! ## String literals and basic facts about `strings` -/

theorem str_hash : str "#" = [35] := by decide
theorem str_bang : str "!" = [33] := by decide
theorem str_slash : str "/" = [47] := by decide
theorem str_star : str "*" = [42] := by decide
theorem str_starstar : str "**" = [42, 42] := by decide
theorem str_starstarslash : str "**/" = [42, 42, 47] := by decide

theorem hasPrefix_single (s : Str) (c : Nat) :
    strings.HasPrefix s [c] = true ↔ s.head? = some c := by
  cases s with
  | nil => simp [strings.HasPrefix, List.isPrefixOf]
  | cons a t =>
    simp only [strings.HasPrefix, List.isPrefixOf, List.head?_cons, Option.some.injEq]
    simp only [Bool.and_true, beq_iff_eq]
    exact eq_comm

theorem hasSuffix_iff (s suf : Str) : strings.HasSuffix s suf = true ↔ suf <:+ s := by
  unfold strings.HasSuffix
  exact List.isSuffixOf_iff_suffix

theorem hasSuffix_single (s : Str) (c : Nat) :
    strings.HasSuffix s [c] = true ↔ s.getLast? = some c := by
  rw [hasSuffix_iff]
  constructor
  · rintro ⟨t, rfl⟩
    simp
  · intro h
    rcases List.getLast?_eq_some_iff.mp h with ⟨t, rfl⟩
    exact ⟨t, rfl⟩

theorem trimSuffix_single (s : Str) (c : Nat) (h : s.getLast? = some c) :
    strings.TrimSuffix s [c] = s.dropLast := by
  unfold strings.TrimSuffix
  rw [(hasSuffix_single s c).mpr h]
  simp [List.dropLast_eq_take]

theorem contains_iff_sublist (s sub : Str) : strings.Contains s sub = true ↔ sub <:+: s := by
  induction s with
  | nil => simp [strings.Contains, List.isEmpty_iff]
  | cons c cs ih =>
    rw [strings.Contains, Bool.or_eq_true, ih, List.isPrefixOf_iff_prefix, List.infix_cons_iff]

theorem contains_single (s : Str) (c : Nat) : strings.Contains s [c] = true ↔ c ∈ s := by
  rw [contains_iff_sublist]
  constructor
  · intro h
    exact h.subset (List.mem_singleton_self c)
  · intro h
    obtain ⟨a, b, rfl⟩ := List.append_of_mem h
    exact ⟨a, b, by simp⟩

/-! ## The ignore-file parser -/

theorem parseLine_eq (rs : RuleSet) (text : Str) :
    parseLine rs text =
      { ignoredPaths := rs.ignoredPaths
        ignoredPatterns := rs.ignoredPatterns ++
          ([strings.TrimSpace text].filter fun t => isRuleLine t && !endsWithSlash t)
        ignoredDirs := rs.ignoredDirs ++
          (([strings.TrimSpace text].filter fun t => isRuleLine t && endsWithSlash t).map
            List.dropLast) } := by
  unfold parseLine
  simp only [str_hash, str_bang, str_slash]
  generalize strings.TrimSpace text = t
  by_cases h0 : t = []
  · subst h0; simp [isRuleLine]
  by_cases h1 : t.head? = some 35
  · simp [h0, (hasPrefix_single t 35).mpr h1, isRuleLine, h1]
  have e1 : strings.HasPrefix t [35] = false := by
    rw [Bool.eq_false_iff]; intro h; exact h1 ((hasPrefix_single t 35).mp h)
  by_cases h2 : t.head? = some 33
  · simp [h0, (hasPrefix_single t 33).mpr h2, isRuleLine, h2, e1]
  have e2 : strings.HasPrefix t [33] = false := by
    rw [Bool.eq_false_iff]; intro h; exact h2 ((hasPrefix_single t 33).mp h)
  by_cases h3 : t.getLast? = some 47
  · simp [h0, e1, e2, (hasSuffix_single t 47).mpr h3, isRuleLine, h1, h2, endsWithSlash, h3,
      trimSuffix_single t 47 h3]
  · have e3 : strings.HasSuffix t [47] = false := by
      rw [Bool.eq_false_iff]; intro h; exact h3 ((hasSuffix_single t 47).mp h)
    simp [h0, e1, e2, e3, isRuleLine, h1, h2, endsWithSlash, h3]

theorem parseLines_eq (rs : RuleSet) (lines : List Str) :
    parseLines rs lines =
      { ignoredPaths := rs.ignoredPaths
        ignoredPatterns := rs.ignoredPatterns ++
          ((lines.map strings.TrimSpace).filter fun t => isRuleLine t && !endsWithSlash t)
        ignoredDirs := rs.ignoredDirs ++
          (((lines.map strings.TrimSpace).filter fun t => isRuleLine t && endsWithSlash t).map
            List.dropLast) } := by
  induction lines generalizing rs with
  | nil => simp [parseLines]
  | cons l ls ih =>
    rw [parseLines, ih, parseLine_eq]
    simp only [List.map_cons, List.filter_cons, List.filter_nil]
    by_cases hr : isRuleLine (strings.TrimSpace l) = true <;>
      by_cases hs : endsWithSlash (strings.TrimSpace l) = true <;>
      simp [hr, hs]

/-! ## The scanner -/

theorem scanFrom_line (e : Bool) (l : Str) (h : 10 ∉ l) : ∀ (rest line : Str),
    bufio.scanFrom e (l ++ rest) line = bufio.scanFrom e rest (l.reverse ++ line) := by
  induction l with
  | nil => intro rest line; rfl
  | cons c cs ih =>
    intro rest line
    have hc : c ≠ 10 := fun h0 => h (by simp [h0])
    have hcs : 10 ∉ cs := fun h0 => h (by simp [h0])
    rw [List.cons_append, bufio.scanFrom, if_neg hc, ih hcs]
    simp

theorem scanFrom_last (e : Bool) (last : Str) (h : 10 ∉ last) :
    (bufio.scanFrom e last []).1 =
      ((if last = [] then [] else [last]).takeWhile fun l =>
        decide (l.length < bufio.MaxScanTokenSize)).map bufio.dropCR := by
  have := scanFrom_line e last h [] []
  rw [List.append_nil] at this
  rw [this, bufio.scanFrom]
  simp only [List.append_nil, List.length_reverse, List.reverse_eq_nil_iff, List.reverse_reverse]
  by_cases h0 : last = []
  · subst h0
    simp [bufio.MaxScanTokenSize]
  · by_cases h1 : bufio.MaxScanTokenSize ≤ last.length
    · simp [h0, h1, List.takeWhile]
    · simp [h0, h1, List.takeWhile, Nat.lt_of_not_le h1]

/-- The scanner delivers the lines of the file before the first line that is too long. -/
theorem scan_fileOfLines (e : Bool) (lines : List Str) (last : Str)
    (hl : ∀ l ∈ lines, 10 ∉ l) (hlast : 10 ∉ last) :
    (bufio.Scan { data := fileOfLines lines last, readError := e }).1 =
      scannedLines lines last := by
  unfold bufio.Scan scannedLines linesOf
  simp only
  induction lines with
  | nil =>
    rw [fileOfLines, List.nil_append]
    exact scanFrom_last e last hlast
  | cons l ls ih =>
    have h1 : 10 ∉ l := hl l (by simp)
    have h2 : ∀ x ∈ ls, 10 ∉ x := fun x hx => hl x (by simp [hx])
    rw [fileOfLines, scanFrom_line e l h1, bufio.scanFrom]
    simp only [if_true, List.append_nil, List.length_reverse, List.reverse_reverse,
      List.cons_append]
    by_cases hlen : bufio.MaxScanTokenSize ≤ l.length
    · rw [if_pos hlen, List.takeWhile_cons_of_neg (by simpa using hlen)]
      rfl
    · rw [if_neg hlen, List.takeWhile_cons_of_pos (by simpa using hlen), List.map_cons]
      simp only
      rw [ih h2]

theorem parseGitignore_eq (rs : RuleSet) (e : Bool) (lines : List Str) (last : Str)
    (hl : ∀ l ∈ lines, 10 ∉ l) (hlast : 10 ∉ last) :
    parseGitignore rs (some { data := fileOfLines lines last, readError := e }) =
      parseLines rs (scannedLines lines last) := by
  rw [parseGitignore, scan_fileOfLines e lines last hl hlast]

theorem scannedLines_short (lines : List Str) (last : Str)
    (h : ∀ l ∈ linesOf lines last, l.length < bufio.MaxScanTokenSize) :
    scannedLines lines last = (linesOf lines last).map bufio.dropCR := by
  unfold scannedLines
  rw [List.takeWhile_eq_self_iff.mpr (by simpa using h)]

theorem longLine_length : longLine.length = bufio.MaxScanTokenSize := by
  simp [longLine]

theorem longLine_no_newline : 10 ∉ longLine := by
  simp [longLine, List.mem_replicate]

theorem scannedLines_long (l : Str) (ls : List Str) (last : Str)
    (h : bufio.MaxScanTokenSize ≤ l.length) : scannedLines (l :: ls) last = [] := by
  unfold scannedLines linesOf
  rw [List.cons_append, List.takeWhile_cons_of_neg (by simpa using h)]
  rfl

theorem scannedLines_cons (l : Str) (ls : List Str) (last : Str)
    (h : l.length < bufio.MaxScanTokenSize) :
    scannedLines (l :: ls) last = bufio.dropCR l :: scannedLines ls last := by
  unfold scannedLines linesOf
  rw [List.cons_append, List.takeWhile_cons_of_pos (by simpa using h)]
  rfl

/-- Every file content is the content of a file given by its lines. -/
theorem fileOfLines_surjective (data : Str) :
    ∃ lines last, (∀ l ∈ lines, 10 ∉ l) ∧ 10 ∉ last ∧ fileOfLines lines last = data := by
  induction data with
  | nil => exact ⟨[], [], by simp, by simp, rfl⟩
  | cons c cs ih =>
    obtain ⟨lines, last, h1, h2, h3⟩ := ih
    by_cases hc : c = 10
    · refine ⟨[] :: lines, last, ?_, h2, ?_⟩
      · intro l hl
        rcases List.mem_cons.mp hl with rfl | hl
        · simp
        · exact h1 l hl
      · rw [fileOfLines, h3, hc]
        rfl
    · cases lines with
      | nil =>
        refine ⟨[], c :: last, by simp, ?_, ?_⟩
        · intro h
          rcases List.mem_cons.mp h with h | h
          · exact hc h.symm
          · exact h2 h
        · rw [fileOfLines] at h3 ⊢
          rw [h3]
      | cons l ls =>
        refine ⟨(c :: l) :: ls, last, ?_, h2, ?_⟩
        · intro x hx
          rcases List.mem_cons.mp hx with rfl | hx
          · intro h
            rcases List.mem_cons.mp h with h | h
            · exact hc h.symm
            · exact h1 l (by simp) h
          · exact h1 x (by simp [hx])
        · rw [fileOfLines] at h3 ⊢
          rw [← h3]
          rfl

/-- C1, as stated, fails: in the file whose first line has 65536 bytes `a` and whose second
line is `*.txt`, the scanner stops at the first line with `ErrTooLong`, and `*.txt`, a
rule line by the claim, is not added: the patterns stay the defaults. -/
theorem c1_long_line_counterexample :
    (parseGitignore defaultRules
        (some { data := fileOfLines [longLine, str "*.txt"] [], readError := false })
      ).ignoredPatterns = defaultRules.ignoredPatterns ∧
      str "*.txt" ∉ defaultRules.ignoredPatterns ∧
      strings.TrimSpace (str "*.txt") = str "*.txt" ∧
      isRuleLine (str "*.txt") = true ∧ endsWithSlash (str "*.txt") = false ∧
      longLine.length = 65536 ∧ 10 ∉ longLine ∧
      (bufio.Scan { data := fileOfLines [longLine, str "*.txt"] [], readError := false }).2
        = some .tooLong := by
  have hl : ∀ l ∈ [longLine, str "*.txt"], 10 ∉ l := by
    intro l h
    simp only [List.mem_cons, List.mem_singleton, List.not_mem_nil, or_false] at h
    rcases h with rfl | rfl
    · exact longLine_no_newline
    · decide
  refine ⟨?_, by decide, by decide, by decide, by decide, longLine_length, longLine_no_newline, ?_⟩
  · rw [parseGitignore_eq _ _ _ _ hl (by simp),
      scannedLines_long _ _ _ (le_of_eq longLine_length.symm)]
    rfl
  · unfold bufio.Scan
    simp only [fileOfLines]
    rw [scanFrom_line false longLine longLine_no_newline, bufio.scanFrom]
    simp [longLine_length]

/-- C1, amended: `parseGitignore` is a left-to-right fold over the lines the scanner
delivers, which are the lines of the ignore file before the first line of 65536 bytes or
more, each without its final carriage return (all lines, when every line is shorter).
With `t` the whitespace-trimmed text of a delivered line, `ignoredDirs` grows, in file
order, by `t` without its last byte (the one trailing `/`) for each line whose `t` is
non-empty, does not start with `#` or `!` and ends with `/`; `ignoredPatterns` grows, in
file order, by `t` itself for each line whose `t` is non-empty, does not start with `#` or
`!` and does not end with `/`; `ignoredPaths` is unchanged. A read error changes nothing
of this, and a file that cannot be opened leaves the rule set as it is. The file is given
by its lines (`lines`, each ended by a newline, then `last`, not ended by one); every
file content is of this form. -/
theorem c1_parseGitignore_fold (rs : RuleSet) (lines : List Str) (last : Str)
    (readError : Bool) (hl : ∀ l ∈ lines, 10 ∉ l) (hlast : 10 ∉ last) :
    (parseGitignore rs (some { data := fileOfLines lines last, readError := readError })
        ).ignoredDirs =
        rs.ignoredDirs ++
          ((((scannedLines lines last).map strings.TrimSpace).filter fun t =>
              t ≠ [] && t.head? ≠ some 35 && t.head? ≠ some 33 && t.getLast? = some 47).map
            List.dropLast) ∧
      (parseGitignore rs (some { data := fileOfLines lines last, readError := readError })
        ).ignoredPatterns =
        rs.ignoredPatterns ++
          (((scannedLines lines last).map strings.TrimSpace).filter fun t =>
              t ≠ [] && t.head? ≠ some 35 && t.head? ≠ some 33 && !(t.getLast? = some 47)) ∧
      (parseGitignore rs (some { data := fileOfLines lines last, readError := readError })
        ).ignoredPaths = rs.ignoredPaths ∧
      ((∀ l ∈ linesOf lines last, l.length < 65536) →
        scannedLines lines last = (linesOf lines last).map bufio.dropCR) ∧
      parseGitignore rs none = rs ∧
      ∀ data : Str, ∃ ls la, (∀ l ∈ ls, 10 ∉ l) ∧ 10 ∉ la ∧ fileOfLines ls la = data := by
  rw [parseGitignore_eq rs readError lines last hl hlast, parseLines_eq]
  refine ⟨rfl, rfl, rfl, scannedLines_short lines last, rfl, fileOfLines_surjective⟩

set_option maxRecDepth 100000 in
/-- Witness for C1: the file of `TestGitignoreParsing`-like lines `*.log`, `# c`, `dist/`,
and an unterminated last line `!keep`, on the default rules. -/
theorem c1_parseGitignore_fold_witness :
    (parseGitignore defaultRules
        (some { data := fileOfLines [str "*.log", str "# c", str "dist/"] (str "!keep"),
                readError := false })).ignoredDirs =
        defaultRules.ignoredDirs ++
          ((((scannedLines [str "*.log", str "# c", str "dist/"] (str "!keep")).map
              strings.TrimSpace).filter fun t =>
              t ≠ [] && t.head? ≠ some 35 && t.head? ≠ some 33 && t.getLast? = some 47).map
            List.dropLast) ∧
      (parseGitignore defaultRules
        (some { data := fileOfLines [str "*.log", str "# c", str "dist/"] (str "!keep"),
                readError := false })).ignoredPatterns =
        defaultRules.ignoredPatterns ++
          (((scannedLines [str "*.log", str "# c", str "dist/"] (str "!keep")).map
              strings.TrimSpace).filter fun t =>
              t ≠ [] && t.head? ≠ some 35 && t.head? ≠ some 33 && !(t.getLast? = some 47)) ∧
      (parseGitignore defaultRules
        (some { data := fileOfLines [str "*.log", str "# c", str "dist/"] (str "!keep"),
                readError := false })).ignoredPaths = defaultRules.ignoredPaths ∧
      ((∀ l ∈ linesOf [str "*.log", str "# c", str "dist/"] (str "!keep"), l.length < 65536) →
        scannedLines [str "*.log", str "# c", str "dist/"] (str "!keep") =
          (linesOf [str "*.log", str "# c", str "dist/"] (str "!keep")).map bufio.dropCR) ∧
      parseGitignore defaultRules none = defaultRules ∧
      ∀ data : Str, ∃ ls la, (∀ l ∈ ls, 10 ∉ l) ∧ 10 ∉ la ∧ fileOfLines ls la = data :=
  c1_parseGitignore_fold defaultRules [str "*.log", str "# c", str "dist/"] (str "!keep") false
    (by decide) (by decide)

/-- The model of the scanner on small files: lines with and without a final newline,
carriage returns, and empty lines. -/
theorem scan_examples :
    bufio.Scan { data := str "a\nb\n", readError := false } = ([str "a", str "b"], none) ∧
      bufio.Scan { data := str "a\r\nb", readError := false } = ([str "a", str "b"], none) ∧
      bufio.Scan { data := str "\n\nx\r", readError := false } = ([[], [], str "x"], none) ∧
      bufio.Scan { data := str "", readError := false } = ([], none) ∧
      bufio.Scan { data := str "a\nb", readError := true } = ([str "a", str "b"], some .read) := by
  decide

/-! ## The path classifier -/

theorem matched_iff (pattern name : Str) :
    filepath.matched pattern name = true ↔ globMatches pattern name := by
  simp [filepath.matched, globMatches]

theorem mem_iff_contains_slash (pat : Str) : strings.Contains pat (str "/") = true ↔ 47 ∈ pat := by
  rw [str_slash, contains_single]

theorem shouldIgnoreFileLoop_iff (relPath : Str) (pats : List Str) :
    shouldIgnoreFileLoop relPath pats = true ↔ ∃ pat ∈ pats, fileRuleHits relPath pat := by
  induction pats with
  | nil => simp [shouldIgnoreFileLoop]
  | cons pat rest ih =>
    rw [shouldIgnoreFileLoop, List.exists_mem_cons_iff, ← ih]
    unfold fileRuleHits
    rw [str_star]
    by_cases hs : 47 ∈ pat
    · have hc := (mem_iff_contains_slash pat).mpr hs
      by_cases hm : filepath.matched pat relPath = true
      · have := (matched_iff _ _).mp hm
        simp [hc, hm, hs, this]
      · have : ¬ globMatches pat relPath := fun h => hm ((matched_iff _ _).mpr h)
        simp [hc, hm, hs, this]
    · have hc : strings.Contains pat (str "/") = false := by
        rw [Bool.eq_false_iff]; exact fun h => hs ((mem_iff_contains_slash pat).mp h)
      by_cases hm : filepath.matched pat (filepath.Base relPath) = true
      · have := (matched_iff _ _).mp hm
        simp [hc, hm, hs, this]
      · have hm' : ¬ globMatches pat (filepath.Base relPath) :=
          fun h => hm ((matched_iff _ _).mpr h)
        by_cases hp : pat.head? = some 42
        · have hp' := (hasPrefix_single pat 42).mpr hp
          by_cases he : filepath.Ext relPath = []
          · simp [hc, hm, hs, hm', hp, hp', he]
          · by_cases hx : filepath.Ext relPath <:+ pat
            · have := (hasSuffix_iff _ _).mpr hx
              simp [hc, hm, hs, hm', hp, hp', he, hx, this]
            · have : strings.HasSuffix pat (filepath.Ext relPath) = false := by
                rw [Bool.eq_false_iff]; exact fun h => hx ((hasSuffix_iff _ _).mp h)
              simp [hc, hm, hs, hm', hp, hp', he, hx, this]
        · have hp' : strings.HasPrefix pat [42] = false := by
            rw [Bool.eq_false_iff]; exact fun h => hp ((hasPrefix_single pat 42).mp h)
          simp [hc, hm, hs, hm', hp, hp']

theorem shouldIgnoreFile_iff (g : Globals) (p : Str) :
    shouldIgnoreFile g p = true ↔
      mapGet g.rules.ignoredPaths (filepath.ToSlash p) = true ∨
        (∃ pat ∈ g.rules.ignoredPatterns, fileRuleHits p pat) ∨
        filepath.Base p = g.outputFile := by
  unfold shouldIgnoreFile
  rw [← shouldIgnoreFileLoop_iff]
  by_cases h1 : mapGet g.rules.ignoredPaths (filepath.ToSlash p) = true
  · simp [h1]
  · by_cases h2 : shouldIgnoreFileLoop p g.rules.ignoredPatterns = true
    · simp [h1, h2]
    · by_cases h3 : filepath.Base p = g.outputFile <;> simp [h1, h2, h3]

/-- C2: `shouldIgnoreFile` is the exact disjunction of its five conditions: the
forward-slash path is in `ignoredPaths`; a pattern with `/` glob-matches the path; a
pattern without `/` glob-matches the basename; a pattern without `/` starts with `*`
and the non-empty extension of the path is a suffix of it; the basename is the output
file name. Under the patterns `*.log`, `*.tmp`, `secret.txt` the paths `main.go` and
`src/utils.js` meet none of them and are not skipped. -/
theorem c2_shouldIgnoreFile_iff (g : Globals) (p : Str) :
    (shouldIgnoreFile g p = true ↔
      mapGet g.rules.ignoredPaths (filepath.ToSlash p) = true ∨
        (∃ pat ∈ g.rules.ignoredPatterns, 47 ∈ pat ∧ globMatches pat p) ∨
        (∃ pat ∈ g.rules.ignoredPatterns, 47 ∉ pat ∧ globMatches pat (filepath.Base p)) ∨
        (∃ pat ∈ g.rules.ignoredPatterns,
          47 ∉ pat ∧ pat.head? = some 42 ∧ filepath.Ext p ≠ [] ∧ filepath.Ext p <:+ pat) ∨
        filepath.Base p = g.outputFile) ∧
      shouldIgnoreFile fileTestGlobals (str "main.go") = false ∧
      shouldIgnoreFile fileTestGlobals (str "src/utils.js") = false := by
  refine ⟨?_, by decide, by decide⟩
  rw [shouldIgnoreFile_iff]
  unfold fileRuleHits
  constructor
  · rintro (h | ⟨pat, hp, h | h | h⟩ | h)
    · exact Or.inl h
    · exact Or.inr (Or.inl ⟨pat, hp, h⟩)
    · exact Or.inr (Or.inr (Or.inl ⟨pat, hp, h⟩))
    · exact Or.inr (Or.inr (Or.inr (Or.inl ⟨pat, hp, h⟩)))
    · exact Or.inr (Or.inr (Or.inr (Or.inr h)))
  · rintro (h | ⟨pat, hp, h⟩ | ⟨pat, hp, h⟩ | ⟨pat, hp, h⟩ | h)
    · exact Or.inl h
    · exact Or.inr (Or.inl ⟨pat, hp, Or.inl h⟩)
    · exact Or.inr (Or.inl ⟨pat, hp, Or.inr (Or.inl h)⟩)
    · exact Or.inr (Or.inl ⟨pat, hp, Or.inr (Or.inr h)⟩)
    · exact Or.inr (Or.inr h)



/-! ## `filepath.Match` on the empty name -/

theorem matchChunkLoop_failed (fuel : Nat) :
    ∀ (chunk s : Str) (failed : Bool), failed = true ∨ (s = [] ∧ chunk ≠ []) →
      filepath.matchChunkLoop fuel chunk s failed = none ∨
        filepath.matchChunkLoop fuel chunk s failed = some none := by
  induction fuel with
  | zero => intro chunk s failed _; left; rfl
  | succ fuel ih =>
    intro chunk s failed h
    cases chunk with
    | nil =>
      rcases h with h | ⟨_, h⟩
      · right; simp [filepath.matchChunkLoop, h]
      · exact absurd rfl h
    | cons c cs =>
      have hf : (failed || s.isEmpty) = true := by
        rcases h with h | ⟨h, _⟩
        · simp [h]
        · simp [h]
      rw [filepath.matchChunkLoop]
      simp only [hf]
      split
      · split
        · left; rfl
        · exact ih _ _ _ (Or.inl (by simp))
      · split
        · exact ih _ _ _ (Or.inl (by simp))
        · split
          · left; rfl
          · exact ih _ _ _ (Or.inl (by simp))

theorem matchChunk_nil (chunk : Str) (h : chunk ≠ []) :
    filepath.matchChunk chunk [] = none ∨ filepath.matchChunk chunk [] = some none :=
  matchChunkLoop_failed _ chunk [] false (Or.inr ⟨rfl, h⟩)

theorem scanSplit_fst_nil (s : Str) (h : (filepath.scanSplit false s).1 = []) :
    s = [] ∨ s.head? = some 42 := by
  cases s with
  | nil => left; rfl
  | cons c cs =>
    right
    rw [filepath.scanSplit.eq_def] at h
    simp only at h
    by_cases h42 : c = 42
    · simp [h42]
    · exfalso
      repeat' split at h
      all_goals simp at h

theorem dropWhile_star_head (p : Str) : (p.dropWhile (· == 42)).head? ≠ some 42 := by
  induction p with
  | nil => simp
  | cons c cs ih =>
    rw [List.dropWhile_cons]
    split
    · exact ih
    · rename_i h
      simpa using h

theorem scanChunk_chunk_nil (pattern : Str) (h : (filepath.scanChunk pattern).2.1 = []) :
    ∀ c ∈ pattern, c = 42 := by
  have h' : (filepath.scanSplit false (pattern.dropWhile (· == 42))).1 = [] := h
  rcases scanSplit_fst_nil _ h' with h0 | h0
  · intro c hc
    have := List.dropWhile_eq_nil_iff.mp h0 c hc
    simpa using this
  · exact absurd h0 (dropWhile_star_head pattern)

theorem starLoop_nil (chunk : Str) (last : Bool) : filepath.starLoop chunk last [] = some none := rfl

theorem matchLoop_nil_true (fuel : Nat) (pattern : Str)
    (h : filepath.matchLoop fuel pattern [] = some true) : ∀ c ∈ pattern, c = 42 := by
  cases fuel with
  | zero => simp [filepath.matchLoop] at h
  | succ fuel =>
    rw [filepath.matchLoop] at h
    by_cases hp : pattern = []
    · subst hp; simp
    · simp only [hp, if_false] at h
      by_cases hc : (filepath.scanChunk pattern).2.1 = []
      · exact scanChunk_chunk_nil pattern hc
      · exfalso
        have hm := matchChunk_nil _ hc
        simp only [hc, decide_False, Bool.and_false, Bool.false_eq_true, if_false] at h
        rcases hm with hm | hm
        · rw [hm] at h; simp at h
        · rw [hm] at h
          simp only [starLoop_nil] at h
          split at h
          · simp at h
          · rename_i heq
            split at heq <;> simp at heq
          · simp at h

theorem globMatches_nil (pattern : Str) (h : globMatches pattern []) : ∀ c ∈ pattern, c = 42 :=
  matchLoop_nil_true _ pattern h

/-! ## `shouldIgnoreDir` -/

theorem replaceLoop_stars_keeps_slash (s : Str) : ∀ k : Nat, (∀ c ∈ s.take k, c = 42) → 47 ∈ s →
    47 ∈ strings.replaceLoop [42, 42] [42] k s := by
  induction s with
  | nil => intro k _ h; simp at h
  | cons c cs ih =>
    intro k hk h
    cases k with
    | succ k =>
      rw [strings.replaceLoop]
      have hc : c = 42 := hk c (by simp)
      have h' : 47 ∈ cs := by
        rcases List.mem_cons.mp h with h | h
        · omega
        · exact h
      exact ih k (fun d hd => hk d (by simp [hd])) h'
    | zero =>
      rw [strings.replaceLoop]
      split
      · rename_i hpre
        have hpre' := List.isPrefixOf_iff_prefix.mp hpre
        obtain ⟨t, ht⟩ := hpre'
        have hc : c = 42 := by simp at ht; exact ht.1.symm
        have hcs : cs = 42 :: t := by simp at ht; exact ht.2.symm
        have h' : 47 ∈ cs := by
          rcases List.mem_cons.mp h with h | h
          · omega
          · exact h
        have := ih 1 (by subst hcs; simp) h'
        simp [this]
      · rcases List.mem_cons.mp h with h | h
        · simp [h]
        · have := ih 0 (by simp) h
          simp [this]

theorem replaceAll_stars_keeps_slash (rule : Str) (h : 47 ∈ rule) :
    47 ∈ strings.ReplaceAll rule (str "**") (str "*") := by
  rw [str_starstar, str_star]
  unfold strings.ReplaceAll
  simp only [show ([42, 42] : Str) ≠ [42] by decide, if_false]
  exact replaceLoop_stars_keeps_slash rule 0 (by simp) h

theorem shouldIgnoreDirLoop_iff (rootDir path dir : Str) (rules : List Str) :
    shouldIgnoreDirLoop rootDir path dir rules = true ↔
      ∃ rule ∈ rules, globMatches rule dir ∨
        (strings.Contains rule (str "**/") = true ∧
          globMatches (strings.ReplaceAll rule (str "**") (str "*"))
            ((filepath.Rel rootDir path).getD [])) := by
  induction rules with
  | nil => simp [shouldIgnoreDirLoop]
  | cons rule rest ih =>
    rw [shouldIgnoreDirLoop, List.exists_mem_cons_iff, ← ih]
    by_cases h1 : filepath.matched rule dir = true
    · have := (matched_iff _ _).mp h1
      simp [h1, this]
    · have h1' : ¬ globMatches rule dir := fun h => h1 ((matched_iff _ _).mpr h)
      by_cases h2 : strings.Contains rule (str "**/") = true
      · by_cases h3 : filepath.matched (strings.ReplaceAll rule (str "**") (str "*"))
            ((filepath.Rel rootDir path).getD []) = true
        · have := (matched_iff _ _).mp h3
          simp [h1, h2, h3, this]
        · have h3' : ¬ globMatches (strings.ReplaceAll rule (str "**") (str "*"))
              ((filepath.Rel rootDir path).getD []) := fun h => h3 ((matched_iff _ _).mpr h)
          simp [h1, h1', h2, h3, h3']
      · simp [h1, h1', h2]

theorem shouldIgnoreDir_iff (g : Globals) (p : Str) :
    shouldIgnoreDir g p = true ↔
      (∃ rule ∈ g.rules.ignoredDirs, globMatches rule (filepath.Base p)) ∨
        (∃ rule ∈ g.rules.ignoredDirs, str "**/" <:+: rule ∧
          ∃ rp, filepath.Rel g.rootDir p = some rp ∧
            globMatches (strings.ReplaceAll rule (str "**") (str "*")) rp) := by
  unfold shouldIgnoreDir
  rw [shouldIgnoreDirLoop_iff]
  constructor
  · rintro ⟨rule, hr, h | ⟨hc, hm⟩⟩
    · exact Or.inl ⟨rule, hr, h⟩
    · right
      have hinf := (contains_iff_sublist _ _).mp hc
      refine ⟨rule, hr, hinf, ?_⟩
      cases hrel : filepath.Rel g.rootDir p with
      | some rp => rw [hrel] at hm; exact ⟨rp, rfl, hm⟩
      | none =>
        exfalso
        rw [hrel] at hm
        have hall := globMatches_nil _ hm
        have h47 : 47 ∈ rule := hinf.subset (by rw [str_starstarslash]; simp)
        have := hall 47 (replaceAll_stars_keeps_slash rule h47)
        omega
  · rintro (⟨rule, hr, h⟩ | ⟨rule, hr, hinf, rp, hrel, hm⟩)
    · exact ⟨rule, hr, Or.inl h⟩
    · refine ⟨rule, hr, Or.inr ⟨(contains_iff_sublist _ _).mpr hinf, ?_⟩⟩
      rw [hrel]; exact hm

/-- C3: `shouldIgnoreDir(p)` is true exactly when some rule of `ignoredDirs`
glob-matches the basename of `p`, or some rule containing `**/`, with every `**`
replaced by `*`, glob-matches the path of `p` relative to the root. So a matching
basename prunes whatever the leading directories are (`path/to/node_modules` and
`project/dist` under the rules `.git`, `node_modules`, `dist`), and nothing else but
the `**/` rules can prune. -/
theorem c3_shouldIgnoreDir_iff (g : Globals) (p : Str) :
    (shouldIgnoreDir g p = true ↔
      (∃ rule ∈ g.rules.ignoredDirs, globMatches rule (filepath.Base p)) ∨
        (∃ rule ∈ g.rules.ignoredDirs, str "**/" <:+: rule ∧
          ∃ rp, filepath.Rel g.rootDir p = some rp ∧
            globMatches (strings.ReplaceAll rule (str "**") (str "*")) rp)) ∧
      shouldIgnoreDir dirTestGlobals (str "path/to/node_modules") = true ∧
      shouldIgnoreDir dirTestGlobals (str "project/dist") = true ∧
      shouldIgnoreDir dirTestGlobals (str "src") = false :=
  ⟨shouldIgnoreDir_iff g p, by decide, by decide, by decide⟩



/-! ## Negation lines -/

theorem filter_trim_skip_negation (q : Str → Bool) (hq : ∀ t, q t = true → t.head? ≠ some 33)
    (l : List Str) :
    (l.map strings.TrimSpace).filter q =
      ((l.filter fun t => !isNegationLine t).map strings.TrimSpace).filter q := by
  induction l with
  | nil => rfl
  | cons a rest ih =>
    by_cases hn : isNegationLine a = true
    · have hqa : q (strings.TrimSpace a) = false := by
        rw [Bool.eq_false_iff]
        intro h
        exact hq _ h (by simpa [isNegationLine] using hn)
      simp [List.filter_cons, hn, hqa, ih]
    · simp only [List.map_cons, List.filter_cons, hn, Bool.not_false, if_true]
      simp only [Bool.not_eq_true] at hn
      simp only [hn, Bool.not_false, if_true, List.map_cons, List.filter_cons, ih]

theorem parseLines_skip_negation (rs : RuleSet) (l : List Str) :
    parseLines rs l = parseLines rs (l.filter fun t => !isNegationLine t) := by
  rw [parseLines_eq, parseLines_eq rs (l.filter _)]
  rw [← filter_trim_skip_negation _ _ l, ← filter_trim_skip_negation _ _ l]
  · intro t ht
    simp [isRuleLine] at ht
    exact ht.1.2
  · intro t ht
    simp [isRuleLine] at ht
    exact ht.1.2

theorem shouldIgnoreFile_of_hit (g : Globals) (p pat : Str) (hp : pat ∈ g.rules.ignoredPatterns)
    (h : fileRuleHits p pat) : shouldIgnoreFile g p = true :=
  (shouldIgnoreFile_iff g p).mpr (Or.inr (Or.inl ⟨pat, hp, h⟩))

theorem shouldIgnoreDir_of_base (g : Globals) (p rule : Str) (hr : rule ∈ g.rules.ignoredDirs)
    (h : globMatches rule (filepath.Base p)) : shouldIgnoreDir g p = true :=
  (shouldIgnoreDir_iff g p).mpr (Or.inl ⟨rule, hr, h⟩)

theorem negationScenario_rules (rs : RuleSet) :
    parseGitignore rs (some negationScenario) =
      { ignoredPaths := rs.ignoredPaths
        ignoredPatterns := rs.ignoredPatterns ++ [str "*.log"]
        ignoredDirs := rs.ignoredDirs ++ [str "tmp"] } := by
  have hs : (bufio.Scan negationScenario).1 =
      [str "*.log", str "tmp/", str "!important.log"] := by decide
  simp only [parseGitignore, hs, parseLines_eq]
  have h1 : (([str "*.log", str "tmp/", str "!important.log"].map strings.TrimSpace).filter
      fun t => isRuleLine t && !endsWithSlash t) = [str "*.log"] := by decide
  have h2 : ((([str "*.log", str "tmp/", str "!important.log"].map strings.TrimSpace).filter
      fun t => isRuleLine t && endsWithSlash t).map List.dropLast) = [str "tmp"] := by decide
  rw [h1, h2]

theorem takeWhile_filter_comm (short q : Str → Bool) (L : List Str)
    (h : ∀ l ∈ L, q l = false → short l = true) :
    (L.takeWhile short).filter q = (L.filter q).takeWhile short := by
  induction L with
  | nil => rfl
  | cons a rest ih =>
    have ih := ih fun l hl => h l (by simp [hl])
    by_cases hs : short a = true
    · by_cases hq : q a = true
      · simp [List.takeWhile_cons, List.filter_cons, hs, hq, ih]
      · simp [List.takeWhile_cons, List.filter_cons, hs, hq, ih]
    · have hq : q a = true := by
        by_contra hq
        exact hs (h a (by simp) (by simpa using hq))
      simp [List.takeWhile_cons, List.filter_cons, hs, hq]

/-- The rules read from a file depend only on its lines that are not negation lines, when
every negation line is short enough for the scanner. -/
theorem parseLines_scanned_skip_negation (rs : RuleSet) (lines : List Str) (last : Str)
    (hs : ∀ l ∈ linesOf lines last, isNegationLine (bufio.dropCR l) = true →
      l.length < bufio.MaxScanTokenSize) :
    parseLines rs (scannedLines lines last) =
      parseLines rs
        ((((linesOf lines last).filter fun l => !isNegationLine (bufio.dropCR l)).takeWhile
          fun l => decide (l.length < bufio.MaxScanTokenSize)).map bufio.dropCR) := by
  rw [parseLines_skip_negation, scannedLines, List.filter_map]
  have hc := takeWhile_filter_comm (fun l => decide (l.length < bufio.MaxScanTokenSize))
    (fun l => !isNegationLine (bufio.dropCR l)) (linesOf lines last) (by
      intro l hl hq
      have := hs l hl (by simpa using hq)
      simpa using this)
  have he : ((fun t => !isNegationLine t) ∘ bufio.dropCR) =
      fun l => !isNegationLine (bufio.dropCR l) := rfl
  rw [he, hc]

theorem trimSpaceStop_plain (s : Str) (n : Nat) (h1 : s.getD n 0 < utf8.RuneSelf)
    (h2 : strings.asciiSpace (s.getD n 0) = false) :
    strings.trimSpaceStop s (n + 1) = s.take (n + 1) := by
  rw [strings.trimSpaceStop]
  simp only [ge_iff_le, Nat.not_le.mpr h1, if_false, h2, Bool.not_false, if_true]

theorem isNegationLine_bang (cs : Str) (x : Nat) (h1 : x < utf8.RuneSelf)
    (h2 : strings.asciiSpace x = false) : isNegationLine (33 :: (cs ++ [x])) = true := by
  have hg : (33 :: (cs ++ [x])).getD (cs.length + 1) 0 = x := by
    rw [List.getD_cons_succ, List.getD_eq_getElem?_getD]
    simp
  have ht : strings.TrimSpace (33 :: (cs ++ [x])) = 33 :: (cs ++ [x]) := by
    rw [strings.TrimSpace]
    have h33 : ¬ (33 : Nat) ≥ utf8.RuneSelf := by decide
    have hsp : strings.asciiSpace 33 = false := by decide
    simp only [h33, if_false, hsp, Bool.not_false, if_true]
    have hl : (33 :: (cs ++ [x])).length = (cs.length + 1) + 1 := by simp
    rw [hl, trimSpaceStop_plain _ _ (by rw [hg]; exact h1) (by rw [hg]; exact h2), ← hl,
      List.take_length]
  simp [isNegationLine, ht]

theorem longLine_snoc : longLine = List.replicate 65535 97 ++ [97] := by
  rw [longLine, bufio.MaxScanTokenSize, ← List.replicate_succ']

theorem dropCR_of_last (cs : Str) (x : Nat) (h : x ≠ 13) :
    bufio.dropCR (cs ++ [x]) = cs ++ [x] := by
  simp [bufio.dropCR, h]

/-- C4, as stated, fails: inserting, before the line `*.txt`, a negation line of `!`
followed by 65536 bytes `a` stops the scanner at that line, so the rule `*.txt` is lost:
the rule sets differ, and `a.txt`, skipped without the inserted line, is un-ignored by
it. -/
theorem c4_long_negation_counterexample :
    isNegationLine (33 :: longLine) = true ∧
      ([33 :: longLine, str "*.txt"].filter fun l => !isNegationLine l) = [str "*.txt"] ∧
      parseGitignore emptyGlobals.rules
          (some { data := fileOfLines [33 :: longLine, str "*.txt"] [], readError := false }) ≠
        parseGitignore emptyGlobals.rules
          (some { data := fileOfLines [str "*.txt"] [], readError := false }) ∧
      shouldIgnoreFile { emptyGlobals with rules := (parseGitignore emptyGlobals.rules
          (some { data := fileOfLines [str "*.txt"] [], readError := false })) }
        (str "a.txt") = true ∧
      shouldIgnoreFile { emptyGlobals with rules := (parseGitignore emptyGlobals.rules
          (some { data := fileOfLines [33 :: longLine, str "*.txt"] [],
                  readError := false })) }
        (str "a.txt") = false := by
  have hneg : isNegationLine (33 :: longLine) = true := by
    rw [longLine_snoc]
    exact isNegationLine_bang _ 97 (by decide) (by decide)
  have hl : ∀ l ∈ [33 :: longLine, str "*.txt"], 10 ∉ l := by
    intro l h
    simp only [List.mem_cons, List.mem_singleton, List.not_mem_nil, or_false] at h
    rcases h with rfl | rfl
    · intro h10
      rcases List.mem_cons.mp h10 with h | h
      · exact absurd h (by decide)
      · exact longLine_no_newline h
    · decide
  have hlong : parseGitignore emptyGlobals.rules
      (some { data := fileOfLines [33 :: longLine, str "*.txt"] [], readError := false }) =
        emptyGlobals.rules := by
    rw [parseGitignore_eq _ _ _ _ hl (by simp),
      scannedLines_long _ _ _ (by rw [List.length_cons, longLine_length]; omega)]
    rfl
  have hshort : parseGitignore emptyGlobals.rules
      (some { data := fileOfLines [str "*.txt"] [], readError := false }) =
        { ignoredPaths := [], ignoredPatterns := [str "*.txt"], ignoredDirs := [] } := by
    decide
  refine ⟨hneg, ?_, ?_, ?_, ?_⟩
  · simp only [List.filter_cons, hneg, Bool.not_true, Bool.false_eq_true, if_false]
    decide
  · rw [hlong, hshort]
    decide
  · rw [hshort]
    decide
  · rw [hlong]
    decide

/-- C4, amended: negation lines that the scanner can take have no effect. A negation line
is a line whose text without the carriage return that ends it, trimmed of whitespace,
starts with `!`. Two ignore files whose lines agree once the negation lines are deleted,
and whose negation lines are all shorter than 65536 bytes, give the same rule set from
every starting rule set, whatever read errors end the two scans; and with the lines
`*.log`, `tmp/`, `!important.log` added to any rules, `app.log` and `important.log` are
skipped and every directory named `tmp` is pruned. -/
theorem c4_negation_lines_inert (g : Globals) (l1 l2 : List Str) (last1 last2 : Str)
    (e1 e2 : Bool) (p : Str)
    (hn1 : ∀ l ∈ l1, 10 ∉ l) (hlast1 : 10 ∉ last1)
    (hn2 : ∀ l ∈ l2, 10 ∉ l) (hlast2 : 10 ∉ last2)
    (hs1 : ∀ l ∈ linesOf l1 last1, isNegationLine (bufio.dropCR l) = true → l.length < 65536)
    (hs2 : ∀ l ∈ linesOf l2 last2, isNegationLine (bufio.dropCR l) = true → l.length < 65536)
    (h : ((linesOf l1 last1).filter fun l => !isNegationLine (bufio.dropCR l)) =
      (linesOf l2 last2).filter fun l => !isNegationLine (bufio.dropCR l))
    (hp : filepath.Base p = str "tmp") :
    parseGitignore g.rules (some { data := fileOfLines l1 last1, readError := e1 }) =
        parseGitignore g.rules (some { data := fileOfLines l2 last2, readError := e2 }) ∧
      shouldIgnoreFile { g with rules := parseGitignore g.rules (some negationScenario) }
          (str "app.log") = true ∧
      shouldIgnoreFile { g with rules := parseGitignore g.rules (some negationScenario) }
          (str "important.log") = true ∧
      shouldIgnoreDir { g with rules := parseGitignore g.rules (some negationScenario) } p
          = true := by
  refine ⟨?_, ?_, ?_, ?_⟩
  · rw [parseGitignore_eq _ _ _ _ hn1 hlast1, parseGitignore_eq _ _ _ _ hn2 hlast2,
      parseLines_scanned_skip_negation _ _ _ hs1, parseLines_scanned_skip_negation _ _ _ hs2, h]
  · apply shouldIgnoreFile_of_hit _ _ (str "*.log")
    · rw [negationScenario_rules]; simp
    · right; left; exact ⟨by decide, by decide⟩
  · apply shouldIgnoreFile_of_hit _ _ (str "*.log")
    · rw [negationScenario_rules]; simp
    · right; left; exact ⟨by decide, by decide⟩
  · apply shouldIgnoreDir_of_base _ _ (str "tmp")
    · rw [negationScenario_rules]; simp
    · rw [hp]; decide

/-- Witness for C4: the files `*.log`, `!keep.log` and `!a`, `*.log`, `  !b` (the last
line unterminated, after a read error) agree after their negation lines are deleted, and
`work/tmp` is a directory named `tmp`. -/
theorem c4_negation_lines_inert_witness :
    parseGitignore defaultRules
        (some { data := fileOfLines [str "*.log", str "!keep.log\r"] [],
                readError := false }) =
        parseGitignore defaultRules
          (some { data := fileOfLines [str "!a", str "*.log"] (str "  !b"),
                  readError := true }) ∧
      shouldIgnoreFile
          { rules := parseGitignore defaultRules (some negationScenario)
            outputFile := str "project-prompt.md", rootDir := str "." }
          (str "app.log") = true ∧
      shouldIgnoreFile
          { rules := parseGitignore defaultRules (some negationScenario)
            outputFile := str "project-prompt.md", rootDir := str "." }
          (str "important.log") = true ∧
      shouldIgnoreDir
          { rules := parseGitignore defaultRules (some negationScenario)
            outputFile := str "project-prompt.md", rootDir := str "." }
          (str "work/tmp") = true :=
  c4_negation_lines_inert
    { rules := defaultRules, outputFile := str "project-prompt.md", rootDir := str "." }
    [str "*.log", str "!keep.log\r"] [str "!a", str "*.log"] [] (str "  !b") false true
    (str "work/tmp") (by decide) (by decide) (by decide) (by decide) (by decide) (by decide)
    (by decide) (by decide)



/-! ## Self-exclusion by name -/

theorem takeWhile_append_stop (q : Nat → Bool) (a : List Nat) (b : Nat) (c : List Nat)
    (ha : ∀ x ∈ a, q x = true) (hb : q b = false) : (a ++ b :: c).takeWhile q = a := by
  induction a with
  | nil => simp [List.takeWhile_cons, hb]
  | cons x xs ih =>
    have hx : q x = true := ha x (by simp)
    simp only [List.cons_append, List.takeWhile_cons, hx, if_true]
    rw [ih (fun y hy => ha y (by simp [hy]))]

theorem base_append_slash (dir name : Str) (hne : name ≠ []) (hs : 47 ∉ name) :
    filepath.Base (dir ++ 47 :: name) = name := by
  unfold filepath.Base
  have h0 : dir ++ 47 :: name ≠ [] := by simp
  simp only [h0, if_false]
  obtain ⟨init, x, rfl⟩ : ∃ init x, name = init ++ [x] :=
    ⟨name.dropLast, name.getLast hne, (List.dropLast_append_getLast hne).symm⟩
  have hx : x ≠ 47 := fun h => hs (by simp [h])
  have h1 : (dir ++ 47 :: (init ++ [x])).rdropWhile (· == filepath.Separator) =
      dir ++ 47 :: (init ++ [x]) := by
    have : dir ++ 47 :: (init ++ [x]) = (dir ++ 47 :: init) ++ [x] := by simp
    rw [this, List.rdropWhile_concat_neg]
    simpa [filepath.Separator] using hx
  rw [h1]
  have h2 : (dir ++ 47 :: (init ++ [x])).rtakeWhile (· != filepath.Separator) = init ++ [x] := by
    unfold List.rtakeWhile
    have : (dir ++ 47 :: (init ++ [x])).reverse = (init ++ [x]).reverse ++ 47 :: dir.reverse := by
      simp
    rw [this, takeWhile_append_stop, List.reverse_reverse]
    · intro y hy
      have hy' : y ∈ init ++ [x] := List.mem_reverse.mp hy
      have : y ≠ 47 := fun h => hs (h ▸ hy')
      simpa [filepath.Separator] using this
    · simp [filepath.Separator]
  rw [h2]
  simp

theorem shouldIgnoreFile_of_outputName (g : Globals) (p : Str)
    (h : filepath.Base p = g.outputFile) : shouldIgnoreFile g p = true :=
  (shouldIgnoreFile_iff g p).mpr (Or.inr (Or.inr h))

/-- C5: self-exclusion by name. Whatever the rule set, a relative path whose basename
equals the output file name is skipped; with the output name `doc.md`, the file
`doc.md` below any directory path `dir` is skipped. -/
theorem c5_self_exclusion (g : Globals) (p dir : Str) (h : filepath.Base p = g.outputFile) :
    shouldIgnoreFile g p = true ∧
      shouldIgnoreFile { g with outputFile := str "doc.md" } (str "doc.md") = true ∧
      shouldIgnoreFile { g with outputFile := str "doc.md" } (dir ++ str "/doc.md") = true := by
  refine ⟨shouldIgnoreFile_of_outputName g p h, ?_, ?_⟩
  · exact shouldIgnoreFile_of_outputName _ _ (show filepath.Base (str "doc.md") = str "doc.md" by decide)
  · apply shouldIgnoreFile_of_outputName
    have : str "/doc.md" = 47 :: str "doc.md" := by decide
    rw [this]
    exact base_append_slash dir (str "doc.md") (by decide) (by decide)

/-- Witness for C5: no patterns, no exact paths, output name `out.txt`, path `a/b/out.txt`. -/
theorem c5_self_exclusion_witness :
    shouldIgnoreFile emptyGlobals (str "a/b/out.txt") = true ∧
      shouldIgnoreFile { emptyGlobals with outputFile := str "doc.md" } (str "doc.md") = true ∧
      shouldIgnoreFile { emptyGlobals with outputFile := str "doc.md" }
        (str "docs/api" ++ str "/doc.md") = true :=
  c5_self_exclusion emptyGlobals (str "a/b/out.txt") (str "docs/api") (by decide)

/-! ## Content classification -/

theorem mapGet_allTrue (t : List (Str × Bool)) (hall : ∀ e ∈ t, e.2 = true) (k : Str) :
    mapGet t k = true ↔ k ∈ t.map Prod.fst := by
  induction t with
  | nil => simp [mapGet]
  | cons e rest ih =>
    obtain ⟨k', v⟩ := e
    have hv : v = true := hall (k', v) (by simp)
    have ih' := ih (fun e he => hall e (by simp [he]))
    rw [mapGet]
    by_cases hk : k' = k
    · simp [hk, hv]
    · simp only [hk, if_false, ih', List.map_cons, List.mem_cons]
      constructor
      · exact Or.inr
      · rintro (h | h)
        · exact absurd h.symm hk
        · exact h

theorem binaryExtensions_allTrue : ∀ e ∈ binaryExtensions, e.2 = true := by decide

theorem binaryExtensions_get (ext : Str) :
    mapGet binaryExtensions ext = true ↔ ext ∈ binaryExtensions.map Prod.fst :=
  mapGet_allTrue _ binaryExtensions_allTrue ext

/-- C6: for a path whose extension is a key of the binary-extension table,
`isBinaryFile` is true whatever the file holds: text-like bytes, no bytes, or a file
that cannot be opened or read. -/
theorem c6_binary_by_extension (path : Str) (fd : FileData)
    (h : filepath.Ext path ∈ binaryExtensions.map Prod.fst) :
    isBinaryFile path fd = true ∧
      isBinaryFile path (.data (str "fake png content")) = true ∧
      isBinaryFile path (.data []) = true ∧
      isBinaryFile path .openError = true ∧
      isBinaryFile path .readError = true := by
  have hg := (binaryExtensions_get _).mpr h
  simp [isBinaryFile, hg]

/-- Witness for C6: `imgs/sample.png` holding `fake png content`. -/
theorem c6_binary_by_extension_witness :
    isBinaryFile (str "imgs/sample.png") (.data (str "fake png content")) = true ∧
      isBinaryFile (str "imgs/sample.png") (.data (str "fake png content")) = true ∧
      isBinaryFile (str "imgs/sample.png") (.data []) = true ∧
      isBinaryFile (str "imgs/sample.png") .openError = true ∧
      isBinaryFile (str "imgs/sample.png") .readError = true :=
  c6_binary_by_extension (str "imgs/sample.png") (.data (str "fake png content")) (by decide)

/-- C7: for a path whose extension is not a key of the binary-extension table,
`isBinaryFile` is true exactly when the file can be opened and read and one of its
first 512 bytes is zero. An unopenable or unreadable file and an empty file are text,
and so is a file with no zero byte among its first 512 bytes, whatever follows. -/
theorem c7_binary_by_content (path : Str) (fd : FileData)
    (h : filepath.Ext path ∉ binaryExtensions.map Prod.fst) :
    (isBinaryFile path fd = true ↔ ∃ bytes, fd = .data bytes ∧ 0 ∈ bytes.take 512) ∧
      isBinaryFile path .openError = false ∧
      isBinaryFile path .readError = false ∧
      isBinaryFile path (.data []) = false ∧
      ∀ head tail : Str, 512 ≤ head.length → 0 ∉ head →
        isBinaryFile path (.data (head ++ tail)) = false := by
  have hg : mapGet binaryExtensions (filepath.Ext path) = false := by
    rw [Bool.eq_false_iff]; exact fun hg => h ((binaryExtensions_get _).mp hg)
  refine ⟨?_, by simp [isBinaryFile, hg], by simp [isBinaryFile, hg], by simp [isBinaryFile, hg], ?_⟩
  · cases fd with
    | openError => simp [isBinaryFile, hg]
    | readError => simp [isBinaryFile, hg]
    | data bytes =>
      simp only [isBinaryFile, hg, Bool.false_eq_true, if_false, FileData.data.injEq,
        exists_eq_left']
      by_cases hn : (bytes.take 512).length = 0
      · have : bytes.take 512 = [] := List.length_eq_zero.mp hn
        simp [this]
      · simp only [hn, if_false]
        simp
  · intro head tail hlen h0
    have ht : (head ++ tail).take 512 = head.take 512 := by
      rw [List.take_append_of_le_length hlen]
    simp only [isBinaryFile, hg, Bool.false_eq_true, if_false, ht]
    have : (0 : Nat) ∉ head.take 512 := fun hm => h0 (List.mem_of_mem_take hm)
    split
    · rfl
    · simpa using this

/-- Witness for C7: `sample.bin` holding the bytes 0, 1, 2, 3, 0, 5. -/
theorem c7_binary_by_content_witness :
    (isBinaryFile (str "sample.bin") (.data [0, 1, 2, 3, 0, 5]) = true ↔
        ∃ bytes, FileData.data [0, 1, 2, 3, 0, 5] = .data bytes ∧ 0 ∈ bytes.take 512) ∧
      isBinaryFile (str "sample.bin") .openError = false ∧
      isBinaryFile (str "sample.bin") .readError = false ∧
      isBinaryFile (str "sample.bin") (.data []) = false ∧
      ∀ head tail : Str, 512 ≤ head.length → 0 ∉ head →
        isBinaryFile (str "sample.bin") (.data (head ++ tail)) = false :=
  c7_binary_by_content (str "sample.bin") (.data [0, 1, 2, 3, 0, 5]) (by decide)

/-! ## The serialized entry -/

theorem walkFn_included (g : Globals) (rootDir : Str) (st : WalkState) (path relPath content : Str)
    (hrel : filepath.Rel rootDir path = some relPath)
    (hi : shouldIgnoreFile g relPath = false)
    (hb : isBinaryFile path (.data content) = false)
    (hw : ∀ limit, g.writeLimit = some limit →
      st.out.length + (formatEntry path relPath content).length ≤ limit) :
    walkFn g rootDir st path (.file (.data content)) false =
      ({ out := st.out ++ formatEntry path relPath content, visited := st.visited ++ [path] },
        .nil) := by
  cases hl : g.writeLimit with
  | none => simp [walkFn, visitFile, writeString, hrel, hi, hb, hl]
  | some limit =>
    have := hw limit hl
    simp [walkFn, visitFile, writeString, hrel, hi, hb, hl, this]

theorem tildeFences_fence (rest : Str) :
    tildeFences (96 :: 96 :: 96 :: rest) = 126 :: 126 :: 126 :: tildeFences rest := by
  rw [tildeFences]

theorem tildeFences_other (c : Nat) (rest : Str) (h : ¬ [96, 96, 96] <+: c :: rest) :
    tildeFences (c :: rest) = c :: tildeFences rest := by
  rw [tildeFences]
  intro rest2 hc hr
  exact h ⟨rest2, by rw [hc, hr]; rfl⟩

theorem replaceLoop_fences (s : Str) :
    strings.replaceLoop [96, 96, 96] [126, 126, 126] 0 s = tildeFences s := by
  induction s using tildeFences.induct with
  | case1 rest2 ih =>
    rw [tildeFences_fence, ← ih]
    simp [strings.replaceLoop, List.isPrefixOf]
  | case2 c rest hne ih =>
    have hn : ¬ [96, 96, 96] <+: c :: rest := by
      rintro ⟨t, ht⟩
      simp at ht
      exact hne t ht.1.symm (by rw [← ht.2])
    rw [tildeFences_other c rest hn, ← ih, strings.replaceLoop]
    have : List.isPrefixOf [96, 96, 96] (c :: rest) = false := by
      rw [Bool.eq_false_iff]; exact fun h => hn (List.isPrefixOf_iff_prefix.mp h)
    simp [this]
  | case3 => rfl

theorem str_fence : str "```" = [96, 96, 96] := by decide
theorem str_tildes : str "~~~" = [126, 126, 126] := by decide

theorem replaceAll_fences (content : Str) :
    strings.ReplaceAll content (str "```") (str "~~~") = tildeFences content := by
  rw [str_fence, str_tildes]
  unfold strings.ReplaceAll
  simp only [show ([96, 96, 96] : Str) ≠ [126, 126, 126] by decide, if_false]
  exact replaceLoop_fences content

theorem tildeFences_pointwise (s : Str) :
    List.Forall₂ (fun a b => b = a ∨ (a = 96 ∧ b = 126)) s (tildeFences s) := by
  induction s using tildeFences.induct with
  | case1 rest2 ih =>
    rw [tildeFences_fence]
    exact .cons (Or.inr ⟨rfl, rfl⟩) (.cons (Or.inr ⟨rfl, rfl⟩) (.cons (Or.inr ⟨rfl, rfl⟩) ih))
  | case2 c rest hne ih =>
    have hn : ¬ [96, 96, 96] <+: c :: rest := by
      rintro ⟨t, ht⟩
      simp at ht
      exact hne t ht.1.symm (by rw [← ht.2])
    rw [tildeFences_other c rest hn]
    exact .cons (Or.inl rfl) ih
  | case3 => exact .nil

theorem tildeFences_length (s : Str) : (tildeFences s).length = s.length :=
  (tildeFences_pointwise s).length_eq.symm

theorem tildeFences_head_backtick (s : Str) (h : (tildeFences s).head? = some 96) :
    ∃ t, s = 96 :: t ∧ tildeFences s = 96 :: tildeFences t := by
  cases s with
  | nil => simp [tildeFences] at h
  | cons c rest =>
    by_cases hn : [96, 96, 96] <+: c :: rest
    · obtain ⟨t, ht⟩ := hn
      rw [← ht] at h
      simp [tildeFences_fence] at h
    · rw [tildeFences_other c rest hn] at h ⊢
      simp at h
      exact ⟨rest, by rw [h], by rw [h]⟩

theorem tildeFences_no_fence (s : Str) : ¬ [96, 96, 96] <:+: tildeFences s := by
  induction s using tildeFences.induct with
  | case1 rest2 ih =>
    rw [tildeFences_fence]
    intro h
    rcases List.infix_cons_iff.mp h with h | h
    · obtain ⟨t, ht⟩ := h; simp at ht
    rcases List.infix_cons_iff.mp h with h | h
    · obtain ⟨t, ht⟩ := h; simp at ht
    rcases List.infix_cons_iff.mp h with h | h
    · obtain ⟨t, ht⟩ := h; simp at ht
    exact ih h
  | case2 c rest hne ih =>
    have hn : ¬ [96, 96, 96] <+: c :: rest := by
      rintro ⟨t, ht⟩
      simp at ht
      exact hne t ht.1.symm (by rw [← ht.2])
    rw [tildeFences_other c rest hn]
    intro h
    rcases List.infix_cons_iff.mp h with h | h
    · obtain ⟨t, ht⟩ := h
      simp only [List.cons_append, List.cons.injEq, List.nil_append] at ht
      obtain ⟨hc, ht⟩ := ht
      obtain ⟨r1, hr1, hf1⟩ := tildeFences_head_backtick rest (by rw [← ht]; rfl)
      rw [hf1] at ht
      simp only [List.cons.injEq, true_and] at ht
      obtain ⟨r2, hr2, _⟩ := tildeFences_head_backtick r1 (by rw [← ht]; rfl)
      exact hn ⟨r2, by rw [hr1, hr2, ← hc]; rfl⟩
    · exact ih h
  | case3 => simp [tildeFences]

/-! ## Occurrences in a concatenation -/

theorem isPrefix_of_append_sep (x : Str) : ∀ (a : Str) (c : Nat) (b : Str), c ∉ x →
    x <+: a ++ c :: b → x <+: a := by
  induction x with
  | nil => intro a c b _ _; exact List.nil_prefix
  | cons e x ih =>
    intro a c b hc h
    cases a with
    | nil =>
      exfalso
      obtain ⟨t, ht⟩ := h
      simp at ht
      exact hc (by simp [ht.1])
    | cons d a =>
      rw [List.cons_append, List.cons_prefix_cons] at h
      rw [List.cons_prefix_cons]
      exact ⟨h.1, ih a c b (fun hm => hc (List.mem_cons_of_mem _ hm)) h.2⟩

theorem sublist_append_sep (x : Str) (c : Nat) (hc : c ∉ x) (b : Str) : ∀ a : Str,
    x <:+: a ++ c :: b ↔ x <:+: a ∨ x <:+: b := by
  intro a
  induction a with
  | nil =>
    rw [List.nil_append, List.infix_cons_iff]
    constructor
    · rintro (h | h)
      · left
        exact (isPrefix_of_append_sep x [] c b hc h).isInfix
      · exact Or.inr h
    · rintro (h | h)
      · left
        have : x = [] := List.eq_nil_of_infix_nil h
        rw [this]; exact List.nil_prefix
      · exact Or.inr h
  | cons d a ih =>
    rw [List.cons_append, List.infix_cons_iff, List.infix_cons_iff, ih]
    constructor
    · rintro (h | h | h)
      · exact Or.inl (Or.inl (isPrefix_of_append_sep x (d :: a) c b hc h))
      · exact Or.inl (Or.inr h)
      · exact Or.inr h
    · rintro ((h | h) | h)
      · exact Or.inl (h.trans (List.prefix_append _ _))
      · exact Or.inr (Or.inl h)
      · exact Or.inr (Or.inr h)

theorem str_md : str ".md" = [46, 109, 100] := by decide

theorem formatEntry_md (path relPath content : Str) (hext : filepath.Ext path = str ".md") :
    formatEntry path relPath content =
      (96 :: relPath ++ [96]) ++ 32 :: (str "(Markdown file)" ++
        10 :: ([] ++ 10 :: (tildeFences content ++ 10 :: [10]))) := by
  unfold formatEntry
  simp only [hext, if_true, replaceAll_fences, filepath.ToSlash]
  have h1 : str "`" = [96] := by decide
  have h2 : str "` (Markdown file)\n\n" = 96 :: 32 :: (str "(Markdown file)" ++ [10, 10]) := by
    decide
  have h3 : str "\n\n" = [10, 10] := by decide
  rw [h1, h2, h3]
  simp

theorem formatEntry_md_fence_iff (path relPath content : Str)
    (hext : filepath.Ext path = str ".md") :
    [96, 96, 96] <:+: formatEntry path relPath content ↔
      [96, 96, 96] <:+: 96 :: relPath ++ [96] := by
  rw [formatEntry_md path relPath content hext]
  rw [sublist_append_sep _ 32 (by decide), sublist_append_sep _ 10 (by decide),
    sublist_append_sep _ 10 (by decide), sublist_append_sep _ 10 (by decide)]
  have h1 : ¬ [96, 96, 96] <:+: str "(Markdown file)" := by decide
  have h2 : ¬ [96, 96, 96] <:+: ([] : Str) := by decide
  have h3 : ¬ [96, 96, 96] <:+: ([10] : Str) := by decide
  have h4 := tildeFences_no_fence content
  tauto

theorem no_fence_of_no_backtick (relPath : Str) (h : 96 ∉ relPath) :
    ¬ [96, 96, 96] <:+: 96 :: relPath ++ [96] := by
  rintro ⟨s, t, hst⟩
  have hlen := congrArg List.length hst
  simp at hlen
  have hp : s ++ [96, 96] <+: (96 :: relPath) ++ [96] :=
    ⟨96 :: t, by rw [← hst]; simp⟩
  have hq : s ++ [96, 96] <+: 96 :: relPath :=
    List.prefix_of_prefix_length_le hp (List.prefix_append _ _) (by simp; omega)
  cases s with
  | nil =>
    obtain ⟨u, hu⟩ := hq
    simp at hu
    exact h (by rw [← hu]; simp)
  | cons a s' =>
    rw [List.cons_append, List.cons_prefix_cons] at hq
    obtain ⟨u, hu⟩ := hq.2
    exact h (by rw [← hu]; simp)

theorem ite_ne_nil {c : Prop} [Decidable c] {a b : Str} (ha : a ≠ []) (hb : b ≠ []) :
    (if c then a else b) ≠ [] := by
  split <;> assumption

theorem determineCodeFence_ne_nil (path : Str) : determineCodeFence path ≠ [] := by
  unfold determineCodeFence
  repeat' apply ite_ne_nil
  all_goals decide

theorem formatEntry_code (path relPath content : Str) (hext : filepath.Ext path ≠ str ".md") :
    formatEntry path relPath content =
      [96] ++ filepath.ToSlash relPath ++ [96] ++ [10] ++ [96, 96, 96] ++ determineCodeFence path
        ++ [10] ++ content ++ [10] ++ [96, 96, 96] ++ [10, 10] := by
  unfold formatEntry
  simp only [hext, if_false, determineCodeFence_ne_nil path]
  have h1 : str "`" = [96] := by decide
  have h2 : str "`\n```" = [96, 10, 96, 96, 96] := by decide
  have h3 : str "\n" = [10] := by decide
  have h4 : str "\n```\n\n" = [10, 96, 96, 96, 10, 10] := by decide
  rw [h1, h2, h3, h4]
  simp

/-- Counterexample to C8 as stated: under a root `/r`, the markdown file named
two backticks followed by `.md` is written as an entry that begins with three
backticks. -/
theorem c8_backtick_path_counterexample :
    filepath.Ext (str "/r/``.md") = str ".md" ∧
      (processProject emptyGlobals (str "/r") backtickTree).1.out =
        str "```.md` (Markdown file)\n\nx\n\n" ∧
      strings.Contains (processProject emptyGlobals (str "/r") backtickTree).1.out (str "```")
        = true := by
  decide

/-- C8 (amended): for an included file with extension `.md` whose entry the output
document accepts, the entry appended to the
output is the path between backticks, ` (Markdown file)`, a blank line, the escaped
content and a blank line. The escaped content is the original with each triple
backtick, left to right, replaced by a triple tilde: same length, every byte equal to
the original or a tilde standing for a backtick, and no triple backtick left. A triple
backtick occurs in the entry only inside the path marker (backtick, path, backtick), so
never when the path has no backtick. -/
theorem c8_markdown_escaping (g : Globals) (rootDir : Str) (st : WalkState)
    (path relPath content : Str)
    (hext : filepath.Ext path = str ".md")
    (hrel : filepath.Rel rootDir path = some relPath)
    (hi : shouldIgnoreFile g relPath = false)
    (hb : isBinaryFile path (.data content) = false)
    (hw : ∀ limit, g.writeLimit = some limit →
      st.out.length + (formatEntry path relPath content).length ≤ limit) :
    (walkFn g rootDir st path (.file (.data content)) false).1.out =
        st.out ++ (str "`" ++ relPath ++ str "` (Markdown file)" ++ str "\n\n"
          ++ tildeFences content ++ str "\n\n") ∧
      strings.ReplaceAll content (str "```") (str "~~~") = tildeFences content ∧
      (tildeFences content).length = content.length ∧
      List.Forall₂ (fun a b => b = a ∨ (a = 96 ∧ b = 126)) content (tildeFences content) ∧
      strings.Contains (tildeFences content) (str "```") = false ∧
      (strings.Contains (formatEntry path relPath content) (str "```") = true ↔
        strings.Contains (str "`" ++ relPath ++ str "`") (str "```") = true) ∧
      (96 ∉ relPath →
        strings.Contains (formatEntry path relPath content) (str "```") = false) := by
  have h1 : str "`" = [96] := by decide
  have hiff := formatEntry_md_fence_iff path relPath content hext
  refine ⟨?_, replaceAll_fences content, tildeFences_length content,
    tildeFences_pointwise content, ?_, ?_, ?_⟩
  · rw [walkFn_included g rootDir st path relPath content hrel hi hb hw,
      formatEntry_md path relPath content hext]
    have h2 : str "` (Markdown file)" = 96 :: 32 :: str "(Markdown file)" := by decide
    have h3 : str "\n\n" = [10, 10] := by decide
    rw [h1, h2, h3]
    simp
  · rw [Bool.eq_false_iff, Ne, contains_iff_sublist, str_fence]
    exact tildeFences_no_fence content
  · rw [contains_iff_sublist, contains_iff_sublist, str_fence, h1]
    exact hiff
  · intro hno
    rw [Bool.eq_false_iff, Ne, contains_iff_sublist, str_fence, hiff]
    exact no_fence_of_no_backtick relPath hno

/-- Witness for C8: `docs.md` of the test project under the root `/r`. -/
theorem c8_markdown_escaping_witness :
    (walkFn emptyGlobals (str "/r") { out := [], visited := [] } (str "/r/docs.md")
        (.file (.data (str "# Documentation\n\n```go\nfunc example() {}\n```\n"))) false).1.out =
        [] ++ (str "`" ++ str "docs.md" ++ str "` (Markdown file)" ++ str "\n\n"
          ++ tildeFences (str "# Documentation\n\n```go\nfunc example() {}\n```\n")
          ++ str "\n\n") ∧
      strings.ReplaceAll (str "# Documentation\n\n```go\nfunc example() {}\n```\n") (str "```")
          (str "~~~") = tildeFences (str "# Documentation\n\n```go\nfunc example() {}\n```\n") ∧
      (tildeFences (str "# Documentation\n\n```go\nfunc example() {}\n```\n")).length =
        (str "# Documentation\n\n```go\nfunc example() {}\n```\n").length ∧
      List.Forall₂ (fun a b => b = a ∨ (a = 96 ∧ b = 126))
        (str "# Documentation\n\n```go\nfunc example() {}\n```\n")
        (tildeFences (str "# Documentation\n\n```go\nfunc example() {}\n```\n")) ∧
      strings.Contains (tildeFences (str "# Documentation\n\n```go\nfunc example() {}\n```\n"))
        (str "```") = false ∧
      (strings.Contains (formatEntry (str "/r/docs.md") (str "docs.md")
            (str "# Documentation\n\n```go\nfunc example() {}\n```\n")) (str "```") = true ↔
        strings.Contains (str "`" ++ str "docs.md" ++ str "`") (str "```") = true) ∧
      (96 ∉ str "docs.md" →
        strings.Contains (formatEntry (str "/r/docs.md") (str "docs.md")
          (str "# Documentation\n\n```go\nfunc example() {}\n```\n")) (str "```") = false) :=
  c8_markdown_escaping emptyGlobals (str "/r") { out := [], visited := [] } (str "/r/docs.md")
    (str "docs.md") (str "# Documentation\n\n```go\nfunc example() {}\n```\n")
    (by decide) (by decide) (by decide) (by decide) (by simp [emptyGlobals])

theorem determineCodeFenceOn_ne_nil (h : Host) (path : Str) :
    determineCodeFenceOn h path ≠ [] := by
  unfold determineCodeFenceOn
  repeat' apply ite_ne_nil
  all_goals decide

theorem extLoopOn_unix : ∀ (s acc : Str),
    filepath.extLoopOn .unix s acc = filepath.extLoop s acc := by
  intro s
  induction s with
  | nil => intro acc; rfl
  | cons c cs ih =>
    intro acc
    rw [filepath.extLoopOn, filepath.extLoop, ih]
    simp [Host.isPathSeparator, filepath.Separator]

theorem ExtOn_unix (path : Str) : filepath.ExtOn .unix path = filepath.Ext path := by
  rw [filepath.ExtOn, filepath.Ext, extLoopOn_unix]

theorem determineCodeFenceOn_unix (path : Str) :
    determineCodeFenceOn .unix path = determineCodeFence path := by
  rw [determineCodeFenceOn, determineCodeFence, ExtOn_unix]

theorem ToSlashOn_unix (path : Str) : filepath.ToSlashOn .unix path = filepath.ToSlash path := by
  simp [filepath.ToSlashOn, filepath.ToSlash, Host.separator]

theorem formatEntryOn_unix (path relPath content : Str) :
    formatEntryOn .unix path relPath content = formatEntry path relPath content := by
  rw [formatEntryOn, formatEntry, ExtOn_unix, ToSlashOn_unix, determineCodeFenceOn_unix]

theorem formatEntryOn_md (h : Host) (path relPath content : Str)
    (hext : filepath.ExtOn h path = str ".md") :
    formatEntryOn h path relPath content =
      [96] ++ filepath.ToSlashOn h relPath ++ [96] ++ str " (Markdown file)" ++ [10, 10]
        ++ strings.ReplaceAll content (str "```") (str "~~~") ++ [10, 10] := by
  unfold formatEntryOn
  simp only [hext, if_true]
  have h1 : str "`" = [96] := by decide
  have h2 : str "` (Markdown file)\n\n" = [96] ++ str " (Markdown file)" ++ [10, 10] := by
    decide
  have h3 : str "\n\n" = [10, 10] := by decide
  rw [h1, h2, h3]
  simp

theorem formatEntryOn_code (h : Host) (path relPath content : Str)
    (hext : filepath.ExtOn h path ≠ str ".md") :
    formatEntryOn h path relPath content =
      [96] ++ filepath.ToSlashOn h relPath ++ [96] ++ [10] ++ [96, 96, 96]
        ++ determineCodeFenceOn h path ++ [10] ++ content ++ [10] ++ [96, 96, 96]
        ++ [10, 10] := by
  unfold formatEntryOn
  simp only [hext, if_false, determineCodeFenceOn_ne_nil h path]
  have h1 : str "`" = [96] := by decide
  have h2 : str "`\n```" = [96, 10, 96, 96, 96] := by decide
  have h3 : str "\n" = [10] := by decide
  have h4 : str "\n```\n\n" = [10, 96, 96, 96, 10, 10] := by decide
  rw [h1, h2, h3, h4]
  simp

theorem formatEntryOn_layout (h : Host) (path relPath content : Str) :
    formatEntryOn h path relPath content =
      if filepath.ExtOn h path = str ".md" then
        [96] ++ filepath.ToSlashOn h relPath ++ [96] ++ str " (Markdown file)" ++ [10, 10]
          ++ strings.ReplaceAll content (str "```") (str "~~~") ++ [10, 10]
      else
        [96] ++ filepath.ToSlashOn h relPath ++ [96] ++ [10] ++ [96, 96, 96]
          ++ determineCodeFenceOn h path ++ [10] ++ content ++ [10] ++ [96, 96, 96]
          ++ [10, 10] := by
  by_cases hext : filepath.ExtOn h path = str ".md"
  · rw [if_pos hext, formatEntryOn_md h path relPath content hext]
  · rw [if_neg hext, formatEntryOn_code h path relPath content hext]

theorem formatEntryOn_blank_line (h : Host) (path relPath content : Str) :
    [10, 10] <:+ formatEntryOn h path relPath content := by
  rw [formatEntryOn_layout]
  split
  · exact List.suffix_append _ _
  · exact List.suffix_append _ _

theorem ToSlashOn_map (h : Host) (relPath : Str) :
    filepath.ToSlashOn h relPath = relPath.map fun c => if c = h.separator then 47 else c := by
  cases h with
  | unix =>
    simp only [filepath.ToSlashOn, Host.separator, if_true]
    induction relPath with
    | nil => rfl
    | cons c cs ih =>
      rw [List.map_cons, ← ih]
      by_cases hc : c = 47
      · simp [hc]
      · simp [hc]
  | windows =>
    simp [filepath.ToSlashOn, Host.separator]

theorem ToSlashOn_separators (h : Host) (relPath : Str) :
    ∀ c ∈ filepath.ToSlashOn h relPath, h.isPathSeparator c = true → c = 47 := by
  intro c hc hs
  cases h with
  | unix => simpa [Host.isPathSeparator] using hs
  | windows =>
    rw [ToSlashOn_map] at hc
    obtain ⟨a, _, ha⟩ := List.mem_map.mp hc
    simp only [Host.separator] at ha
    simp only [Host.isPathSeparator, Bool.or_eq_true, decide_eq_true_eq] at hs
    rcases hs with hs | hs
    · exfalso
      by_cases h92 : a = 92
      · rw [if_pos h92] at ha; omega
      · rw [if_neg h92] at ha; omega
    · exact hs

theorem ToSlashOn_no_backslash (relPath : Str) : 92 ∉ filepath.ToSlashOn .windows relPath := by
  intro hc
  have := ToSlashOn_separators .windows relPath 92 hc (by decide)
  omega

/-- C9: the entry written for an included file. On every host and for every path and
content the string handed to the output document is, for extension `.md`: a backtick, the
relative path with each separator of the host turned into `/`, a backtick,
` (Markdown file)`, two newlines, the content with triple backticks replaced by triple
tildes, two newlines; otherwise: a backtick, that path, a backtick, a newline, three
backticks and the tag of `determineCodeFence`, a newline, the content unchanged, a
newline, three backticks, two newlines. So every entry ends with a blank line; every
path separator of the host left in the rendered path is `/`, and on a host whose
separator is the backslash the rendered path has no backslash (`utils\helper.go` is
rendered `utils/helper.go`). On a Unix host, when the output document accepts the entry,
the walk function appends exactly this string to the output, which then ends with a
blank line. -/
theorem c9_entry_format (g : Globals) (rootDir : Str) (st : WalkState)
    (path relPath content : Str) (h : Host)
    (hrel : filepath.Rel rootDir path = some relPath)
    (hi : shouldIgnoreFile g relPath = false)
    (hb : isBinaryFile path (.data content) = false)
    (hw : ∀ limit, g.writeLimit = some limit →
      st.out.length + (formatEntry path relPath content).length ≤ limit) :
    (walkFn g rootDir st path (.file (.data content)) false).1.out =
        st.out ++
          (if filepath.Ext path = str ".md" then
            [96] ++ filepath.ToSlash relPath ++ [96] ++ str " (Markdown file)" ++ [10, 10]
              ++ strings.ReplaceAll content (str "```") (str "~~~") ++ [10, 10]
          else
            [96] ++ filepath.ToSlash relPath ++ [96] ++ [10] ++ [96, 96, 96]
              ++ determineCodeFence path ++ [10] ++ content ++ [10] ++ [96, 96, 96]
              ++ [10, 10]) ∧
      [10, 10] <:+ (walkFn g rootDir st path (.file (.data content)) false).1.out ∧
      formatEntryOn h path relPath content =
        (if filepath.ExtOn h path = str ".md" then
          [96] ++ filepath.ToSlashOn h relPath ++ [96] ++ str " (Markdown file)" ++ [10, 10]
            ++ strings.ReplaceAll content (str "```") (str "~~~") ++ [10, 10]
        else
          [96] ++ filepath.ToSlashOn h relPath ++ [96] ++ [10] ++ [96, 96, 96]
            ++ determineCodeFenceOn h path ++ [10] ++ content ++ [10] ++ [96, 96, 96]
            ++ [10, 10]) ∧
      [10, 10] <:+ formatEntryOn h path relPath content ∧
      formatEntryOn .unix path relPath content = formatEntry path relPath content ∧
      (filepath.ToSlashOn h relPath =
        relPath.map fun c => if c = h.separator then 47 else c) ∧
      (∀ c ∈ filepath.ToSlashOn h relPath, h.isPathSeparator c = true → c = 47) ∧
      92 ∉ filepath.ToSlashOn .windows relPath ∧
      filepath.ToSlashOn .windows (str "utils\\helper.go") = str "utils/helper.go" := by
  have hlay := formatEntryOn_layout .unix path relPath content
  rw [formatEntryOn_unix, ExtOn_unix, ToSlashOn_unix, determineCodeFenceOn_unix] at hlay
  have hblank := formatEntryOn_blank_line .unix path relPath content
  rw [formatEntryOn_unix] at hblank
  rw [walkFn_included g rootDir st path relPath content hrel hi hb hw]
  refine ⟨?_, ?_, formatEntryOn_layout h path relPath content,
    formatEntryOn_blank_line h path relPath content, formatEntryOn_unix path relPath content,
    ToSlashOn_map h relPath, ToSlashOn_separators h relPath, ToSlashOn_no_backslash relPath,
    by decide⟩
  · simp only
    rw [hlay]
  · obtain ⟨t, ht⟩ := hblank
    exact ⟨st.out ++ t, by simp only; rw [← ht, List.append_assoc]⟩

/-- Witness for C9: `utils/helper.go` of the test project under the root `/r`, and the
host with the backslash separator. -/
theorem c9_entry_format_witness :
    (walkFn emptyGlobals (str "/r") { out := [], visited := [] } (str "/r/utils/helper.go")
        (.file (.data (str "package utils\n"))) false).1.out =
        [] ++
          (if filepath.Ext (str "/r/utils/helper.go") = str ".md" then
            [96] ++ filepath.ToSlash (str "utils/helper.go") ++ [96] ++ str " (Markdown file)"
              ++ [10, 10]
              ++ strings.ReplaceAll (str "package utils\n") (str "```") (str "~~~") ++ [10, 10]
          else
            [96] ++ filepath.ToSlash (str "utils/helper.go") ++ [96] ++ [10] ++ [96, 96, 96]
              ++ determineCodeFence (str "/r/utils/helper.go") ++ [10]
              ++ str "package utils\n" ++ [10] ++ [96, 96, 96] ++ [10, 10]) ∧
      [10, 10] <:+ (walkFn emptyGlobals (str "/r") { out := [], visited := [] }
        (str "/r/utils/helper.go") (.file (.data (str "package utils\n"))) false).1.out ∧
      formatEntryOn .windows (str "/r/utils/helper.go") (str "utils/helper.go")
          (str "package utils\n") =
        (if filepath.ExtOn .windows (str "/r/utils/helper.go") = str ".md" then
          [96] ++ filepath.ToSlashOn .windows (str "utils/helper.go") ++ [96]
            ++ str " (Markdown file)" ++ [10, 10]
            ++ strings.ReplaceAll (str "package utils\n") (str "```") (str "~~~") ++ [10, 10]
        else
          [96] ++ filepath.ToSlashOn .windows (str "utils/helper.go") ++ [96] ++ [10]
            ++ [96, 96, 96] ++ determineCodeFenceOn .windows (str "/r/utils/helper.go") ++ [10]
            ++ str "package utils\n" ++ [10] ++ [96, 96, 96] ++ [10, 10]) ∧
      [10, 10] <:+ formatEntryOn .windows (str "/r/utils/helper.go") (str "utils/helper.go")
        (str "package utils\n") ∧
      formatEntryOn .unix (str "/r/utils/helper.go") (str "utils/helper.go")
          (str "package utils\n") =
        formatEntry (str "/r/utils/helper.go") (str "utils/helper.go") (str "package utils\n") ∧
      (filepath.ToSlashOn .windows (str "utils/helper.go") =
        (str "utils/helper.go").map fun c => if c = Host.windows.separator then 47 else c) ∧
      (∀ c ∈ filepath.ToSlashOn .windows (str "utils/helper.go"),
        Host.windows.isPathSeparator c = true → c = 47) ∧
      92 ∉ filepath.ToSlashOn .windows (str "utils/helper.go") ∧
      filepath.ToSlashOn .windows (str "utils\\helper.go") = str "utils/helper.go" :=
  c9_entry_format emptyGlobals (str "/r") { out := [], visited := [] }
    (str "/r/utils/helper.go") (str "utils/helper.go") (str "package utils\n") .windows
    (by decide) (by decide) (by decide) (by simp [emptyGlobals])

/-! ## Pruning -/

theorem walkFn_dir_entries (g : Globals) (rootDir : Str) (st : WalkState) (path : Str)
    (listable : Bool) (e1 e2 : Entries) (err : Bool) :
    walkFn g rootDir st path (.dir listable e1) err =
      walkFn g rootDir st path (.dir listable e2) err := by
  simp [walkFn]

theorem walk_pruned_dir (g : Globals) (rootDir d : Str) (listable : Bool) (entries : Entries)
    (st : WalkState) (h : shouldIgnoreDir g d = true) :
    walk g rootDir d (.dir listable entries) st =
      ({ out := st.out, visited := st.visited ++ [d] },
        if listable then WalkErr.skipDir else WalkErr.err) := by
  rw [walk]
  cases listable <;> simp [walkFn, h]

theorem pruneNode_isDir (g : Globals) (path : Str) (node : Node) :
    (pruneNode g path node).isDir = node.isDir := by
  cases node with
  | file d => simp [pruneNode]
  | nostat => simp [pruneNode]
  | document => simp [pruneNode]
  | dir listable entries =>
    rw [pruneNode]
    split <;> rfl

theorem walk_dir (g : Globals) (rootDir path : Str) (listable : Bool) (entries : Entries)
    (st : WalkState) :
    walk g rootDir path (.dir listable entries) st =
      if (!listable || (walkFn g rootDir st path (.dir listable entries) (!listable)).2 ≠ .nil)
      then walkFn g rootDir st path (.dir listable entries) (!listable)
      else walkEntries g rootDir path entries
        (walkFn g rootDir st path (.dir listable entries) (!listable)).1 := by
  rw [walk]

theorem walkEntries_cons_dir (g : Globals) (rootDir path name : Str) (listable : Bool)
    (entries rest : Entries) (st : WalkState) :
    walkEntries g rootDir path (.cons name (.dir listable entries) rest) st =
      if ((walk g rootDir (filepath.Join path name) (.dir listable entries) st).2 ≠ .nil &&
          (walk g rootDir (filepath.Join path name) (.dir listable entries) st).2 ≠ .skipDir)
      then walk g rootDir (filepath.Join path name) (.dir listable entries) st
      else walkEntries g rootDir path rest
        (walk g rootDir (filepath.Join path name) (.dir listable entries) st).1 := by
  simp [walkEntries, Node.isDir]

mutual
theorem walk_prune (g : Globals) (rootDir : Str) :
    ∀ (path : Str) (node : Node) (st : WalkState),
      walk g rootDir path node st = walk g rootDir path (pruneNode g path node) st
  | path, .file d, st => by rw [pruneNode]
  | path, .nostat, st => by rw [pruneNode]
  | path, .document, st => by rw [pruneNode]
  | path, .dir listable entries, st => by
    rw [pruneNode]
    by_cases h : shouldIgnoreDir g path = true
    · simp only [h, if_true]
      rw [walk_pruned_dir g rootDir path listable entries st h,
        walk_pruned_dir g rootDir path listable .nil st h]
    · rw [if_neg h, walk_dir, walk_dir,
        walkFn_dir_entries g rootDir st path listable entries (pruneEntries g path entries)]
      split
      · rfl
      · exact walkEntries_prune g rootDir path entries _
theorem walkEntries_prune (g : Globals) (rootDir : Str) :
    ∀ (path : Str) (entries : Entries) (st : WalkState),
      walkEntries g rootDir path entries st =
        walkEntries g rootDir path (pruneEntries g path entries) st
  | path, .nil, st => by rw [pruneEntries]
  | path, .cons name node rest, st => by
    have ih := walk_prune g rootDir (filepath.Join path name) node st
    have ihr := walkEntries_prune g rootDir path rest
    have hd := pruneNode_isDir g (filepath.Join path name) node
    cases node with
    | nostat =>
      simp only [pruneEntries, pruneNode, walkEntries]
      split
      · rfl
      · exact ihr _
    | file d =>
      simp only [pruneEntries, pruneNode, walkEntries]
      split
      · rfl
      · exact ihr _
    | document =>
      simp only [pruneEntries, pruneNode, walkEntries]
      split
      · rfl
      · exact ihr _
    | dir listable entries =>
      rw [pruneEntries]
      generalize pruneNode g (filepath.Join path name) (.dir listable entries) = pn at ih hd ⊢
      cases pn with
      | nostat => simp [Node.isDir] at hd
      | file d => simp [Node.isDir] at hd
      | document => simp [Node.isDir] at hd
      | dir l2 e2 =>
        rw [walkEntries_cons_dir, walkEntries_cons_dir, ← ih]
        split
        · rfl
        · exact ihr _
end

/-- C10: pruning is total over the subtree. When `shouldIgnoreDir` is true for a
directory `d` the walk reaches (the root included), the walk of `d` calls the walk
function on `d` alone and writes nothing, whatever lies below `d`; and over any tree
`processProject` gives the same output, visits and result as over the tree with
everything below each pruned directory removed. In the project with the directory
rule `build`, the text file `build/binary` is never visited and has no entry, though
without that rule it would be written. -/
theorem c10_pruning_total (g : Globals) (rootDir d : Str) (listable : Bool) (entries : Entries)
    (st : WalkState) (tree : Node) (h : shouldIgnoreDir g d = true) :
    (walk g rootDir d (.dir listable entries) st).1 =
        { out := st.out, visited := st.visited ++ [d] } ∧
      (walk g rootDir d (.dir listable entries) st).2 ≠ .nil ∧
      walk g rootDir d (.dir listable entries) st = walk g rootDir d (.dir listable .nil) st ∧
      processProject g rootDir tree = processProject g rootDir (pruneNode g rootDir tree) ∧
      processProject projectTestGlobals (str "/tmp/x") buildTree =
        ({ out := str "`main.go`\n```go\npackage main\n\n```\n\n"
           visited := [str "/tmp/x", str "/tmp/x/build", str "/tmp/x/main.go"] }, .nil) ∧
      (processProject { projectTestGlobals with rules := { projectTestGlobals.rules with
            ignoredDirs := [] } } (str "/tmp/x") buildTree).1.out =
        str "`build/binary`\n```text\nplain text\n```\n\n`main.go`\n```go\npackage main\n\n```\n\n"
      := by
  refine ⟨?_, ?_, ?_, ?_, by decide, by decide⟩
  · rw [walk_pruned_dir g rootDir d listable entries st h]
  · rw [walk_pruned_dir g rootDir d listable entries st h]
    cases listable <;> simp
  · rw [walk_pruned_dir g rootDir d listable entries st h,
      walk_pruned_dir g rootDir d listable .nil st h]
  · unfold processProject Walk
    rw [← walk_prune]

/-- Witness for C10: the directory `/tmp/x/build` of the test project. -/
theorem c10_pruning_total_witness :
    (walk projectTestGlobals (str "/tmp/x") (str "/tmp/x/build")
        (.dir true (.cons (str "binary") (.file (.data (str "plain text"))) .nil))
        { out := [], visited := [str "/tmp/x"] }).1 =
        { out := [], visited := [str "/tmp/x"] ++ [str "/tmp/x/build"] } ∧
      (walk projectTestGlobals (str "/tmp/x") (str "/tmp/x/build")
        (.dir true (.cons (str "binary") (.file (.data (str "plain text"))) .nil))
        { out := [], visited := [str "/tmp/x"] }).2 ≠ .nil ∧
      walk projectTestGlobals (str "/tmp/x") (str "/tmp/x/build")
        (.dir true (.cons (str "binary") (.file (.data (str "plain text"))) .nil))
        { out := [], visited := [str "/tmp/x"] } =
        walk projectTestGlobals (str "/tmp/x") (str "/tmp/x/build") (.dir true .nil)
          { out := [], visited := [str "/tmp/x"] } ∧
      processProject projectTestGlobals (str "/tmp/x") buildTree =
        processProject projectTestGlobals (str "/tmp/x")
          (pruneNode projectTestGlobals (str "/tmp/x") buildTree) ∧
      processProject projectTestGlobals (str "/tmp/x") buildTree =
        ({ out := str "`main.go`\n```go\npackage main\n\n```\n\n"
           visited := [str "/tmp/x", str "/tmp/x/build", str "/tmp/x/main.go"] }, .nil) ∧
      (processProject { projectTestGlobals with rules := { projectTestGlobals.rules with
            ignoredDirs := [] } } (str "/tmp/x") buildTree).1.out =
        str "`build/binary`\n```text\nplain text\n```\n\n`main.go`\n```go\npackage main\n\n```\n\n" :=
  c10_pruning_total projectTestGlobals (str "/tmp/x") (str "/tmp/x/build") true
    (.cons (str "binary") (.file (.data (str "plain text"))) .nil)
    { out := [], visited := [str "/tmp/x"] } buildTree (by decide)

/-! ## The library model on the test tables of the Go standard library -/

set_option maxRecDepth 100000 in
theorem Match_on_matchTests : ∀ t ∈ matchTests, filepath.Match t.1 t.2.1 = t.2.2 := by decide

set_option maxRecDepth 100000 in
theorem Clean_on_cleanTests : ∀ t ∈ cleanTests, filepath.Clean t.1 = t.2 := by decide

set_option maxRecDepth 100000 in
theorem Rel_on_relTests : ∀ t ∈ relTests, filepath.Rel t.1 t.2.1 = t.2.2 := by decide

/-- A target that is the current directory, and a base that climbs above the target. -/
theorem Rel_on_dot_targets :
    filepath.Rel (str "a") (str ".") = some (str "..") ∧
      filepath.Rel (str "a/b") (str ".") = some (str "../..") ∧
      filepath.Rel (str "../..") (str "..") = none := by
  decide

/-- The matcher reports a malformed pattern only when it reaches the malformed chunk. -/
theorem Match_on_unclosed_class :
    filepath.Match (str "a*[") (str "b") = some false ∧
      filepath.Match (str "a*[") (str "a") = none ∧
      filepath.Match (str "a[") (str "b") = none ∧
      filepath.Match (str "x*y*[") (str "xz") = some false := by
  decide

theorem Base_on_baseTests : ∀ t ∈ baseTests, filepath.Base t.1 = t.2 := by decide

theorem Ext_on_extTests : ∀ t ∈ extTests, filepath.Ext t.1 = t.2 := by decide

theorem TrimSpace_on_trimSpaceTests : ∀ t ∈ trimSpaceTests, strings.TrimSpace t.1 = t.2 := by
  decide

set_option maxRecDepth 100000 in
/-- The run of `TestProcessProject`: entries for `docs.md`, `main.go`, `output.md` and
`utils/helper.go`, none for `README.md` or `build/binary`. The entry of `output.md`, the
open output document, holds the two entries written before it, as markdown content. -/
theorem processProject_on_testProject :
    processProject projectTestGlobals (str "/tmp/x") testProject =
      ({ out := str ("`docs.md` (Markdown file)\n\n# Documentation\n\n~~~go\nfunc example() {}\n~~~\n\n\n"
            ++ "`main.go`\n```go\npackage main\n\nfunc main() {}\n\n```\n\n"
            ++ "`output.md` (Markdown file)\n\n"
            ++ "`docs.md` (Markdown file)\n\n# Documentation\n\n~~~go\nfunc example() {}\n~~~\n\n\n"
            ++ "`main.go`\n~~~go\npackage main\n\nfunc main() {}\n\n~~~\n\n"
            ++ "\n\n"
            ++ "`utils/helper.go`\n```go\npackage utils\n\nfunc Helper() {}\n\n```\n\n")
         visited := [str "/tmp/x", str "/tmp/x/README.md", str "/tmp/x/build", str "/tmp/x/docs.md",
           str "/tmp/x/main.go", str "/tmp/x/output.md", str "/tmp/x/utils",
           str "/tmp/x/utils/helper.go"] }, .nil) := by
  decide

/-! ## The fuel of the `filepath.Match` loops is enough

Each loop is run with one more unit of fuel than the length of what it consumes; more
fuel never changes its result. -/

theorem width_ite {c : Prop} [Decidable c] {a b : Nat × Nat} (ha : 1 ≤ a.2) (hb : 1 ≤ b.2) :
    1 ≤ (if c then a else b).2 := by
  split <;> assumption

theorem decodeRune_width_pos (c : Nat) (cs : Str) : 1 ≤ (utf8.DecodeRune (c :: cs)).2 := by
  unfold utf8.DecodeRune
  repeat' first
    | apply width_ite
    | split
  all_goals simp

theorem getEsc_length (chunk : Str) (r : Nat) (nchunk : Str)
    (h : filepath.getEsc chunk = some (r, nchunk)) : nchunk.length < chunk.length := by
  cases chunk with
  | nil => simp [filepath.getEsc] at h
  | cons c cs =>
    unfold filepath.getEsc at h
    by_cases h1 : (decide (c = 45) || decide (c = 93)) = true
    · simp [h1] at h
    · simp only [h1, Bool.false_eq_true, if_false] at h
      by_cases h92 : c = 92
      · simp only [h92, if_true] at h
        cases cs with
        | nil => simp at h
        | cons d ds =>
          have hw := decodeRune_width_pos d ds
          simp only [List.cons_ne_nil, if_false] at h
          split at h
          · simp at h
          · simp only [Option.some.injEq, Prod.mk.injEq] at h
            rw [← h.2, List.length_drop]
            simp only [List.length_cons]
            omega
      · simp only [h92, if_false, List.cons_ne_nil] at h
        have hw := decodeRune_width_pos c cs
        split at h
        · simp at h
        · simp only [Option.some.injEq, Prod.mk.injEq] at h
          rw [← h.2, List.length_drop]
          simp only [List.length_cons]
          omega

theorem classLoop_length (r : Nat) : ∀ (fuel : Nat) (chunk : Str) (m seen : Bool) (m' : Bool)
    (chunk' : Str), filepath.classLoop r fuel chunk m seen = some (m', chunk') →
      chunk'.length < chunk.length := by
  intro fuel
  induction fuel with
  | zero => intro chunk m seen m' chunk' h; simp [filepath.classLoop] at h
  | succ fuel ih =>
    intro chunk m seen m' chunk' h
    rw [filepath.classLoop] at h
    split at h
    · rename_i hc
      simp only [Option.some.injEq, Prod.mk.injEq] at h
      obtain ⟨_, h2⟩ := h
      subst h2
      cases chunk with
      | nil => simp at hc
      | cons c cs => simp
    · split at h
      · simp at h
      · rename_i lo chunk1 he
        have h1 := getEsc_length _ _ _ he
        split at h
        · split at h
          · simp at h
          · rename_i hi chunk2 he2
            have h2 := getEsc_length _ _ _ he2
            have h3 := ih _ _ _ _ _ h
            have : chunk1.tail.length ≤ chunk1.length := by simp
            omega
        · have h3 := ih _ _ _ _ _ h
          omega

theorem classLoop_fuel (r : Nat) : ∀ (fuel : Nat) (chunk : Str) (m seen : Bool),
    chunk.length < fuel →
      filepath.classLoop r (fuel + 1) chunk m seen = filepath.classLoop r fuel chunk m seen := by
  intro fuel
  induction fuel with
  | zero => intro chunk m seen h; omega
  | succ fuel ih =>
    intro chunk m seen h
    rw [filepath.classLoop, filepath.classLoop]
    split
    · rfl
    · split
      · rfl
      · rename_i lo chunk1 he
        have h1 := getEsc_length _ _ _ he
        split
        · split
          · rfl
          · rename_i hi chunk2 he2
            have h2 := getEsc_length _ _ _ he2
            have : chunk1.tail.length ≤ chunk1.length := by simp
            exact ih _ _ _ (by omega)
        · exact ih _ _ _ (by omega)

theorem matchChunkLoop_fuel : ∀ (fuel : Nat) (chunk s : Str) (failed : Bool),
    chunk.length < fuel →
      filepath.matchChunkLoop (fuel + 1) chunk s failed =
        filepath.matchChunkLoop fuel chunk s failed := by
  intro fuel
  induction fuel with
  | zero => intro chunk s failed h; omega
  | succ fuel ih =>
    intro chunk s failed h
    cases chunk with
    | nil => simp only [filepath.matchChunkLoop]
    | cons c cs =>
      simp only [List.length_cons] at h
      simp only [filepath.matchChunkLoop]
      split
      · split
        · rfl
        · rename_i m chunk' hcl
          have hl := classLoop_length _ _ _ _ _ _ _ hcl
          apply ih
          have : (if (decide (cs.head? = some 94)) = true then cs.tail else cs).length
              ≤ cs.length := by
            split
            · simp
            · exact le_refl _
          omega
      · split
        · exact ih _ _ _ (by omega)
        · split
          · rfl
          · rename_i d ds hd
            apply ih
            have : (d :: ds).length ≤ (c :: cs).length := by
              rw [← hd]
              split
              · simp
              · exact le_refl _
            simp only [List.length_cons] at this
            omega

theorem scanSplit_rest_le : ∀ (n : Nat) (inrange : Bool) (s : Str), s.length ≤ n →
    (filepath.scanSplit inrange s).2.length ≤ s.length := by
  intro n
  induction n with
  | zero =>
    intro inrange s h
    have : s = [] := List.length_eq_zero.mp (by omega)
    subst this
    simp [filepath.scanSplit]
  | succ n ih =>
    intro inrange s h
    cases s with
    | nil => simp [filepath.scanSplit]
    | cons c cs =>
      simp only [List.length_cons] at h
      have h1 := ih true cs (by omega)
      have h2 := ih false cs (by omega)
      have h3 := ih inrange cs (by omega)
      cases cs with
      | nil =>
        rw [filepath.scanSplit.eq_def]
        simp only [filepath.scanSplit]
        repeat' split
        all_goals simp
      | cons d ds =>
        have h4 := ih inrange ds (by simp only [List.length_cons] at h; omega)
        rw [filepath.scanSplit.eq_def]
        simp only [List.length_cons] at h1 h2 h3 ⊢
        repeat' split
        all_goals first
          | omega
          | (simp only []; omega)
          | simp

theorem scanSplit_rest_lt (inrange : Bool) (c : Nat) (cs : Str)
    (h : c ≠ 42 ∨ inrange = true) :
    (filepath.scanSplit inrange (c :: cs)).2.length < (c :: cs).length := by
  have hle : ∀ (b : Bool) (s : Str), (filepath.scanSplit b s).2.length ≤ s.length :=
    fun b s => scanSplit_rest_le s.length b s (le_refl _)
  have h1 := hle true cs
  have h2 := hle false cs
  have h3 := hle inrange cs
  cases cs with
  | nil =>
    rw [filepath.scanSplit.eq_def]
    simp only [filepath.scanSplit]
    rcases h with h | h
    · repeat' split
      all_goals simp_all
    · subst h
      repeat' split
      all_goals simp_all
  | cons d ds =>
    have h4 := hle inrange ds
    rw [filepath.scanSplit.eq_def]
    simp only [List.length_cons] at h1 h2 h3 ⊢
    rcases h with h | h
    · repeat' split
      all_goals first
        | omega
        | (simp only []; omega)
    · subst h
      repeat' split
      all_goals first
        | omega
        | (simp only []; omega)
        | simp_all

theorem scanChunk_rest_lt (pattern : Str) (h : pattern ≠ []) :
    (filepath.scanChunk pattern).2.2.length < pattern.length := by
  have hle : ∀ (b : Bool) (s : Str), (filepath.scanSplit b s).2.length ≤ s.length :=
    fun b s => scanSplit_rest_le s.length b s (le_refl _)
  show (filepath.scanSplit false (pattern.dropWhile (· == 42))).2.length < pattern.length
  cases pattern with
  | nil => exact absurd rfl h
  | cons c cs =>
    by_cases h42 : c = 42
    · subst h42
      have hd : (List.dropWhile (· == 42) (42 :: cs)) = List.dropWhile (· == 42) cs := by
        simp [List.dropWhile_cons]
      rw [hd]
      have h1 := hle false (List.dropWhile (· == 42) cs)
      have h2 : (List.dropWhile (· == 42) cs).length ≤ cs.length :=
        (List.dropWhile_suffix _).length_le
      simp only [List.length_cons]
      omega
    · have hd : (List.dropWhile (· == 42) (c :: cs)) = c :: cs := by
        simp [List.dropWhile_cons, h42]
      rw [hd]
      exact scanSplit_rest_lt false c cs (Or.inl h42)

theorem matchLoop_fuel : ∀ (fuel : Nat) (pattern name : Str), pattern.length < fuel →
    filepath.matchLoop (fuel + 1) pattern name = filepath.matchLoop fuel pattern name := by
  intro fuel
  induction fuel with
  | zero => intro pattern name h; omega
  | succ fuel ih =>
    intro pattern name h
    rw [filepath.matchLoop, filepath.matchLoop]
    by_cases hp : pattern = []
    · simp [hp]
    · simp only [hp, if_false]
      have hl := scanChunk_rest_lt pattern hp
      generalize filepath.scanChunk pattern = sc at hl ⊢
      obtain ⟨star, chunk, rest⟩ := sc
      simp only at hl ⊢
      have hrec : ∀ t, filepath.matchLoop (fuel + 1) rest t = filepath.matchLoop fuel rest t :=
        fun t => ih _ t (by omega)
      simp only [hrec]

/-- More fuel than the loop of `Match` is started with gives the same result. -/
theorem matchLoop_enough (pattern name : Str) (extra : Nat) :
    filepath.matchLoop (pattern.length + 1 + extra) pattern name =
      filepath.Match pattern name := by
  induction extra with
  | zero => rfl
  | succ extra ih =>
    rw [← ih]
    exact matchLoop_fuel (pattern.length + 1 + extra) pattern name (by omega)

/-- More fuel than `matchChunk` is started with gives the same result. -/
theorem matchChunkLoop_enough (chunk s : Str) (extra : Nat) :
    filepath.matchChunkLoop (chunk.length + 1 + extra) chunk s false =
      filepath.matchChunk chunk s := by
  induction extra with
  | zero => rfl
  | succ extra ih =>
    rw [← ih]
    exact matchChunkLoop_fuel (chunk.length + 1 + extra) chunk s false (by omega)

/-! ## The language tag -/

theorem determineCodeFence_table (path : Str) :
    ∀ kv ∈ codeFenceTable, filepath.Ext path = kv.1 → determineCodeFence path = kv.2 := by
  unfold determineCodeFence
  generalize filepath.Ext path = e
  intro kv hkv he
  subst he
  revert kv
  decide

theorem determineCodeFence_default (path : Str)
    (h : filepath.Ext path ∉ codeFenceTable.map Prod.fst) :
    determineCodeFence path = str "text" := by
  unfold determineCodeFence
  generalize filepath.Ext path = e at h ⊢
  have h0 : e ≠ str ".go" := fun he => h (he ▸ (by decide))
  have h1 : e ≠ str ".js" := fun he => h (he ▸ (by decide))
  have h2 : e ≠ str ".ts" := fun he => h (he ▸ (by decide))
  have h3 : e ≠ str ".py" := fun he => h (he ▸ (by decide))
  have h4 : e ≠ str ".java" := fun he => h (he ▸ (by decide))
  have h5 : e ≠ str ".c" := fun he => h (he ▸ (by decide))
  have h6 : e ≠ str ".cpp" := fun he => h (he ▸ (by decide))
  have h7 : e ≠ str ".h" := fun he => h (he ▸ (by decide))
  have h8 : e ≠ str ".hpp" := fun he => h (he ▸ (by decide))
  have h9 : e ≠ str ".rb" := fun he => h (he ▸ (by decide))
  have h10 : e ≠ str ".php" := fun he => h (he ▸ (by decide))
  have h11 : e ≠ str ".sh" := fun he => h (he ▸ (by decide))
  have h12 : e ≠ str ".md" := fun he => h (he ▸ (by decide))
  have h13 : e ≠ str ".html" := fun he => h (he ▸ (by decide))
  have h14 : e ≠ str ".css" := fun he => h (he ▸ (by decide))
  have h15 : e ≠ str ".json" := fun he => h (he ▸ (by decide))
  have h16 : e ≠ str ".xml" := fun he => h (he ▸ (by decide))
  have h17 : e ≠ str ".yaml" := fun he => h (he ▸ (by decide))
  have h18 : e ≠ str ".yml" := fun he => h (he ▸ (by decide))
  have h19 : e ≠ str ".sql" := fun he => h (he ▸ (by decide))
  have h20 : e ≠ str ".rs" := fun he => h (he ▸ (by decide))
  have h21 : e ≠ str ".kt" := fun he => h (he ▸ (by decide))
  have h22 : e ≠ str ".swift" := fun he => h (he ▸ (by decide))
  have h23 : e ≠ str ".cs" := fun he => h (he ▸ (by decide))
  have h24 : e ≠ str ".fs" := fun he => h (he ▸ (by decide))
  simp only [h0, h1, h2, h3, h4, h5, h6, h7, h8, h9, h10, h11, h12, h13, h14, h15, h16, h17, h18, h19, h20, h21, h22, h23, h24, if_false, decide_False, Bool.or_false, Bool.false_eq_true]

theorem codeFenceTable_no_text : ∀ kv ∈ codeFenceTable, kv.2 ≠ str "text" := by decide

/-- C12: `determineCodeFence` never returns the empty tag. For a path whose extension is
a key of the extension table it returns the tag of the table (`.go` gives `go`, `.js`
gives `javascript`, `.css` gives `css`, `.md` gives `markdown`), and it returns `text`
exactly when the extension is not a key, the empty extension included; so the
fallback of `processProject` for an empty tag leaves the tag as it is. -/
theorem c12_determineCodeFence (path : Str) :
    determineCodeFence path ≠ [] ∧
      (∀ kv ∈ codeFenceTable, filepath.Ext path = kv.1 → determineCodeFence path = kv.2) ∧
      (determineCodeFence path = str "text" ↔
        filepath.Ext path ∉ codeFenceTable.map Prod.fst) ∧
      (filepath.Ext path = [] → determineCodeFence path = str "text") ∧
      (if determineCodeFence path = [] then str "text" else determineCodeFence path) =
        determineCodeFence path ∧
      determineCodeFence (str "file.go") = str "go" ∧
      determineCodeFence (str "script.js") = str "javascript" ∧
      determineCodeFence (str "style.css") = str "css" ∧
      determineCodeFence (str "document.md") = str "markdown" ∧
      determineCodeFence (str "unknown.xyz") = str "text" ∧
      determineCodeFence (str "Makefile") = str "text" := by
  refine ⟨determineCodeFence_ne_nil path, determineCodeFence_table path, ?_, ?_, ?_,
    by decide, by decide, by decide, by decide, by decide, by decide⟩
  · constructor
    · intro ht hmem
      obtain ⟨kv, hkv, hk⟩ := List.mem_map.mp hmem
      have := determineCodeFence_table path kv hkv hk.symm
      exact codeFenceTable_no_text kv hkv (this ▸ ht)
    · exact determineCodeFence_default path
  · intro he
    apply determineCodeFence_default
    rw [he]
    decide
  · rw [if_neg (determineCodeFence_ne_nil path)]

/-! ## The output document given by a path -/

theorem base_no_slash (p : Str) : filepath.Base p = [47] ∨ 47 ∉ filepath.Base p := by
  unfold filepath.Base
  split
  · right; decide
  · simp only
    split
    · left; rfl
    · right
      intro h
      have := List.mem_rtakeWhile_imp h
      simp [filepath.Separator] at this

theorem base_ne_of_slash (o p : Str) (ho : 47 ∈ o) (hne : o ≠ [47]) : filepath.Base p ≠ o := by
  intro h
  rcases base_no_slash p with hb | hb
  · exact hne (h ▸ hb)
  · exact hb (h ▸ ho)

set_option maxRecDepth 100000 in
/-- C13 at its failing input: with the output option `out/doc.txt` and no rules, the
root-relative path `out/doc.txt` of the output document is not skipped, and the walk
writes an entry for it, whose content is what the document held when the walk reached it
(the entry of `main.go`); no basename equals an output option that holds a separator.
With the bare name `doc.txt` the same file is skipped. -/
theorem c13_output_path_not_excluded :
    shouldIgnoreFile outputPathGlobals (str "out/doc.txt") = false ∧
      (processProject outputPathGlobals (str "/r") outputPathTree).1.out =
        str ("`main.go`\n```go\npackage main\n\n```\n\n"
          ++ "`out/doc.txt`\n```text\n`main.go`\n```go\npackage main\n\n```\n\n\n```\n\n") ∧
      (∀ p : Str, filepath.Base p ≠ outputPathGlobals.outputFile) ∧
      shouldIgnoreFile { outputPathGlobals with outputFile := str "doc.txt" }
        (str "out/doc.txt") = true := by
  refine ⟨by decide, by decide, ?_, by decide⟩
  intro p
  exact base_ne_of_slash _ p (by decide) (by decide)

/-! ## The scenario under the default rules -/

set_option maxRecDepth 100000 in
/-- C15 at its failing input: under the rules the tool starts with (the defaults, no
ignore file) the default pattern `*.md` skips `notes.md`, so the output for the scenario
tree is the `go`-tagged fenced entry for `main.go` alone: no entry for `image.png`, and
no `(Markdown file)` entry, nor any mention, of `notes.md`. Under the defaults without
`*.md` the output is that entry followed by the `(Markdown file)` entry for `notes.md`, in
which the triple backticks of the content appear as triple tildes. -/
theorem c15_scenario_default_rules :
    shouldIgnoreFile defaultGlobals (str "notes.md") = true ∧
      strings.Contains (processProject defaultGlobals (str "/r") scenarioTree).1.out
        (str "notes.md") = false ∧
      strings.Contains (processProject defaultGlobals (str "/r") scenarioTree).1.out
        (str "(Markdown file)") = false ∧
      processProject defaultGlobals (str "/r") scenarioTree =
        ({ out := str "`main.go`\n```go\npackage main\n\n```\n\n"
           visited := [str "/r", str "/r/image.png", str "/r/main.go", str "/r/notes.md"] },
          .nil) ∧
      processProject defaultGlobalsNoMd (str "/r") scenarioTree =
        ({ out := str ("`main.go`\n```go\npackage main\n\n```\n\n"
              ++ "`notes.md` (Markdown file)\n\n# Notes\n~~~go\nx := 1\n~~~\n\n\n")
           visited := [str "/r", str "/r/image.png", str "/r/main.go", str "/r/notes.md"] },
          .nil) := by
  decide

/-! ## The extension shortcut -/

/-- Counterexample to C16 as stated: under the single pattern `*x.txt` the path `a.txt`
is skipped, though the pattern does not glob-match `a.txt` and is not `*.txt`. -/
theorem c16_suffix_counterexample :
    47 ∉ str "*x.txt" ∧ (str "*x.txt").head? = some 42 ∧
      filepath.Base (str "a.txt") ≠ str "project-prompt.md" ∧
      shouldIgnoreFile (singlePattern (str "*x.txt") [] (str "project-prompt.md") (str "."))
        (str "a.txt") = true ∧
      ¬ globMatches (str "*x.txt") (filepath.Base (str "a.txt")) ∧
      str "*x.txt" ≠ 42 :: filepath.Ext (str "a.txt") := by
  decide

/-- C16 (amended): under a single pattern without `/` that starts with `*`, with no exact
paths and a basename other than the output name, `shouldIgnoreFile(p)` is true exactly
when the pattern glob-matches the basename of `p` or the non-empty extension of `p` is a
suffix of the pattern; the pattern `*` followed by the extension is one such case. -/
theorem c16_extension_shortcut (pat p : Str) (dirs : List Str) (outputFile rootDir : Str)
    (hs : 47 ∉ pat) (hstar : pat.head? = some 42) (ho : filepath.Base p ≠ outputFile) :
    (shouldIgnoreFile (singlePattern pat dirs outputFile rootDir) p = true ↔
        globMatches pat (filepath.Base p) ∨
          (filepath.Ext p ≠ [] ∧ filepath.Ext p <:+ pat)) ∧
      (filepath.Ext p ≠ [] → pat = 42 :: filepath.Ext p →
        shouldIgnoreFile (singlePattern pat dirs outputFile rootDir) p = true) := by
  have hiff : shouldIgnoreFile (singlePattern pat dirs outputFile rootDir) p = true ↔
      globMatches pat (filepath.Base p) ∨ (filepath.Ext p ≠ [] ∧ filepath.Ext p <:+ pat) := by
    rw [shouldIgnoreFile_iff]
    simp only [singlePattern, mapGet, Bool.false_eq_true, false_or, List.mem_singleton,
      exists_eq_left, fileRuleHits]
    constructor
    · rintro ((⟨h, _⟩ | ⟨_, h⟩ | ⟨_, _, h⟩) | h)
      · exact absurd h hs
      · exact Or.inl h
      · exact Or.inr h
      · exact absurd h ho
    · rintro (h | h)
      · exact Or.inl (Or.inr (Or.inl ⟨hs, h⟩))
      · exact Or.inl (Or.inr (Or.inr ⟨hs, hstar, h⟩))
  refine ⟨hiff, ?_⟩
  intro hne heq
  exact hiff.mpr (Or.inr ⟨hne, ⟨[42], heq.symm ▸ rfl⟩⟩)

/-- Witness for C16: the pattern `*.log` and the path `logs/error.log`. -/
theorem c16_extension_shortcut_witness :
    (shouldIgnoreFile (singlePattern (str "*.log") [] (str "out.md") (str ".")) (str "logs/error.log")
          = true ↔
        globMatches (str "*.log") (filepath.Base (str "logs/error.log")) ∨
          (filepath.Ext (str "logs/error.log") ≠ [] ∧
            filepath.Ext (str "logs/error.log") <:+ str "*.log")) ∧
      (filepath.Ext (str "logs/error.log") ≠ [] →
        str "*.log" = 42 :: filepath.Ext (str "logs/error.log") →
        shouldIgnoreFile (singlePattern (str "*.log") [] (str "out.md") (str "."))
          (str "logs/error.log") = true) :=
  c16_extension_shortcut (str "*.log") (str "logs/error.log") [] (str "out.md") (str ".")
    (by decide) (by decide) (by decide)

/-! ## Rule order -/

theorem shouldIgnoreFile_congr (g g2 : Globals) (p : Str)
    (hpaths : g2.rules.ignoredPaths = g.rules.ignoredPaths) (ho : g2.outputFile = g.outputFile)
    (hmem : ∀ pat, pat ∈ g.rules.ignoredPatterns → pat ∈ g2.rules.ignoredPatterns)
    (h : shouldIgnoreFile g p = true) : shouldIgnoreFile g2 p = true := by
  rw [shouldIgnoreFile_iff] at h ⊢
  rw [hpaths, ho]
  rcases h with h | ⟨pat, hp, h⟩ | h
  · exact Or.inl h
  · exact Or.inr (Or.inl ⟨pat, hmem pat hp, h⟩)
  · exact Or.inr (Or.inr h)

theorem shouldIgnoreDir_congr (g g2 : Globals) (p : Str) (hr : g2.rootDir = g.rootDir)
    (hmem : ∀ rule, rule ∈ g.rules.ignoredDirs → rule ∈ g2.rules.ignoredDirs)
    (h : shouldIgnoreDir g p = true) : shouldIgnoreDir g2 p = true := by
  rw [shouldIgnoreDir_iff] at h ⊢
  rw [hr]
  rcases h with ⟨rule, hm, h⟩ | ⟨rule, hm, h⟩
  · exact Or.inl ⟨rule, hmem rule hm, h⟩
  · exact Or.inr ⟨rule, hmem rule hm, h⟩

/-- C19: rule order is irrelevant and rules only add. For file patterns `pats2` that are
a permutation of the current ones (duplicates allowed) `shouldIgnoreFile(p)` is the
same, and for directory rules `dirs2` that are a permutation of the current ones
`shouldIgnoreDir(p)` is the same; with rules added at any place (every current rule is
still present) an answer that was true stays true. -/
theorem c19_rule_order (g : Globals) (p : Str) (pats2 dirs2 morePats moreDirs : List Str)
    (hp : g.rules.ignoredPatterns.Perm pats2) (hd : g.rules.ignoredDirs.Perm dirs2)
    (hmp : g.rules.ignoredPatterns ⊆ morePats) (hmd : g.rules.ignoredDirs ⊆ moreDirs) :
    shouldIgnoreFile { g with rules := { g.rules with ignoredPatterns := pats2 } } p =
        shouldIgnoreFile g p ∧
      shouldIgnoreDir { g with rules := { g.rules with ignoredDirs := dirs2 } } p =
        shouldIgnoreDir g p ∧
      (shouldIgnoreFile g p = true →
        shouldIgnoreFile { g with rules := { g.rules with ignoredPatterns := morePats } } p
          = true) ∧
      (shouldIgnoreDir g p = true →
        shouldIgnoreDir { g with rules := { g.rules with ignoredDirs := moreDirs } } p
          = true) := by
  refine ⟨?_, ?_, ?_, ?_⟩
  · rw [Bool.eq_iff_iff]
    constructor
    · exact shouldIgnoreFile_congr _ g p rfl rfl (fun pat h => hp.mem_iff.mpr h)
    · exact shouldIgnoreFile_congr g _ p rfl rfl (fun pat h => hp.mem_iff.mp h)
  · rw [Bool.eq_iff_iff]
    constructor
    · exact shouldIgnoreDir_congr _ g p rfl (fun rule h => hd.mem_iff.mpr h)
    · exact shouldIgnoreDir_congr g _ p rfl (fun rule h => hd.mem_iff.mp h)
  · exact shouldIgnoreFile_congr g _ p rfl rfl (fun pat h => hmp h)
  · exact shouldIgnoreDir_congr g _ p rfl (fun rule h => hmd h)

/-- Witness for C19: the patterns `*.log`, `*.tmp`, `*.log` reordered and extended, the
directory rules `.git`, `dist` swapped and extended, on the path `logs/app.log`. -/
theorem c19_rule_order_witness :
    shouldIgnoreFile { orderGlobals with rules := { orderGlobals.rules with
          ignoredPatterns := [str "*.tmp", str "*.log", str "*.log"] } } (str "logs/app.log") =
        shouldIgnoreFile orderGlobals (str "logs/app.log") ∧
      shouldIgnoreDir { orderGlobals with rules := { orderGlobals.rules with
          ignoredDirs := [str "dist", str ".git"] } } (str "logs/app.log") =
        shouldIgnoreDir orderGlobals (str "logs/app.log") ∧
      (shouldIgnoreFile orderGlobals (str "logs/app.log") = true →
        shouldIgnoreFile { orderGlobals with rules := { orderGlobals.rules with
          ignoredPatterns := [str "a", str "*.log", str "b", str "*.tmp", str "*.log"] } }
          (str "logs/app.log") = true) ∧
      (shouldIgnoreDir orderGlobals (str "logs/app.log") = true →
        shouldIgnoreDir { orderGlobals with rules := { orderGlobals.rules with
          ignoredDirs := [str "x", str ".git", str "dist"] } } (str "logs/app.log") = true) :=
  c19_rule_order orderGlobals (str "logs/app.log") [str "*.tmp", str "*.log", str "*.log"]
    [str "dist", str ".git"] [str "a", str "*.log", str "b", str "*.tmp", str "*.log"]
    [str "x", str ".git", str "dist"]
    (by decide) (by decide) (by decide) (by decide)

/-! ## Patterns that begin with a separator -/

theorem scanSplit_literal (c : Nat) (cs : Str) (inrange : Bool)
    (hc : c ≠ 92 ∧ c ≠ 91 ∧ c ≠ 93 ∧ c ≠ 42) :
    filepath.scanSplit inrange (c :: cs) =
      (c :: (filepath.scanSplit inrange cs).1, (filepath.scanSplit inrange cs).2) := by
  obtain ⟨h1, h2, h3, h4⟩ := hc
  rw [filepath.scanSplit.eq_def]
  simp only [h1, h2, h3, h4, if_false]

theorem scanChunk_literal_head (c : Nat) (cs : Str)
    (hc : c ≠ 92 ∧ c ≠ 91 ∧ c ≠ 93 ∧ c ≠ 42) :
    filepath.scanChunk (c :: cs) =
      (false, c :: (filepath.scanSplit false cs).1, (filepath.scanSplit false cs).2) := by
  have h4 : c ≠ 42 := hc.2.2.2
  unfold filepath.scanChunk
  have hd : List.dropWhile (· == 42) (c :: cs) = c :: cs := by
    simp [List.dropWhile_cons, h4]
  simp only [hd, scanSplit_literal c cs false hc, List.head?_cons, Option.some.injEq, h4,
    decide_False]

theorem matchChunk_head_mismatch (c : Nat) (cs s : Str)
    (hc : c ≠ 92 ∧ c ≠ 91 ∧ c ≠ 63) (hs : s.head? ≠ some c) :
    filepath.matchChunk (c :: cs) s = none ∨ filepath.matchChunk (c :: cs) s = some none := by
  obtain ⟨h1, h2, h3⟩ := hc
  unfold filepath.matchChunk
  rw [List.length_cons, filepath.matchChunkLoop]
  simp only [h1, h2, h3, if_false]
  exact matchChunkLoop_failed _ _ _ _ (Or.inl (by simp [hs]))

theorem matchLoop_first_chunk_fails (fuel : Nat) (pattern name chunk rest : Str)
    (hsc : filepath.scanChunk pattern = (false, chunk, rest)) (hp : pattern ≠ [])
    (hm : filepath.matchChunk chunk name = none ∨ filepath.matchChunk chunk name = some none) :
    filepath.matchLoop (fuel + 1) pattern name ≠ some true := by
  rw [filepath.matchLoop]
  simp only [hp, if_false, hsc, Bool.false_and, Bool.false_eq_true]
  rcases hm with hm | hm
  · rw [hm]; simp
  · rw [hm]
    simp

theorem not_globMatches_of_slash_head (pat p : Str) (hpat : pat.head? = some 47)
    (hp : p.head? ≠ some 47) : ¬ globMatches pat p := by
  cases pat with
  | nil => simp at hpat
  | cons c cs =>
    simp only [List.head?_cons, Option.some.injEq] at hpat
    subst hpat
    unfold globMatches filepath.Match
    exact matchLoop_first_chunk_fails _ _ _ _ _
      (scanChunk_literal_head 47 cs (by decide)) (by simp)
      (matchChunk_head_mismatch 47 _ p (by decide) hp)

theorem shouldIgnoreFile_insert_inert (g : Globals) (p pat : Str) (a b : List Str)
    (h : ¬ fileRuleHits p pat) :
    shouldIgnoreFile { g with rules := { g.rules with ignoredPatterns := a ++ pat :: b } } p =
      shouldIgnoreFile { g with rules := { g.rules with ignoredPatterns := a ++ b } } p := by
  rw [Bool.eq_iff_iff, shouldIgnoreFile_iff, shouldIgnoreFile_iff]
  simp only [List.mem_append, List.mem_cons]
  constructor
  · rintro (h1 | ⟨q, hq, hh⟩ | h3)
    · exact Or.inl h1
    · rcases hq with hq | hq | hq
      · exact Or.inr (Or.inl ⟨q, Or.inl hq, hh⟩)
      · exact absurd (hq ▸ hh) h
      · exact Or.inr (Or.inl ⟨q, Or.inr hq, hh⟩)
    · exact Or.inr (Or.inr h3)
  · rintro (h1 | ⟨q, hq, hh⟩ | h3)
    · exact Or.inl h1
    · rcases hq with hq | hq
      · exact Or.inr (Or.inl ⟨q, Or.inl hq, hh⟩)
      · exact Or.inr (Or.inl ⟨q, Or.inr (Or.inr hq), hh⟩)
    · exact Or.inr (Or.inr h3)

theorem shouldIgnoreDir_insert_inert (g : Globals) (p rule : Str) (a b : List Str)
    (h : ¬ dirRuleHits g.rootDir p rule) :
    shouldIgnoreDir { g with rules := { g.rules with ignoredDirs := a ++ rule :: b } } p =
      shouldIgnoreDir { g with rules := { g.rules with ignoredDirs := a ++ b } } p := by
  have key : ∀ l : List Str,
      shouldIgnoreDir { g with rules := { g.rules with ignoredDirs := l } } p = true ↔
        ∃ r ∈ l, dirRuleHits g.rootDir p r := by
    intro l
    rw [shouldIgnoreDir_iff]
    unfold dirRuleHits
    constructor
    · rintro (⟨r, hr, hh⟩ | ⟨r, hr, hh⟩)
      · exact ⟨r, hr, Or.inl hh⟩
      · exact ⟨r, hr, Or.inr hh⟩
    · rintro ⟨r, hr, hh | hh⟩
      · exact Or.inl ⟨r, hr, hh⟩
      · exact Or.inr ⟨r, hr, hh⟩
  rw [Bool.eq_iff_iff, key, key]
  simp only [List.mem_append, List.mem_cons]
  constructor
  · rintro ⟨q, hq | hq | hq, hh⟩
    · exact ⟨q, Or.inl hq, hh⟩
    · exact absurd (hq ▸ hh) h
    · exact ⟨q, Or.inr hq, hh⟩
  · rintro ⟨q, hq | hq, hh⟩
    · exact ⟨q, Or.inl hq, hh⟩
    · exact ⟨q, Or.inr (Or.inr hq), hh⟩

theorem not_fileRuleHits_of_slash_head (pat p : Str) (hpat : pat.head? = some 47)
    (hp : p.head? ≠ some 47) : ¬ fileRuleHits p pat := by
  have hmem : 47 ∈ pat := by
    cases pat with
    | nil => simp at hpat
    | cons c cs => simp at hpat; simp [hpat]
  rintro (⟨_, h⟩ | ⟨h, _⟩ | ⟨h, _⟩)
  · exact not_globMatches_of_slash_head pat p hpat hp h
  · exact h hmem
  · exact h hmem

/-- C20: root-anchored ignore lines are inert. A file pattern that begins with `/` does
not glob-match a path that does not begin with `/`, so `shouldIgnoreFile(p)` is the
same with and without that pattern, wherever it stands among the patterns; the line
`/dist` is such a pattern, stored verbatim by `parseGitignore`. -/
theorem c20_root_anchored_inert (g : Globals) (pat p : Str) (before after : List Str)
    (hpat : pat.head? = some 47) (hp : p.head? ≠ some 47) :
    ¬ globMatches pat p ∧
      shouldIgnoreFile
          { g with rules := { g.rules with ignoredPatterns := before ++ pat :: after } } p =
        shouldIgnoreFile
          { g with rules := { g.rules with ignoredPatterns := before ++ after } } p ∧
      (parseGitignore g.rules
          (some { data := str "/dist\n", readError := false })).ignoredPatterns =
        g.rules.ignoredPatterns ++ [str "/dist"] := by
  refine ⟨not_globMatches_of_slash_head pat p hpat hp,
    shouldIgnoreFile_insert_inert g p pat before after
      (not_fileRuleHits_of_slash_head pat p hpat hp), ?_⟩
  have hs : (bufio.Scan { data := str "/dist\n", readError := false }).1 = [str "/dist"] := by
    decide
  simp only [parseGitignore, hs, parseLines_eq]
  have h1 : (([str "/dist"].map strings.TrimSpace).filter fun t =>
      isRuleLine t && !endsWithSlash t) = [str "/dist"] := by decide
  rw [h1]

/-- Witness for C20: the pattern `/dist` among `*.log` and `*.tmp`, on the path `dist`. -/
theorem c20_root_anchored_inert_witness :
    ¬ globMatches (str "/dist") (str "dist") ∧
      shouldIgnoreFile
          { emptyGlobals with rules := { emptyGlobals.rules with
              ignoredPatterns := [str "*.log"] ++ str "/dist" :: [str "*.tmp"] } } (str "dist") =
        shouldIgnoreFile
          { emptyGlobals with rules := { emptyGlobals.rules with
              ignoredPatterns := [str "*.log"] ++ [str "*.tmp"] } } (str "dist") ∧
      (parseGitignore emptyGlobals.rules
          (some { data := str "/dist\n", readError := false })).ignoredPatterns =
        emptyGlobals.rules.ignoredPatterns ++ [str "/dist"] :=
  c20_root_anchored_inert emptyGlobals (str "/dist") (str "dist") [str "*.log"] [str "*.tmp"]
    (by decide) (by decide)

/-! ## Patterns made of literal chunks -/

theorem matchChunkLoop_plain_failed (lit : Str) (hl : ∀ c ∈ lit, plainByte c) :
    ∀ (fuel : Nat) (s : Str), lit.length < fuel →
      filepath.matchChunkLoop fuel lit s true = some none := by
  induction lit with
  | nil =>
    intro fuel s hf
    cases fuel with
    | zero => simp at hf
    | succ fuel => simp [filepath.matchChunkLoop]
  | cons c cs ih =>
    intro fuel s hf
    cases fuel with
    | zero => simp at hf
    | succ fuel =>
      obtain ⟨h42, h63, h91, h92, h93⟩ := hl c (by simp)
      rw [filepath.matchChunkLoop]
      simp only [h91, h63, h92, if_false, Bool.true_or, if_true]
      exact ih (fun d hd => hl d (by simp [hd])) fuel s (by simpa using hf)

theorem matchChunkLoop_plain (lit : Str) (hl : ∀ c ∈ lit, plainByte c) :
    ∀ (fuel : Nat) (s : Str), lit.length < fuel →
      filepath.matchChunkLoop fuel lit s false =
        if lit <+: s then some (some (s.drop lit.length)) else some none := by
  induction lit with
  | nil =>
    intro fuel s hf
    cases fuel with
    | zero => simp at hf
    | succ fuel => simp [filepath.matchChunkLoop]
  | cons c cs ih =>
    intro fuel s hf
    cases fuel with
    | zero => simp at hf
    | succ fuel =>
      obtain ⟨h42, h63, h91, h92, h93⟩ := hl c (by simp)
      have hcs : ∀ d ∈ cs, plainByte d := fun d hd => hl d (by simp [hd])
      have hf' : cs.length < fuel := by simpa using hf
      rw [filepath.matchChunkLoop]
      simp only [h91, h63, h92, if_false, Bool.false_or]
      cases s with
      | nil =>
        simp only [List.isEmpty_nil, Bool.true_or, if_true]
        rw [matchChunkLoop_plain_failed cs hcs fuel _ hf']
        simp
      | cons d ds =>
        by_cases hd : d = c
        · subst hd
          simp only [List.isEmpty_cons, List.head?_cons, ne_eq, not_true_eq_false, decide_False,
            Bool.or_self, Bool.false_eq_true, if_false, List.tail_cons]
          rw [ih hcs fuel ds hf']
          simp [List.cons_prefix_cons]
        · have hne : ¬ (c :: cs <+: d :: ds) := by
            rw [List.cons_prefix_cons]; exact fun h => hd h.1.symm
          have : (decide (List.head? (d :: ds) ≠ some c)) = true := by
            simp [hd]
          simp only [List.isEmpty_cons, this, Bool.or_true, Bool.false_eq_true, if_false,
            List.tail_cons, hne]
          exact matchChunkLoop_plain_failed cs hcs fuel _ hf'

theorem matchChunk_plain (lit s : Str) (hl : ∀ c ∈ lit, plainByte c) :
    filepath.matchChunk lit s =
      if lit <+: s then some (some (s.drop lit.length)) else some none :=
  matchChunkLoop_plain lit hl _ s (Nat.lt_succ_self _)

theorem scanSplit_plain (lit : Str) (hl : ∀ c ∈ lit, plainByte c) (rest : Str)
    (hr : rest = [] ∨ rest.head? = some 42) :
    filepath.scanSplit false (lit ++ rest) = (lit, rest) := by
  induction lit with
  | nil =>
    rcases hr with hr | hr
    · subst hr; simp [filepath.scanSplit]
    · cases rest with
      | nil => simp at hr
      | cons c cs =>
        simp only [List.head?_cons, Option.some.injEq] at hr
        subst hr
        rw [List.nil_append, filepath.scanSplit.eq_def]
        simp
  | cons c cs ih =>
    obtain ⟨h42, h63, h91, h92, h93⟩ := hl c (by simp)
    rw [List.cons_append, scanSplit_literal c _ false ⟨h92, h91, h93, h42⟩,
      ih (fun d hd => hl d (by simp [hd]))]

theorem scanChunk_plain (lit : Str) (hl : ∀ c ∈ lit, plainByte c) (hne : lit ≠ []) (rest : Str)
    (hr : rest = [] ∨ rest.head? = some 42) :
    filepath.scanChunk (lit ++ rest) = (false, lit, rest) := by
  cases lit with
  | nil => exact absurd rfl hne
  | cons c cs =>
    obtain ⟨h42, h63, h91, h92, h93⟩ := hl c (by simp)
    rw [List.cons_append, scanChunk_literal_head c _ ⟨h92, h91, h93, h42⟩,
      scanSplit_plain cs (fun d hd => hl d (by simp [hd])) rest hr]

theorem scanChunk_star_plain (lit : Str) (hl : ∀ c ∈ lit, plainByte c) (hne : lit ≠ [])
    (rest : Str) (hr : rest = [] ∨ rest.head? = some 42) :
    filepath.scanChunk (42 :: (lit ++ rest)) = (true, lit, rest) := by
  have h := scanChunk_plain lit hl hne rest hr
  unfold filepath.scanChunk at h ⊢
  cases lit with
  | nil => exact absurd rfl hne
  | cons c cs =>
    obtain ⟨h42, _⟩ := hl c (by simp)
    have hd1 : List.dropWhile (· == 42) (42 :: (c :: cs ++ rest)) = c :: cs ++ rest := by
      simp [List.dropWhile_cons, h42]
    have hd2 : List.dropWhile (· == 42) (c :: cs ++ rest) = c :: cs ++ rest := by
      simp [List.dropWhile_cons, h42]
    rw [hd2] at h
    rw [hd1]
    simp only [List.head?_cons, decide_True]
    simp only [Prod.mk.injEq] at h ⊢
    exact ⟨trivial, h.2⟩

theorem eq_of_isPrefix_drop_nil (lit s : Str) (h : lit <+: s) (hd : s.drop lit.length = []) :
    s = lit := by
  obtain ⟨t, rfl⟩ := h
  simp at hd
  simp [hd]

theorem matchLoop_nil (fuel : Nat) (name : Str) :
    filepath.matchLoop (fuel + 1) [] name = some (decide (name = [])) := by
  simp [filepath.matchLoop]

theorem starLoop_plain (lit : Str) (hl : ∀ c ∈ lit, plainByte c) (t : Str) :
    filepath.starLoop lit true t ≠ none ∧
      (∀ u, filepath.starLoop lit true t = some (some u) →
        u = [] ∧ ∃ x, x ≠ [] ∧ 47 ∉ x ∧ t = x ++ lit) ∧
      ((∃ x, x ≠ [] ∧ 47 ∉ x ∧ t = x ++ lit) → filepath.starLoop lit true t = some (some [])) := by
  induction t with
  | nil =>
    refine ⟨by simp [filepath.starLoop], ?_, ?_⟩
    · intro u h; simp [filepath.starLoop] at h
    · rintro ⟨x, hx, _, h⟩
      cases x with
      | nil => exact absurd rfl hx
      | cons a b => simp at h
  | cons c rest ih =>
    obtain ⟨ih1, ih2, ih3⟩ := ih
    rw [filepath.starLoop]
    by_cases hc : c = 47
    · subst hc
      simp only [filepath.Separator, beq_self_eq_true, if_true]
      refine ⟨by simp, by simp, ?_⟩
      rintro ⟨x, hx, hs, h⟩
      cases x with
      | nil => exact absurd rfl hx
      | cons a b =>
        simp only [List.cons_append, List.cons.injEq] at h
        exact absurd (by simp [← h.1]) hs
    · have hb : (c == filepath.Separator) = false := by
        simp [filepath.Separator, hc]
      simp only [hb, Bool.false_eq_true, if_false, matchChunk_plain lit rest hl]
      by_cases hp : lit <+: rest
      · simp only [hp, if_true]
        by_cases hd : rest.drop lit.length = []
        · have hrl := eq_of_isPrefix_drop_nil lit rest hp hd
          simp only [hd, ne_eq, not_true_eq_false, decide_False, Bool.and_false,
            Bool.false_eq_true, if_false]
          refine ⟨by simp, ?_, fun _ => trivial⟩
          intro u hu
          simp only [Option.some.injEq] at hu
          exact ⟨hu.symm, [c], by simp, by simp [Ne.symm hc], by simp [hrl]⟩
        · simp only [ne_eq, hd, not_false_eq_true, decide_True, Bool.and_self, if_true]
          refine ⟨ih1, ?_, ?_⟩
          · intro u hu
            obtain ⟨h0, x, hx, hs, ht⟩ := ih2 u hu
            exact ⟨h0, c :: x, by simp, by simp [Ne.symm hc, hs], by simp [ht]⟩
          · rintro ⟨x, hx, hs, h⟩
            cases x with
            | nil => exact absurd rfl hx
            | cons a b =>
              simp only [List.cons_append, List.cons.injEq] at h
              apply ih3
              refine ⟨b, ?_, fun hm => hs (by simp [hm]), h.2⟩
              intro hb0
              subst hb0
              simp at h
              exact hd (by simp [h.2])
      · simp only [hp, if_false]
        refine ⟨ih1, ?_, ?_⟩
        · intro u hu
          obtain ⟨h0, x, hx, hs, ht⟩ := ih2 u hu
          exact ⟨h0, c :: x, by simp, by simp [Ne.symm hc, hs], by simp [ht]⟩
        · rintro ⟨x, hx, hs, h⟩
          cases x with
          | nil => exact absurd rfl hx
          | cons a b =>
            simp only [List.cons_append, List.cons.injEq] at h
            apply ih3
            refine ⟨b, ?_, fun hm => hs (by simp [hm]), h.2⟩
            intro hb0
            subst hb0
            simp at h
            exact hp (by simp [h.2])

theorem match_plain_then (lit rest name : Str) (hl : ∀ c ∈ lit, plainByte c) (hne : lit ≠ [])
    (hr : rest.head? = some 42) :
    filepath.Match (lit ++ rest) name = some true ↔
      lit <+: name ∧ filepath.Match rest (name.drop lit.length) = some true := by
  have hrest : rest ≠ [] := by
    intro h; subst h; simp at hr
  have hlen : 1 ≤ lit.length := List.length_pos.mpr hne
  have hfuel : (lit ++ rest).length = rest.length + 1 + (lit.length - 1) := by
    simp only [List.length_append]; omega
  unfold filepath.Match
  rw [filepath.matchLoop]
  simp only [List.append_eq_nil, hne, false_and, if_false,
    scanChunk_plain lit hl hne rest (Or.inr hr), Bool.false_and, Bool.false_eq_true,
    matchChunk_plain lit name hl]
  by_cases hp : lit <+: name
  · simp only [hp, if_true, true_and, hrest, ne_eq, not_false_eq_true, decide_True,
      Bool.or_true]
    rw [hfuel, matchLoop_enough]
    rfl
  · simp only [hp, if_false, false_and, iff_false]
    simp

theorem matchLoop_nil_pos (fuel : Nat) (name : Str) (h : 0 < fuel) :
    filepath.matchLoop fuel [] name = some (decide (name = [])) := by
  cases fuel with
  | zero => simp at h
  | succ fuel => exact matchLoop_nil fuel name

theorem match_plain_only (lit name : Str) (hl : ∀ c ∈ lit, plainByte c) (hne : lit ≠ []) :
    filepath.Match lit name = some true ↔ name = lit := by
  have hsc := scanChunk_plain lit hl hne [] (Or.inl rfl)
  rw [List.append_nil] at hsc
  have hlen : 0 < lit.length := List.length_pos.mpr hne
  unfold filepath.Match
  rw [filepath.matchLoop]
  simp only [hne, if_false, hsc, Bool.false_and, Bool.false_eq_true,
    matchChunk_plain lit name hl]
  by_cases hp : lit <+: name
  · by_cases hd : name.drop lit.length = []
    · have := eq_of_isPrefix_drop_nil lit name hp hd
      simp only [hp, if_true, hd, ne_eq, not_true_eq_false, decide_False, decide_True,
        Bool.or_false, matchLoop_nil_pos _ _ hlen]
      simp [this]
    · have hne2 : name ≠ lit := by
        intro h; subst h; simp at hd
      simp only [hp, if_true, hd, ne_eq, not_true_eq_false, decide_False, Bool.or_self,
        Bool.false_eq_true, if_false, hne2, iff_false]
      simp
  · have hne2 : name ≠ lit := by
      intro h; subst h; exact hp (List.prefix_refl _)
    simp only [hp, if_false, hne2, iff_false]
    simp

theorem match_star_plain (lit t : Str) (hl : ∀ c ∈ lit, plainByte c) (hne : lit ≠ []) :
    filepath.Match (42 :: lit) t = some true ↔ ∃ x, 47 ∉ x ∧ t = x ++ lit := by
  have hsc := scanChunk_star_plain lit hl hne [] (Or.inl rfl)
  rw [List.append_nil] at hsc
  have hnil : ∀ u, filepath.matchLoop (42 :: lit).length [] u = some (decide (u = [])) :=
    fun u => matchLoop_nil_pos _ u (by simp)
  obtain ⟨hs1, hs2, hs3⟩ := starLoop_plain lit hl t
  unfold filepath.Match
  rw [filepath.matchLoop]
  simp only [List.cons_ne_nil, if_false, hsc, hne, decide_False, Bool.and_false,
    Bool.false_eq_true, matchChunk_plain lit t hl, hnil]
  have hsl : (if True then filepath.starLoop lit (decide True) t else some none) =
      filepath.starLoop lit true t := by simp
  rw [hsl]
  have hempty : (∃ x, 47 ∉ x ∧ t = x ++ lit) ↔
      (lit <+: t ∧ t.drop lit.length = []) ∨ ∃ x, x ≠ [] ∧ 47 ∉ x ∧ t = x ++ lit := by
    constructor
    · rintro ⟨x, hx, ht⟩
      by_cases hx0 : x = []
      · subst hx0
        left
        simp [ht]
      · exact Or.inr ⟨x, hx0, hx, ht⟩
    · rintro (⟨h1, h2⟩ | ⟨x, _, hx, ht⟩)
      · exact ⟨[], by simp, by simp [eq_of_isPrefix_drop_nil lit t h1 h2]⟩
      · exact ⟨x, hx, ht⟩
  rw [hempty]
  cases hst : filepath.starLoop lit true t with
  | none => exact absurd hst hs1
  | some r =>
    cases r with
    | none =>
      have hno : ¬ ∃ x, x ≠ [] ∧ 47 ∉ x ∧ t = x ++ lit := by
        intro h
        have := hs3 h
        rw [hst] at this
        simp at this
      by_cases hp1 : lit <+: t
      · by_cases hd : t.drop lit.length = []
        · exact iff_of_true (by simp [hp1, hd]) (Or.inl ⟨hp1, hd⟩)
        · refine iff_of_false (by simp [hp1, hd]) ?_
          rintro (⟨_, h2⟩ | h)
          · exact hd h2
          · exact hno h
      · refine iff_of_false (by simp [hp1]) ?_
        rintro (⟨h1, _⟩ | h)
        · exact hp1 h1
        · exact hno h
    | some u =>
      obtain ⟨hu, x, hx0, hx, ht⟩ := hs2 u hst
      subst hu
      refine iff_of_true ?_ (Or.inr ⟨x, hx0, hx, ht⟩)
      by_cases hp1 : lit <+: t
      · by_cases hd : t.drop lit.length = []
        · simp [hp1, hd]
        · simp [hp1, hd]
      · simp [hp1]

/-! ## The double-wildcard directory rule -/

theorem globMatches_dir_star_sub (rp : Str) :
    globMatches (str "dir/*/sub") rp ↔ ∃ x, 47 ∉ x ∧ rp = str "dir/" ++ x ++ str "/sub" := by
  have e : str "dir/*/sub" = str "dir/" ++ 42 :: str "/sub" := by decide
  unfold globMatches
  rw [e, match_plain_then (str "dir/") _ rp (by decide) (by decide) (by simp),
    match_star_plain (str "/sub") _ (by decide) (by decide)]
  constructor
  · rintro ⟨⟨t, ht⟩, x, hx, hd⟩
    refine ⟨x, hx, ?_⟩
    rw [← ht] at hd ⊢
    simp only [List.drop_left] at hd
    rw [hd, List.append_assoc]
  · rintro ⟨x, hx, h⟩
    refine ⟨⟨x ++ str "/sub", by rw [h, List.append_assoc]⟩, x, hx, ?_⟩
    rw [h, List.append_assoc, List.drop_left]

theorem not_globMatches_dir_rule_base (path : Str) :
    ¬ globMatches (str "dir/**/sub") (filepath.Base path) := by
  have e : str "dir/**/sub" = str "dir/" ++ str "**/sub" := by decide
  unfold globMatches
  rw [e, match_plain_then (str "dir/") _ _ (by decide) (by decide) (by decide)]
  rintro ⟨⟨t, ht⟩, _⟩
  rcases base_no_slash path with hb | hb
  · rw [hb] at ht
    revert ht
    have : str "dir/" = [100, 105, 114, 47] := by decide
    rw [this]
    simp
  · apply hb
    rw [← ht]
    have : (47 : Nat) ∈ str "dir/" := by decide
    exact List.mem_append_left _ this

/-- C17: depth of the double-wildcard rule. With the single directory rule `dir/**/sub`,
for a directory whose root-relative path `rp` has no empty segment, `shouldIgnoreDir` is
true exactly when `rp` is `dir/x/sub` for one non-empty segment `x` without `/`; so
`dir/a/sub` is pruned while `dir/sub` and `dir/a/b/sub` are not. -/
theorem c17_double_wildcard_depth (g : Globals) (path rp : Str)
    (hrules : g.rules.ignoredDirs = [str "dir/**/sub"])
    (hrel : filepath.Rel g.rootDir path = some rp)
    (hseg : [] ∉ rp.splitOn 47) :
    (shouldIgnoreDir g path = true ↔
        ∃ x, x ≠ [] ∧ 47 ∉ x ∧ rp = str "dir/" ++ x ++ str "/sub") ∧
      shouldIgnoreDir (singlePattern [] [str "dir/**/sub"] (str "o.md") (str "/r"))
        (str "/r/dir/a/sub") = true ∧
      shouldIgnoreDir (singlePattern [] [str "dir/**/sub"] (str "o.md") (str "/r"))
        (str "/r/dir/sub") = false ∧
      shouldIgnoreDir (singlePattern [] [str "dir/**/sub"] (str "o.md") (str "/r"))
        (str "/r/dir/a/b/sub") = false := by
  refine ⟨?_, by decide, by decide, by decide⟩
  have hrep : strings.ReplaceAll (str "dir/**/sub") (str "**") (str "*") = str "dir/*/sub" := by
    decide
  rw [shouldIgnoreDir_iff, hrules]
  simp only [List.mem_singleton, exists_eq_left, hrel, Option.some.injEq, hrep,
    globMatches_dir_star_sub]
  constructor
  · rintro (h | ⟨_, rp2, h2, x, hx, h⟩)
    · exact absurd h (not_globMatches_dir_rule_base path)
    · subst h2
      refine ⟨x, ?_, hx, h⟩
      intro hx0
      subst hx0
      apply hseg
      rw [h]
      decide
  · rintro ⟨x, _, hx, h⟩
    exact Or.inr ⟨by decide, rp, rfl, x, hx, h⟩

set_option maxRecDepth 100000 in
/-- Witness for C17: the directory `/r/dir/a/sub` under the root `/r`. -/
theorem c17_double_wildcard_depth_witness :
    (shouldIgnoreDir (singlePattern [] [str "dir/**/sub"] (str "o.md") (str "/r"))
          (str "/r/dir/a/sub") = true ↔
        ∃ x, x ≠ [] ∧ 47 ∉ x ∧ str "dir/a/sub" = str "dir/" ++ x ++ str "/sub") ∧
      shouldIgnoreDir (singlePattern [] [str "dir/**/sub"] (str "o.md") (str "/r"))
        (str "/r/dir/a/sub") = true ∧
      shouldIgnoreDir (singlePattern [] [str "dir/**/sub"] (str "o.md") (str "/r"))
        (str "/r/dir/sub") = false ∧
      shouldIgnoreDir (singlePattern [] [str "dir/**/sub"] (str "o.md") (str "/r"))
        (str "/r/dir/a/b/sub") = false :=
  c17_double_wildcard_depth (singlePattern [] [str "dir/**/sub"] (str "o.md") (str "/r"))
    (str "/r/dir/a/sub") (str "dir/a/sub") rfl (by decide) (by decide)

/-! ## The default pattern `tmp/` -/

theorem not_fileRuleHits_tmp (p : Str) (hp : p.getLast? ≠ some 47) :
    ¬ fileRuleHits p (str "tmp/") := by
  have hmem : (47 : Nat) ∈ str "tmp/" := by decide
  rintro (⟨_, h⟩ | ⟨h, _⟩ | ⟨h, _⟩)
  · have := (match_plain_only (str "tmp/") p (by decide) (by decide)).mp h
    apply hp
    rw [this]
    decide
  · exact h hmem
  · exact h hmem

set_option maxRecDepth 100000 in
/-- C18: under the default rule set alone the default pattern `tmp/` excludes nothing. A
directory whose basename is `tmp` is not pruned, and for a relative file path that does
not end in `/` (as every path made of non-empty segments) `shouldIgnoreFile` answers the
same with and without `tmp/` among the file patterns; so the file `tmp/notes.txt` is
walked and written. -/
theorem c18_default_tmp_inert (outputFile rootDir d p : Str)
    (hd : filepath.Base d = str "tmp") (hp : p.getLast? ≠ some 47) :
    shouldIgnoreDir { rules := defaultRules, outputFile := outputFile, rootDir := rootDir } d
        = false ∧
      shouldIgnoreFile { rules := defaultRules, outputFile := outputFile, rootDir := rootDir } p =
        shouldIgnoreFile
          { rules := { defaultRules with ignoredPatterns := [str "*.log", str "*.md"] }
            outputFile := outputFile, rootDir := rootDir } p ∧
      processProject defaultGlobals (str "/r") tmpTree =
        ({ out := str "`tmp/notes.txt`\n```text\nkeep\n\n```\n\n"
           visited := [str "/r", str "/r/tmp", str "/r/tmp/notes.txt"] }, .nil) := by
  refine ⟨?_, ?_, by decide⟩
  · rw [Bool.eq_false_iff, Ne, shouldIgnoreDir_iff, hd]
    rintro (⟨rule, hr, h⟩ | ⟨rule, hr, h, _⟩)
    · have : ∀ rule ∈ defaultRules.ignoredDirs, ¬ globMatches rule (str "tmp") := by decide
      exact this rule hr h
    · have : ∀ rule ∈ defaultRules.ignoredDirs, ¬ str "**/" <:+: rule := by decide
      exact this rule hr h
  · exact shouldIgnoreFile_insert_inert
      { rules := defaultRules, outputFile := outputFile, rootDir := rootDir } p (str "tmp/")
      [str "*.log"] [str "*.md"] (not_fileRuleHits_tmp p hp)

set_option maxRecDepth 100000 in
/-- Witness for C18: the directory `work/tmp` and the file path `tmp/notes.txt`. -/
theorem c18_default_tmp_inert_witness :
    shouldIgnoreDir
        { rules := defaultRules, outputFile := str "project-prompt.md", rootDir := str "/r" }
        (str "/r/work/tmp") = false ∧
      shouldIgnoreFile
          { rules := defaultRules, outputFile := str "project-prompt.md", rootDir := str "/r" }
          (str "tmp/notes.txt") =
        shouldIgnoreFile
          { rules := { defaultRules with ignoredPatterns := [str "*.log", str "*.md"] }
            outputFile := str "project-prompt.md", rootDir := str "/r" }
          (str "tmp/notes.txt") ∧
      processProject defaultGlobals (str "/r") tmpTree =
        ({ out := str "`tmp/notes.txt`\n```text\nkeep\n\n```\n\n"
           visited := [str "/r", str "/r/tmp", str "/r/tmp/notes.txt"] }, .nil) :=
  c18_default_tmp_inert (str "project-prompt.md") (str "/r") (str "/r/work/tmp")
    (str "tmp/notes.txt") (by decide) (by decide)


/-! ## Whether a chunk is malformed does not depend on the name -/

theorem classLoop_rest_indep (r r' : Nat) : ∀ (fuel : Nat) (chunk : Str) (m m' seen : Bool),
    (filepath.classLoop r fuel chunk m seen).map Prod.snd =
      (filepath.classLoop r' fuel chunk m' seen).map Prod.snd := by
  intro fuel
  induction fuel with
  | zero => intro chunk m m' seen; rfl
  | succ fuel ih =>
    intro chunk m m' seen
    rw [filepath.classLoop, filepath.classLoop]
    by_cases h1 : (chunk.head? = some 93 && seen) = true
    · simp only [h1, if_true, Option.map_some']
    · simp only [h1, if_false]
      cases he : filepath.getEsc chunk with
      | none => rfl
      | some p =>
        obtain ⟨lo, chunk1⟩ := p
        simp only
        by_cases h2 : chunk1.head? = some 45
        · simp only [h2, if_true]
          cases he2 : filepath.getEsc chunk1.tail with
          | none => rfl
          | some q =>
            obtain ⟨hi, chunk2⟩ := q
            exact ih _ _ _ _
        · simp only [h2, if_false]
          exact ih _ _ _ _

theorem classLoop_cases (r r' : Nat) (fuel : Nat) (chunk : Str) (m m' seen : Bool) :
    (filepath.classLoop r fuel chunk m seen = none ∧
        filepath.classLoop r' fuel chunk m' seen = none) ∨
      ∃ a b rest, filepath.classLoop r fuel chunk m seen = some (a, rest) ∧
        filepath.classLoop r' fuel chunk m' seen = some (b, rest) := by
  have h := classLoop_rest_indep r r' fuel chunk m m' seen
  cases h1 : filepath.classLoop r fuel chunk m seen with
  | none =>
    cases h2 : filepath.classLoop r' fuel chunk m' seen with
    | none => exact Or.inl ⟨rfl, rfl⟩
    | some q => rw [h1, h2] at h; simp at h
  | some p =>
    cases h2 : filepath.classLoop r' fuel chunk m' seen with
    | none => rw [h1, h2] at h; simp at h
    | some q =>
      rw [h1, h2] at h
      simp only [Option.map_some', Option.some.injEq] at h
      obtain ⟨a, rest⟩ := p
      obtain ⟨b, rest'⟩ := q
      simp only at h
      subst h
      exact Or.inr ⟨a, b, rest, rfl, rfl⟩

/-- Whether `matchChunk` reports `ErrBadPattern` depends on the chunk only. -/
theorem matchChunkLoop_none_indep : ∀ (fuel : Nat) (chunk s s' : Str) (failed failed' : Bool),
    filepath.matchChunkLoop fuel chunk s failed = none ↔
      filepath.matchChunkLoop fuel chunk s' failed' = none := by
  intro fuel
  induction fuel with
  | zero => intro chunk s s' failed failed'; simp [filepath.matchChunkLoop]
  | succ fuel ih =>
    intro chunk s s' failed failed'
    cases chunk with
    | nil =>
      simp only [filepath.matchChunkLoop]
      cases failed <;> cases failed' <;> simp
    | cons c cs =>
      simp only [filepath.matchChunkLoop]
      by_cases h91 : c = 91
      · simp only [h91, if_true]
        rcases classLoop_cases
            (if (failed || s.isEmpty) = true then 0 else (utf8.DecodeRune s).1)
            (if (failed' || s'.isEmpty) = true then 0 else (utf8.DecodeRune s').1)
            ((if decide (cs.head? = some 94) = true then cs.tail else cs).length + 1)
            (if decide (cs.head? = some 94) = true then cs.tail else cs) false false false
          with ⟨h1, h2⟩ | ⟨a, b, rest, h1, h2⟩
        · rw [h1, h2]
        · rw [h1, h2]
          exact ih _ _ _ _ _
      · simp only [h91, if_false]
        by_cases h63 : c = 63
        · simp only [h63, if_true]
          exact ih _ _ _ _ _
        · simp only [h63, if_false]
          cases hch : (if c = 92 then cs else c :: cs) with
          | nil => simp
          | cons d ds => exact ih _ _ _ _ _

theorem matchChunk_none_indep (chunk s s' : Str) :
    filepath.matchChunk chunk s = none ↔ filepath.matchChunk chunk s' = none :=
  matchChunkLoop_none_indep _ chunk s s' false false

theorem starLoop_ne_none (chunk : Str) (last : Bool) (s0 : Str)
    (h : filepath.matchChunk chunk s0 ≠ none) :
    ∀ t : Str, filepath.starLoop chunk last t ≠ none := by
  intro t
  induction t with
  | nil => simp [filepath.starLoop]
  | cons c rest ih =>
    rw [filepath.starLoop]
    split
    · simp
    · have hne : filepath.matchChunk chunk rest ≠ none := fun h0 =>
        h ((matchChunk_none_indep chunk rest s0).mp h0)
      cases hm : filepath.matchChunk chunk rest with
      | none => exact absurd hm hne
      | some r =>
        cases r with
        | none => exact ih
        | some t =>
          simp only
          split
          · exact ih
          · simp

theorem matchChunk_empty : filepath.matchChunk [] [] = some (some []) := rfl

theorem scanChunk_rest_nil (pattern : Str) (h : (filepath.scanChunk pattern).2.1 = []) :
    (filepath.scanChunk pattern).2.2 = [] := by
  have h' : (filepath.scanSplit false (pattern.dropWhile (· == 42))).1 = [] := h
  show (filepath.scanSplit false (pattern.dropWhile (· == 42))).2 = []
  rcases scanSplit_fst_nil _ h' with h0 | h0
  · rw [h0]; rfl
  · exact absurd h0 (dropWhile_star_head pattern)

/-- Adding a pattern to the file patterns adds its own contribution to the verdict. -/
theorem shouldIgnoreFile_insert (g : Globals) (p pat : Str) (a b : List Str) :
    shouldIgnoreFile { g with rules := { g.rules with ignoredPatterns := a ++ pat :: b } } p
        = true ↔
      (shouldIgnoreFile { g with rules := { g.rules with ignoredPatterns := a ++ b } } p = true ∨
        fileRuleHits p pat) := by
  rw [shouldIgnoreFile_iff, shouldIgnoreFile_iff]
  simp only [List.mem_append, List.mem_cons]
  constructor
  · rintro (h1 | ⟨q, hq, hh⟩ | h3)
    · exact Or.inl (Or.inl h1)
    · rcases hq with hq | hq | hq
      · exact Or.inl (Or.inr (Or.inl ⟨q, Or.inl hq, hh⟩))
      · subst hq
        exact Or.inr hh
      · exact Or.inl (Or.inr (Or.inl ⟨q, Or.inr hq, hh⟩))
    · exact Or.inl (Or.inr (Or.inr h3))
  · rintro ((h1 | ⟨q, hq, hh⟩ | h3) | hh)
    · exact Or.inl h1
    · rcases hq with hq | hq
      · exact Or.inr (Or.inl ⟨q, Or.inl hq, hh⟩)
      · exact Or.inr (Or.inl ⟨q, Or.inr (Or.inr hq), hh⟩)
    · exact Or.inr (Or.inr h3)
    · exact Or.inr (Or.inl ⟨pat, Or.inr (Or.inl rfl), hh⟩)

set_option maxRecDepth 100000 in
/-- C14, as stated, fails for `shouldIgnoreFile`: the matcher rejects the pattern `*[.txt`
(on the name `a.txt` and on the empty name), yet adding it to an empty rule set turns the
verdict on `a.txt` from false to true, through the extension shortcut. -/
theorem c14_malformed_counterexample :
    filepath.Match (str "*[.txt") (str "a.txt") = none ∧
      filepath.Match (str "*[.txt") [] = none ∧
      shouldIgnoreFile emptyGlobals (str "a.txt") = false ∧
      shouldIgnoreFile
        { emptyGlobals with rules := { emptyGlobals.rules with ignoredPatterns := [str "*[.txt"] } }
        (str "a.txt") = true := by
  decide

/-! ## Paths of good names: `Clean`, `Join`, `Rel` -/

theorem goodName_iff (n : Str) :
    goodName n = true ↔ n ≠ [] ∧ 47 ∉ n ∧ n ≠ [46] ∧ n ≠ [46, 46] := by
  simp [goodName]

theorem slashed_append (a b : List Str) : slashed (a ++ b) = slashed a ++ slashed b := by
  induction a with
  | nil => rfl
  | cons n ns ih => simp [slashed, ih]

theorem slashed_single (n : Str) : slashed [n] = 47 :: n := by simp [slashed]

theorem takeWhile_name (n rest : Str) (h : 47 ∉ n) (hr : rest = [] ∨ rest.head? = some 47) :
    (n ++ rest).takeWhile (· != filepath.Separator) = n := by
  induction n with
  | nil =>
    rcases hr with hr | hr
    · subst hr; rfl
    · cases rest with
      | nil => rfl
      | cons c cs =>
        simp only [List.head?_cons, Option.some.injEq] at hr
        subst hr
        simp [filepath.Separator]
  | cons c cs ih =>
    have hc : c ≠ 47 := fun h0 => h (by simp [h0])
    have hcs : 47 ∉ cs := fun h0 => h (by simp [h0])
    have := ih hcs
    simp only [filepath.Separator] at this
    simp [List.takeWhile_cons, filepath.Separator, hc, this]

theorem dropWhile_name (n rest : Str) (h : 47 ∉ n) (hr : rest = [] ∨ rest.head? = some 47) :
    (n ++ rest).dropWhile (· != filepath.Separator) = rest := by
  induction n with
  | nil =>
    rcases hr with hr | hr
    · subst hr; rfl
    · cases rest with
      | nil => rfl
      | cons c cs =>
        simp only [List.head?_cons, Option.some.injEq] at hr
        subst hr
        simp [filepath.Separator]
  | cons c cs ih =>
    have hc : c ≠ 47 := fun h0 => h (by simp [h0])
    have hcs : 47 ∉ cs := fun h0 => h (by simp [h0])
    have := ih hcs
    simp only [filepath.Separator] at this
    simp [List.dropWhile_cons, filepath.Separator, hc, this]

theorem slashed_head (ns : List Str) : slashed ns = [] ∨ (slashed ns).head? = some 47 := by
  cases ns with
  | nil => left; rfl
  | cons n ns => right; rfl

/-- One step of the loop of `Clean` at a good name: the name is appended to the buffer,
after a separator unless the buffer is the root alone. -/
theorem cleanLoop_name (fuel : Nat) (n rest out : Str) (dotdot : Nat)
    (hn : goodName n = true) (hr : rest = [] ∨ rest.head? = some 47) :
    filepath.cleanLoop true (fuel + 1) (n ++ rest) out dotdot =
      filepath.cleanLoop true fuel rest
        ((if out.length ≠ 1 then out ++ [47] else out) ++ n) dotdot := by
  obtain ⟨hne, hs, hdot, hdd⟩ := (goodName_iff n).mp hn
  have htw := takeWhile_name n rest hs hr
  have hdw := dropWhile_name n rest hs hr
  cases n with
  | nil => exact absurd rfl hne
  | cons c cs =>
    have hc : c ≠ 47 := fun h0 => hs (by simp [h0])
    have hcs : 47 ∉ cs := fun h0 => hs (by simp [h0])
    rw [List.cons_append] at htw hdw ⊢
    rw [filepath.cleanLoop]
    simp only [filepath.Separator, beq_iff_eq, hc, if_false]
    have h1 : ¬ ((decide (c = 46) && (decide (cs ++ rest = []) ||
        decide ((cs ++ rest).head? = some 47))) = true) := by
      simp only [Bool.and_eq_true, Bool.or_eq_true, decide_eq_true_eq, not_and, not_or]
      intro h46
      subst h46
      cases cs with
      | nil => exact absurd rfl hdot
      | cons d ds =>
        have hd : d ≠ 47 := fun h0 => hcs (by simp [h0])
        simp [hd]
    have h2 : ¬ ((decide (c = 46) && decide ((cs ++ rest).head? = some 46) &&
        (decide ((cs ++ rest).tail = []) || decide ((cs ++ rest).tail.head? = some 47))) = true) := by
      simp only [Bool.and_eq_true, Bool.or_eq_true, decide_eq_true_eq, not_and, not_or]
      rintro ⟨h46, hh⟩
      subst h46
      cases cs with
      | nil =>
        rcases hr with hr | hr
        · subst hr; simp at hh
        · rw [List.nil_append, hr] at hh; simp at hh
      | cons d ds =>
        simp only [List.cons_append, List.head?_cons, Option.some.injEq] at hh
        subst hh
        cases ds with
        | nil => exact absurd rfl hdd
        | cons e es =>
          have he : e ≠ 47 := fun h0 => hcs (by simp [h0])
          simp [he]
    rw [if_neg h1, if_neg h2]
    simp only [filepath.Separator] at htw hdw
    rw [htw, hdw]
    simp

theorem cleanLoop_nil (rooted : Bool) (fuel : Nat) (out : Str) (dotdot : Nat) :
    filepath.cleanLoop rooted fuel [] out dotdot = out := by
  cases fuel <;> rfl

theorem cleanLoop_names : ∀ (ns : List Str) (n : Str) (fuel : Nat) (out : Str) (dotdot : Nat),
    goodName n = true → (∀ s ∈ ns, goodName s = true) → out ≠ [] → 2 * ns.length + 1 ≤ fuel →
      filepath.cleanLoop true fuel (n ++ slashed ns) out dotdot =
        (if out.length ≠ 1 then out ++ [47] else out) ++ n ++ slashed ns := by
  intro ns
  induction ns with
  | nil =>
    intro n fuel out dotdot hn _ _ hf
    obtain ⟨f, rfl⟩ : ∃ f, fuel = f + 1 := ⟨fuel - 1, by omega⟩
    rw [cleanLoop_name f n (slashed []) out dotdot hn (Or.inl rfl)]
    simp [slashed, cleanLoop_nil]
  | cons m ms ih =>
    intro n fuel out dotdot hn hns hout hf
    simp only [List.length_cons] at hf
    obtain ⟨f, rfl⟩ : ∃ f, fuel = f + 2 := ⟨fuel - 2, by omega⟩
    rw [cleanLoop_name (f + 1) n (slashed (m :: ms)) out dotdot hn (Or.inr rfl)]
    have hm : goodName m = true := hns m (by simp)
    have hms : ∀ s ∈ ms, goodName s = true := fun s hs => hns s (by simp [hs])
    have hnne : n ≠ [] := ((goodName_iff n).mp hn).1
    have hlen : ((if out.length ≠ 1 then out ++ [47] else out) ++ n).length ≠ 1 := by
      have h1 : 0 < n.length := List.length_pos.mpr hnne
      have h2 : 0 < out.length := List.length_pos.mpr hout
      rw [List.length_append]
      split
      · rw [List.length_append]; simp; omega
      · omega
    have hne : (if out.length ≠ 1 then out ++ [47] else out) ++ n ≠ [] := by
      intro h0
      exact hnne (List.append_eq_nil.mp h0).2
    show filepath.cleanLoop true (f + 1) (47 :: (m ++ slashed ms)) _ dotdot = _
    rw [filepath.cleanLoop]
    simp only [filepath.Separator, beq_self_eq_true, if_true]
    rw [ih m f _ dotdot hm hms hne (by omega), if_pos hlen]
    simp [slashed]

theorem slashed_length (ns : List Str) (h : ∀ s ∈ ns, goodName s = true) :
    2 * ns.length ≤ (slashed ns).length := by
  induction ns with
  | nil => simp [slashed]
  | cons n ns ih =>
    have hn : 0 < n.length := List.length_pos.mpr ((goodName_iff n).mp (h n (by simp))).1
    have := ih (fun s hs => h s (by simp [hs]))
    simp only [slashed, List.length_cons, List.length_append]
    omega

theorem clean_rooted (p : Str) :
    filepath.Clean (47 :: p) =
      if filepath.cleanLoop true (p.length + 1 + 1) p [47] 1 = [] then [46]
      else filepath.cleanLoop true (p.length + 1 + 1) p [47] 1 := by
  unfold filepath.Clean
  simp [filepath.Separator]

theorem slashed_cons (n : Str) (ns : List Str) : slashed (n :: ns) = 47 :: (n ++ slashed ns) := by
  simp [slashed]

theorem clean_slashed (segs : List Str) (hne : segs ≠ []) (h : ∀ s ∈ segs, goodName s = true) :
    filepath.Clean (slashed segs) = slashed segs := by
  cases segs with
  | nil => exact absurd rfl hne
  | cons n ns =>
    have hn : goodName n = true := h n (by simp)
    have hns : ∀ s ∈ ns, goodName s = true := fun s hs => h s (by simp [hs])
    have hl := slashed_length ns hns
    rw [slashed_cons, clean_rooted,
      cleanLoop_names ns n _ [47] 1 hn hns (by simp)
        (by simp only [List.length_append]; omega)]
    simp

theorem clean_absPath (segs : List Str) (h : ∀ s ∈ segs, goodName s = true) :
    filepath.Clean (absPath segs) = absPath segs := by
  unfold absPath
  by_cases hs : segs = []
  · simp only [hs, if_true]
    decide
  · rw [if_neg hs]
    exact clean_slashed segs hs h

/-- The path `filepath.Walk` gives an entry: `Join` of an absolute path of good names and a
good name is the path with the name appended. -/
theorem join_absPath (segs : List Str) (n : Str) (h : ∀ s ∈ segs, goodName s = true)
    (hn : goodName n = true) :
    filepath.Join (absPath segs) n = absPath (segs ++ [n]) := by
  have hall : ∀ s ∈ segs ++ [n], goodName s = true := by
    intro s hs
    rcases List.mem_append.mp hs with hs | hs
    · exact h s hs
    · rw [List.mem_singleton.mp hs]; exact hn
  unfold absPath
  by_cases hs : segs = []
  · subst hs
    simp only [if_true, List.nil_append, List.cons_ne_nil, if_false, slashed_single]
    unfold filepath.Join
    rw [if_pos (by simp)]
    show filepath.Clean (47 :: (47 :: n)) = 47 :: n
    rw [clean_rooted, List.length_cons, filepath.cleanLoop]
    simp only [filepath.Separator, beq_self_eq_true, if_true]
    have := cleanLoop_names [] n (n.length + 1 + 1) [47] 1 hn (by simp) (by simp) (by simp)
    simp only [slashed, List.append_nil] at this
    rw [this]
    simp
  · rw [if_neg hs, if_neg (by simp)]
    unfold filepath.Join
    rw [if_pos (by cases segs with
      | nil => exact absurd rfl hs
      | cons a b => simp [slashed])]
    have e : slashed segs ++ [filepath.Separator] ++ n = slashed (segs ++ [n]) := by
      rw [slashed_append, slashed_single, List.append_assoc]
      rfl
    rw [e]
    exact clean_slashed _ (by simp) hall

theorem relLoop_done (base targ : Str) (fuel b0 bi t0 ti : Nat) (h : base.length ≤ bi) :
    filepath.relLoop base targ fuel b0 bi t0 ti = (b0, bi, t0, ti) := by
  cases fuel with
  | zero => rfl
  | succ fuel =>
    rw [filepath.relLoop]
    have : ¬ (bi < base.length ∧ ti < targ.length) := by omega
    simp [this]

theorem nextSep_name (pre n rest : Str) (h : 47 ∉ n) (hr : rest = [] ∨ rest.head? = some 47) :
    filepath.nextSep (pre ++ (n ++ rest)) pre.length = pre.length + n.length := by
  unfold filepath.nextSep
  rw [List.drop_left, takeWhile_name n rest h hr]

theorem slice_mid (pre n rest : Str) :
    ((pre ++ (n ++ rest)).take (pre.length + n.length)).drop pre.length = n := by
  rw [← List.append_assoc, List.take_left' (by simp), List.drop_left]

/-- One round of the loop of `Rel` when base and target hold the same element `n` at the
same place: both move past it, and past the separator after it when there is one. -/
theorem relLoop_step (pre n restB restT : Str) (fuel : Nat) (hne : n ≠ []) (hs : 47 ∉ n)
    (hB : restB = [] ∨ restB.head? = some 47) (hT : restT.head? = some 47) :
    filepath.relLoop (pre ++ (n ++ restB)) (pre ++ (n ++ restT)) (fuel + 1)
        pre.length pre.length pre.length pre.length =
      filepath.relLoop (pre ++ (n ++ restB)) (pre ++ (n ++ restT)) fuel
        (if restB = [] then pre.length + n.length else pre.length + n.length + 1)
        (if restB = [] then pre.length + n.length else pre.length + n.length + 1)
        (pre.length + n.length + 1) (pre.length + n.length + 1) := by
  have hnl : 0 < n.length := List.length_pos.mpr hne
  have hTl : 0 < restT.length := by
    cases restT with
    | nil => simp at hT
    | cons c cs => simp
  rw [filepath.relLoop]
  simp only [nextSep_name pre n restB hs hB, nextSep_name pre n restT hs (Or.inr hT), slice_mid]
  have hlB : (pre ++ (n ++ restB)).length = pre.length + n.length + restB.length := by
    simp only [List.length_append]; omega
  have hlT : (pre ++ (n ++ restT)).length = pre.length + n.length + restT.length := by
    simp only [List.length_append]; omega
  have h1 : pre.length < pre.length + n.length + restB.length := by omega
  have h2 : pre.length < pre.length + n.length + restT.length := by omega
  have h3 : pre.length + n.length < pre.length + n.length + restT.length := by omega
  rw [hlB, hlT]
  simp only [h1, h2, h3, decide_True, Bool.and_self, if_true, ne_eq, not_true_eq_false,
    if_false]
  by_cases hr : restB = []
  · subst hr
    simp
  · have : 0 < restB.length := List.length_pos.mpr hr
    have h4 : pre.length + n.length < pre.length + n.length + restB.length := by omega
    simp only [hr, h4, if_true, if_false]

/-- The loop of `Rel` run over a base of good names and a target that continues it: it
stops at the end of the base, one byte further in the target. -/
theorem relLoop_names : ∀ (ns : List Str) (n pre rest : Str) (fuel : Nat),
    goodName n = true → (∀ s ∈ ns, goodName s = true) → ns.length + 1 ≤ fuel →
      filepath.relLoop (pre ++ 47 :: (n ++ slashed ns)) (pre ++ 47 :: (n ++ slashed ns) ++ 47 :: rest)
          fuel (pre.length + 1) (pre.length + 1) (pre.length + 1) (pre.length + 1) =
        ((pre ++ 47 :: (n ++ slashed ns)).length, (pre ++ 47 :: (n ++ slashed ns)).length,
          (pre ++ 47 :: (n ++ slashed ns)).length + 1,
          (pre ++ 47 :: (n ++ slashed ns)).length + 1) := by
  intro ns
  induction ns with
  | nil =>
    intro n pre rest fuel hn _ hf
    obtain ⟨f, rfl⟩ : ∃ f, fuel = f + 1 := ⟨fuel - 1, by omega⟩
    obtain ⟨hne, hs, _, _⟩ := (goodName_iff n).mp hn
    have eB : pre ++ 47 :: (n ++ slashed []) = (pre ++ [47]) ++ (n ++ []) := by simp [slashed]
    have eT : pre ++ 47 :: (n ++ slashed []) ++ 47 :: rest = (pre ++ [47]) ++ (n ++ 47 :: rest) := by
      simp [slashed]
    have eL : pre.length + 1 = (pre ++ [47]).length := by simp
    rw [eT, eB, eL, relLoop_step (pre ++ [47]) n [] (47 :: rest) f hne hs (Or.inl rfl) rfl]
    simp only [if_true]
    rw [relLoop_done _ _ _ _ _ _ _ (by simp; omega)]
    simp only [List.length_append, List.length_cons, List.length_nil, Nat.add_zero]
  | cons m ms ih =>
    intro n pre rest fuel hn hns hf
    simp only [List.length_cons] at hf
    obtain ⟨f, rfl⟩ : ∃ f, fuel = f + 1 := ⟨fuel - 1, by omega⟩
    obtain ⟨hne, hs, _, _⟩ := (goodName_iff n).mp hn
    have hm : goodName m = true := hns m (by simp)
    have hms : ∀ s ∈ ms, goodName s = true := fun s hs => hns s (by simp [hs])
    have eB : pre ++ 47 :: (n ++ slashed (m :: ms)) = (pre ++ [47]) ++ (n ++ slashed (m :: ms)) := by
      simp
    have eT : pre ++ 47 :: (n ++ slashed (m :: ms)) ++ 47 :: rest =
        (pre ++ [47]) ++ (n ++ (slashed (m :: ms) ++ 47 :: rest)) := by
      simp
    have eL : pre.length + 1 = (pre ++ [47]).length := by simp
    have hsl : slashed (m :: ms) ≠ [] := by simp [slashed]
    rw [eT, eB, eL, relLoop_step (pre ++ [47]) n (slashed (m :: ms)) _ f hne hs (Or.inr rfl)
      (by simp [slashed]), if_neg hsl]
    have eB2 : (pre ++ [47]) ++ (n ++ slashed (m :: ms)) =
        (pre ++ 47 :: n) ++ 47 :: (m ++ slashed ms) := by
      simp [slashed]
    have eT2 : (pre ++ [47]) ++ (n ++ (slashed (m :: ms) ++ 47 :: rest)) =
        (pre ++ 47 :: n) ++ 47 :: (m ++ slashed ms) ++ 47 :: rest := by
      simp [slashed]
    have eL2 : (pre ++ [47]).length + n.length + 1 = (pre ++ 47 :: n).length + 1 := by
      simp only [List.length_append, List.length_cons, List.length_nil]; omega
    rw [eB2, eT2, eL2]
    exact ih m (pre ++ 47 :: n) rest f hm hms (by omega)

theorem relLoop_first (b t : Str) (fuel : Nat) :
    filepath.relLoop (47 :: b) (47 :: t) (fuel + 1) 0 0 0 0 =
      filepath.relLoop (47 :: b) (47 :: t) fuel 1 1 1 1 := by
  rw [filepath.relLoop]
  simp [filepath.nextSep, filepath.Separator]

/-- Go `filepath.Rel` for a clean rooted base and a clean rooted target, once the loop is
known to run to the end of the base. -/
theorem rel_of_loop (base targ : Str) (t0 ti : Nat) (hb : filepath.Clean base = base)
    (ht : filepath.Clean targ = targ) (hne : targ ≠ base) (hbs : base.head? = some 47)
    (hts : targ.head? = some 47)
    (hloop : filepath.relLoop base targ (base.length + 1) 0 0 0 0 =
      (base.length, base.length, t0, ti)) :
    filepath.Rel base targ = some (targ.drop t0) := by
  have h46 : base ≠ [46] := by
    intro h0
    rw [h0] at hbs
    simp at hbs
  have h46t : targ ≠ [46] := by
    intro h0
    rw [h0] at hts
    simp at hts
  unfold filepath.Rel
  simp only [hb, ht, if_neg hne, if_neg h46, if_neg h46t, hbs, hts, filepath.Separator,
    decide_True, bne_self_eq_false, Bool.false_eq_true, if_false, hloop, List.take_length,
    List.drop_length, ne_eq, not_true_eq_false, List.takeWhile_nil]
  simp

theorem absPath_head (segs : List Str) : (absPath segs).head? = some 47 := by
  unfold absPath
  cases segs with
  | nil => rfl
  | cons n ns => simp [slashed]

theorem absPath_append (root : List Str) (a : Str) (rest : List Str) :
    absPath (root ++ a :: rest) = absPath root ++ (if root = [] then [] else [47]) ++
      (a ++ slashed rest) := by
  unfold absPath
  cases root with
  | nil => simp [slashed]
  | cons r rs => simp [slashed, slashed_append]

/-- The root-relative path of a walked path: `Rel` of the root and the root extended by good
names is the names joined by `/` (`.` for the root itself). -/
theorem rel_absPath (root names : List Str) (hr : ∀ s ∈ root, goodName s = true)
    (hn : ∀ s ∈ names, goodName s = true) :
    filepath.Rel (absPath root) (absPath (root ++ names)) = some (relPathOf names) := by
  have hall : ∀ s ∈ root ++ names, goodName s = true := by
    intro s hs
    rcases List.mem_append.mp hs with hs | hs
    · exact hr s hs
    · exact hn s hs
  cases names with
  | nil =>
    rw [List.append_nil]
    unfold filepath.Rel
    simp [relPathOf]
  | cons a rest =>
    have ha : a ≠ [] := ((goodName_iff a).mp (hn a (by simp))).1
    have hal : 0 < a.length := List.length_pos.mpr ha
    have hrel : relPathOf (a :: rest) = a ++ slashed rest := by
      simp [relPathOf, slashed]
    have hne : absPath (root ++ a :: rest) ≠ absPath root := by
      intro h0
      have := congrArg List.length h0
      rw [absPath_append] at this
      simp only [List.length_append] at this
      omega
    cases root with
    | nil =>
      have hT : absPath ([] ++ a :: rest) = 47 :: (a ++ slashed rest) := by
        simp [absPath, slashed]
      have hB : absPath [] = [47] := rfl
      have hloop : filepath.relLoop [47] (47 :: (a ++ slashed rest)) ([47].length + 1) 0 0 0 0 =
          ([47].length, [47].length, 1, 1) := by
        rw [relLoop_first, relLoop_done _ _ _ _ _ _ _ (by simp)]
        rfl
      have := rel_of_loop (absPath []) (absPath ([] ++ a :: rest)) 1 1
        (clean_absPath [] hr) (clean_absPath _ hall) hne (absPath_head _) (absPath_head _)
        (by rw [hT, hB]; exact hloop)
      rw [this, hT, hrel]
      rfl
    | cons r rs =>
      have hrg : goodName r = true := hr r (by simp)
      have hrs : ∀ s ∈ rs, goodName s = true := fun s hs => hr s (by simp [hs])
      have hB : absPath (r :: rs) = [] ++ 47 :: (r ++ slashed rs) := by
        simp [absPath, slashed]
      have hT : absPath (r :: rs ++ a :: rest) =
          [] ++ 47 :: (r ++ slashed rs) ++ 47 :: (a ++ slashed rest) := by
        simp [absPath, slashed, slashed_append]
      have hl := slashed_length rs hrs
      have hloop := relLoop_names rs r [] (a ++ slashed rest)
        (([] : Str) ++ 47 :: (r ++ slashed rs)).length hrg hrs
        (by simp only [List.nil_append, List.length_cons, List.length_append]; omega)
      have hfirst : filepath.relLoop ([] ++ 47 :: (r ++ slashed rs))
          ([] ++ 47 :: (r ++ slashed rs) ++ 47 :: (a ++ slashed rest))
          (([] : Str) ++ 47 :: (r ++ slashed rs)).length.succ 0 0 0 0 = _ :=
        relLoop_first (r ++ slashed rs) (r ++ slashed rs ++ 47 :: (a ++ slashed rest)) _
      have := rel_of_loop (absPath (r :: rs)) (absPath (r :: rs ++ a :: rest))
        ((([] : Str) ++ 47 :: (r ++ slashed rs)).length + 1)
        ((([] : Str) ++ 47 :: (r ++ slashed rs)).length + 1)
        (clean_absPath _ hr) (clean_absPath _ hall) hne (absPath_head _) (absPath_head _)
        (by
          rw [hT, hB]
          rw [hfirst]
          exact hloop)
      have e : ([] : Str) ++ 47 :: (r ++ slashed rs) ++ 47 :: (a ++ slashed rest) =
          (([] : Str) ++ 47 :: (r ++ slashed rs) ++ [47]) ++ (a ++ slashed rest) := by
        simp
      rw [this, hT, hrel, e]
      exact congrArg some (List.drop_left' (by simp; omega))

/-! ## The output document -/

mutual
theorem expectedNode_length (g : Globals) (root : List Str) :
    ∀ (node : Node) (names : List Str) (doc : Str),
      doc.length ≤ (expectedNode g root node names doc).length
  | .file fd, names, doc => by rw [expectedNode, List.length_append]; omega
  | .document, names, doc => by rw [expectedNode, List.length_append]; omega
  | .nostat, names, doc => by rw [expectedNode]
  | .dir listable entries, names, doc => by
    rw [expectedNode]
    split
    · exact le_refl _
    · exact expectedEntries_length g root entries names doc
theorem expectedEntries_length (g : Globals) (root : List Str) :
    ∀ (entries : Entries) (names : List Str) (doc : Str),
      doc.length ≤ (expectedEntries g root entries names doc).length
  | .nil, names, doc => by rw [expectedEntries]
  | .cons name node rest, names, doc => by
    rw [expectedEntries]
    exact le_trans (expectedNode_length g root node (names ++ [name]) doc)
      (expectedEntries_length g root rest names _)
end

/-- The walk function on a file below the root, when the output document accepts what the
file adds: the document grows by the entry of the file, and no error is returned. -/
theorem visitFile_expected (g : Globals) (root names : List Str) (fd : FileData)
    (st : WalkState) (hroot : ∀ s ∈ root, goodName s = true)
    (hnames : ∀ s ∈ names, goodName s = true)
    (hw : ∀ limit, g.writeLimit = some limit →
      (st.out ++ expectedEntry g root names fd).length ≤ limit) :
    visitFile g (absPath root) st (absPath (root ++ names)) fd =
      ({ out := st.out ++ expectedEntry g root names fd, visited := st.visited }, .nil) := by
  have hrel := rel_absPath root names hroot hnames
  simp only [visitFile, hrel]
  by_cases h1 : shouldIgnoreFile g (relPathOf names) = true
  · simp [expectedEntry, h1]
  · by_cases h2 : isBinaryFile (absPath (root ++ names)) fd = true
    · simp [expectedEntry, h1, h2]
    · cases fd with
      | openError => simp [expectedEntry, h1, h2]
      | readError => simp [expectedEntry, h1, h2]
      | data content =>
        have he : expectedEntry g root names (.data content) =
            formatEntry (absPath (root ++ names)) (relPathOf names) content := by
          simp [expectedEntry, h1, h2]
        rw [he] at hw ⊢
        cases hl : g.writeLimit with
        | none => simp [h1, h2, writeString, hl]
        | some limit =>
          have := hw limit hl
          rw [List.length_append] at this
          simp [h1, h2, writeString, hl, this]

theorem walkEntries_cons (g : Globals) (rootDir path name : Str) (node : Node) (rest : Entries)
    (st : WalkState)
    (h : (walk g rootDir (filepath.Join path name) node st).2 = .nil ∨
      (node.isDir = true ∧ (walk g rootDir (filepath.Join path name) node st).2 = .skipDir))
    (hn : node ≠ .nostat) :
    walkEntries g rootDir path (.cons name node rest) st =
      walkEntries g rootDir path rest (walk g rootDir (filepath.Join path name) node st).1 := by
  cases node with
  | nostat => exact absurd rfl hn
  | file d =>
    rcases h with h | ⟨h, _⟩
    · simp [walkEntries, h]
    · simp [Node.isDir] at h
  | document =>
    rcases h with h | ⟨h, _⟩
    · simp [walkEntries, h]
    · simp [Node.isDir] at h
  | dir listable entries =>
    rcases h with h | ⟨_, h⟩
    · simp [walkEntries, h]
    · simp [walkEntries, h, Node.isDir]

mutual
/-- What the walk of a node that enumerates without error gives when the output document
accepts all that the node adds: the expected document after the node, and no error. -/
theorem walk_expected (g : Globals) (root : List Str) (hroot : ∀ s ∈ root, goodName s = true) :
    ∀ (node : Node) (names : List Str) (st : WalkState),
      (∀ s ∈ names, goodName s = true) → enumeratesNode node = true →
        (∀ limit, g.writeLimit = some limit →
          (expectedNode g root node names st.out).length ≤ limit) →
        (walk g (absPath root) (absPath (root ++ names)) node st).1.out =
            expectedNode g root node names st.out ∧
          ((walk g (absPath root) (absPath (root ++ names)) node st).2 = .nil ∨
            (node.isDir = true ∧
              (walk g (absPath root) (absPath (root ++ names)) node st).2 = .skipDir))
  | .file fd, names, st, hnames, _, hw => by
    rw [expectedNode] at hw ⊢
    have hv := visitFile_expected g root names fd
      { out := st.out, visited := st.visited ++ [absPath (root ++ names)] } hroot hnames hw
    simp only [walk, walkFn, Bool.false_eq_true, if_false]
    rw [hv]
    exact ⟨rfl, Or.inl rfl⟩
  | .document, names, st, hnames, _, hw => by
    rw [expectedNode] at hw ⊢
    have hv := visitFile_expected g root names (.data st.out)
      { out := st.out, visited := st.visited ++ [absPath (root ++ names)] } hroot hnames hw
    simp only [walk, walkFn, Bool.false_eq_true, if_false]
    rw [hv]
    exact ⟨rfl, Or.inl rfl⟩
  | .nostat, names, st, _, he, _ => by simp [enumeratesNode] at he
  | .dir listable entries, names, st, hnames, he, hw => by
    rw [enumeratesNode, Bool.and_eq_true] at he
    obtain ⟨hl, hent⟩ := he
    subst hl
    by_cases h : shouldIgnoreDir g (absPath (root ++ names)) = true
    · rw [walk_pruned_dir g _ _ true entries st h, expectedNode, if_pos h]
      simp [Node.isDir]
    · rw [expectedNode, if_neg h] at hw
      have ih := walkEntries_expected g root hroot entries names
        { out := st.out, visited := st.visited ++ [absPath (root ++ names)] } hnames hent hw
      rw [walk_dir, expectedNode, if_neg h]
      simp only [walkFn, Bool.not_true, Bool.false_eq_true, if_false, h, Bool.false_or,
        ne_eq, not_true_eq_false, decide_False]
      exact ⟨ih.1, Or.inl ih.2⟩
/-- What the walk of the entries of a directory gives, all of them enumerating without
error, when the output document accepts all that they add. -/
theorem walkEntries_expected (g : Globals) (root : List Str)
    (hroot : ∀ s ∈ root, goodName s = true) :
    ∀ (entries : Entries) (names : List Str) (st : WalkState),
      (∀ s ∈ names, goodName s = true) → enumeratesEntries entries = true →
        (∀ limit, g.writeLimit = some limit →
          (expectedEntries g root entries names st.out).length ≤ limit) →
        (walkEntries g (absPath root) (absPath (root ++ names)) entries st).1.out =
            expectedEntries g root entries names st.out ∧
          (walkEntries g (absPath root) (absPath (root ++ names)) entries st).2 = .nil
  | .nil, names, st, _, _, _ => by simp [walkEntries, expectedEntries]
  | .cons name node rest, names, st, hnames, he, hw => by
    rw [enumeratesEntries, Bool.and_eq_true, Bool.and_eq_true] at he
    obtain ⟨⟨hname, hnode⟩, hrest⟩ := he
    have hall : ∀ s ∈ root ++ names, goodName s = true := by
      intro s hs
      rcases List.mem_append.mp hs with hs | hs
      · exact hroot s hs
      · exact hnames s hs
    have hnames2 : ∀ s ∈ names ++ [name], goodName s = true := by
      intro s hs
      rcases List.mem_append.mp hs with hs | hs
      · exact hnames s hs
      · rw [List.mem_singleton.mp hs]; exact hname
    have hj : filepath.Join (absPath (root ++ names)) name = absPath (root ++ (names ++ [name])) := by
      rw [join_absPath _ _ hall hname, List.append_assoc]
    rw [expectedEntries] at hw ⊢
    have hw1 : ∀ limit, g.writeLimit = some limit →
        (expectedNode g root node (names ++ [name]) st.out).length ≤ limit := fun limit hl =>
      le_trans (expectedEntries_length g root rest names _) (hw limit hl)
    have ih := walk_expected g root hroot node (names ++ [name]) st hnames2 hnode hw1
    have hns : node ≠ .nostat := by
      intro h0
      subst h0
      simp [enumeratesNode] at hnode
    rw [walkEntries_cons g _ _ name node rest st (by rw [hj]; exact ih.2) hns, hj]
    have ihr := walkEntries_expected g root hroot rest names
      (walk g (absPath root) (absPath (root ++ (names ++ [name]))) node st).1 hnames hrest
      (by rw [ih.1]; exact hw)
    rw [ihr.1, ih.1]
    exact ⟨rfl, ihr.2⟩
end

theorem expectedEntry_unreadable (g : Globals) (root names : List Str) (fd : FileData)
    (h : ∀ content, fd ≠ .data content) : expectedEntry g root names fd = [] := by
  cases fd with
  | data content => exact absurd rfl (h content)
  | openError => simp only [expectedEntry]; split <;> [rfl; split <;> rfl]
  | readError => simp only [expectedEntry]; split <;> [rfl; split <;> rfl]

set_option maxRecDepth 100000 in
/-- The expected output of the mixed project under the default rules: the entries of
`a.go` and `sub/b.py`, in this order, and nothing for the unreadable, the binary and the
pruned. -/
theorem expectedNode_on_mixedTree :
    expectedNode defaultGlobals [str "r"] mixedTree [] [] =
      str "`a.go`\n```go\npackage a\n\n```\n\n`sub/b.py`\n```python\npass\n\n```\n\n" := by
  decide

set_option maxRecDepth 100000 in
/-- The expected output of the project of `TestProcessProject` is the output of its
run: the open output document `output.md` is met as a file holding the entries written
before it. -/
theorem expectedNode_on_testProject :
    expectedNode projectTestGlobals [str "tmp", str "x"] testProject [] [] =
      (processProject projectTestGlobals (str "/tmp/x") testProject).1.out := by
  decide

set_option maxRecDepth 100000 in
/-- C11, as stated, fails: the mixed project enumerates without error, yet with an output
document that accepts 10 bytes the first write fails: `processProject` returns an error,
the walk stops at `a.go`, and the output document holds the first 10 bytes of its entry,
not the concatenation of the entries of `a.go` and `sub/b.py`. -/
theorem c11_write_failure_counterexample :
    enumeratesNode mixedTree = true ∧
      processProject { defaultGlobals with writeLimit := some 10 } (absPath [str "r"]) mixedTree =
        ({ out := str "`a.go`\n```", visited := [str "/r", str "/r/a.go"] }, .err) ∧
      expectedNode { defaultGlobals with writeLimit := some 10 } [str "r"] mixedTree [] [] =
        str "`a.go`\n```go\npackage a\n\n```\n\n`sub/b.py`\n```python\npass\n\n```\n\n" := by
  decide

/-- C11, amended: for a project root given as an absolute path of directory names (as
`os.Getwd` returns it), every tree that enumerates without error (every directory lists
its names, and every name is a proper entry name that can be examined) and an output
document on which no write fails (it accepts as many bytes as the expected document
has), `processProject` returns no error and the output document is exactly
`expectedNode`: the concatenation, in pre-order enumeration order, of the entry of each
file that has no pruned ancestor directory, whose root-relative path `shouldIgnoreFile`
does not ignore, that `isBinaryFile` does not classify as binary, and whose content can
be read, the content of the open output document itself, where the walk meets it, being
what was written before. Every other file contributes nothing; in particular a file
whose content cannot be read stops nothing and leaves what the other entries of its
directory give unchanged. -/
theorem c11_processProject_output (g : Globals) (root : List Str) (tree : Node)
    (hroot : ∀ s ∈ root, goodName s = true) (htree : enumeratesNode tree = true)
    (hw : ∀ limit, g.writeLimit = some limit →
      (expectedNode g root tree [] []).length ≤ limit) :
    (processProject g (absPath root) tree).2 = .nil ∧
      (processProject g (absPath root) tree).1.out = expectedNode g root tree [] [] ∧
      ∀ (names : List Str) (name : Str) (fd : FileData) (rest : Entries) (doc : Str),
        (∀ content, fd ≠ .data content) →
          expectedEntries g root (.cons name (.file fd) rest) names doc =
            expectedEntries g root rest names doc := by
  have h := walk_expected g root hroot tree [] { out := [], visited := [] } (by simp) htree hw
  rw [List.append_nil] at h
  refine ⟨?_, ?_, ?_⟩
  · unfold processProject Walk
    rcases h.2 with h2 | ⟨_, h2⟩
    · simp [h2]
    · simp [h2]
  · unfold processProject Walk
    have h1 := h.1
    simp only []
    split <;> exact h1
  · intro names name fd rest doc hfd
    rw [expectedEntries, expectedNode, expectedEntry_unreadable g root _ fd hfd,
      List.append_nil]

set_option maxRecDepth 100000 in
/-- Witness for C11: the mixed project under the root `/r` with the default rules and an
output document that accepts 100 bytes. -/
theorem c11_processProject_output_witness :
    (processProject { defaultGlobals with writeLimit := some 100 } (absPath [str "r"])
        mixedTree).2 = .nil ∧
      (processProject { defaultGlobals with writeLimit := some 100 } (absPath [str "r"])
        mixedTree).1.out =
        expectedNode { defaultGlobals with writeLimit := some 100 } [str "r"] mixedTree [] [] ∧
      ∀ (names : List Str) (name : Str) (fd : FileData) (rest : Entries) (doc : Str),
        (∀ content, fd ≠ .data content) →
          expectedEntries { defaultGlobals with writeLimit := some 100 } [str "r"]
              (.cons name (.file fd) rest) names doc =
            expectedEntries { defaultGlobals with writeLimit := some 100 } [str "r"] rest
              names doc :=
  c11_processProject_output { defaultGlobals with writeLimit := some 100 } [str "r"] mixedTree
    (by decide) (by decide) (by
      intro limit hl
      have h100 : limit = 100 := by
        simpa [defaultGlobals] using hl.symm
      subst h100
      decide)


/-! ## Runes and escapes of a bracket expression, as byte strings -/

/-- A rune that `DecodeRune` accepts is read from a beginning of the string that fixes
it: either one ASCII byte, or two to four bytes that are all at least `0x80`. -/
theorem decodeRune_valid (s : Str) (r n : Nat) (h : utf8.DecodeRune s = (r, n))
    (hv : ¬ (r = utf8.RuneError ∧ n = 1)) (hs : s ≠ []) :
    ∃ body rest, s = body ++ rest ∧ body.length = n ∧ body ≠ [] ∧
      (∀ Y, utf8.DecodeRune (body ++ Y) = (r, n)) ∧
      ((∃ c, body = [c] ∧ c < 0x80) ∨ ∀ b ∈ body, 0x80 ≤ b) := by
  have bad : ∀ {P : Prop}, (utf8.RuneError, 1) = (r, n) → P := by
    intro P h0
    simp only [Prod.mk.injEq] at h0
    exact absurd ⟨h0.1.symm, h0.2.symm⟩ hv
  cases s with
  | nil => exact absurd rfl hs
  | cons s0 t =>
    simp only [utf8.DecodeRune] at h
    by_cases h1 : s0 < 0x80
    · rw [if_pos h1] at h
      simp only [Prod.mk.injEq] at h
      obtain ⟨rfl, rfl⟩ := h
      refine ⟨[s0], t, rfl, rfl, by simp, ?_, Or.inl ⟨s0, rfl, h1⟩⟩
      intro Y
      simp [utf8.DecodeRune, h1]
    · rw [if_neg h1] at h
      by_cases h2 : s0 < 0xC2
      · rw [if_pos h2] at h
        exact bad h
      · rw [if_neg h2] at h
        by_cases h3 : s0 < 0xE0
        · rw [if_pos h3] at h
          cases t with
          | nil => exact bad h
          | cons s1 t1 =>
            simp only at h
            by_cases hc : utf8.isCont s1 = true
            · rw [if_pos hc] at h
              have hc' := hc
              simp only [utf8.isCont, Bool.and_eq_true, decide_eq_true_eq] at hc'
              refine ⟨[s0, s1], t1, rfl, ?_, by simp, ?_, Or.inr ?_⟩
              · simp only [Prod.mk.injEq] at h
                rw [← h.2]; rfl
              · intro Y
                rw [← h]
                simp [utf8.DecodeRune, h1, h2, h3, hc]
              · intro b hb
                simp only [List.mem_cons, List.mem_singleton, List.not_mem_nil, or_false] at hb
                rcases hb with rfl | rfl <;> omega
            · rw [if_neg hc] at h
              exact bad h
        · rw [if_neg h3] at h
          by_cases h4 : s0 < 0xF0
          · rw [if_pos h4] at h
            match t, h with
            | [], h => exact bad h
            | [_], h => exact bad h
            | s1 :: s2 :: t2, h =>
              simp only at h
              by_cases hc1 : (decide (s1 < if s0 = 0xE0 then 0xA0 else 0x80) ||
                  decide ((if s0 = 0xED then 0x9F else 0xBF) < s1)) = true
              · rw [if_pos hc1] at h
                exact bad h
              · rw [if_neg hc1] at h
                by_cases hc2 : (!utf8.isCont s2) = true
                · rw [if_pos hc2] at h
                  exact bad h
                · rw [if_neg hc2] at h
                  have hc1' := hc1
                  simp only [Bool.or_eq_true, decide_eq_true_eq, not_or, not_lt] at hc1'
                  have hc2' := hc2
                  simp only [Bool.not_eq_true', Bool.not_eq_false, utf8.isCont, Bool.and_eq_true,
                    decide_eq_true_eq] at hc2'
                  refine ⟨[s0, s1, s2], t2, rfl, ?_, by simp, ?_, Or.inr ?_⟩
                  · simp only [Prod.mk.injEq] at h
                    rw [← h.2]; rfl
                  · intro Y
                    rw [← h]
                    simp only [utf8.DecodeRune, List.cons_append, List.nil_append, if_neg h1,
                      if_neg h2, if_neg h3, if_pos h4, if_neg hc1, if_neg hc2]
                  · intro b hb
                    simp only [List.mem_cons, List.mem_singleton, List.not_mem_nil, or_false] at hb
                    have hlo : 0x80 ≤ s1 := by
                      have := hc1'.1
                      split at this <;> omega
                    rcases hb with rfl | rfl | rfl <;> omega
          · rw [if_neg h4] at h
            by_cases h5 : s0 < 0xF5
            · rw [if_pos h5] at h
              match t, h with
              | [], h => exact bad h
              | [_], h => exact bad h
              | [_, _], h => exact bad h
              | s1 :: s2 :: s3 :: t3, h =>
                simp only at h
                by_cases hc1 : (decide (s1 < if s0 = 0xF0 then 0x90 else 0x80) ||
                    decide ((if s0 = 0xF4 then 0x8F else 0xBF) < s1)) = true
                · rw [if_pos hc1] at h
                  exact bad h
                · rw [if_neg hc1] at h
                  by_cases hc2 : (!utf8.isCont s2) = true
                  · rw [if_pos hc2] at h
                    exact bad h
                  · rw [if_neg hc2] at h
                    by_cases hc3 : (!utf8.isCont s3) = true
                    · rw [if_pos hc3] at h
                      exact bad h
                    · rw [if_neg hc3] at h
                      have hc1' := hc1
                      simp only [Bool.or_eq_true, decide_eq_true_eq, not_or, not_lt] at hc1'
                      have hc2' := hc2
                      simp only [Bool.not_eq_true', Bool.not_eq_false, utf8.isCont,
                        Bool.and_eq_true, decide_eq_true_eq] at hc2'
                      have hc3' := hc3
                      simp only [Bool.not_eq_true', Bool.not_eq_false, utf8.isCont,
                        Bool.and_eq_true, decide_eq_true_eq] at hc3'
                      refine ⟨[s0, s1, s2, s3], t3, rfl, ?_, by simp, ?_, Or.inr ?_⟩
                      · simp only [Prod.mk.injEq] at h
                        rw [← h.2]; rfl
                      · intro Y
                        rw [← h]
                        simp only [utf8.DecodeRune, List.cons_append, List.nil_append,
                          if_neg h1, if_neg h2, if_neg h3, if_neg h4, if_pos h5, if_neg hc1,
                          if_neg hc2, if_neg hc3]
                      · intro b hb
                        simp only [List.mem_cons, List.mem_singleton, List.not_mem_nil,
                          or_false] at hb
                        have hlo : 0x80 ≤ s1 := by
                          have := hc1'.1
                          split at this <;> omega
                        rcases hb with rfl | rfl | rfl | rfl <;> omega
            · rw [if_neg h5] at h
              exact bad h

/-- What `getEsc` accepts: the chunk begins with an item, followed by a non-empty rest,
and the same item is read whatever non-empty rest follows it. -/
theorem getEsc_some (chunk : Str) (r : Nat) (rest : Str)
    (h : filepath.getEsc chunk = some (r, rest)) :
    rest ≠ [] ∧ ∃ item, chunk = item ++ rest ∧ classItem item ∧
      ∀ Y, Y ≠ [] → filepath.getEsc (item ++ Y) = some (r, Y) := by
  cases chunk with
  | nil => simp [filepath.getEsc] at h
  | cons c cs =>
    unfold filepath.getEsc at h
    simp only at h
    by_cases hc : (decide (c = 45) || decide (c = 93)) = true
    · rw [if_pos hc] at h
      exact absurd h (by simp)
    · rw [if_neg hc] at h
      have hc' := hc
      simp only [Bool.or_eq_true, decide_eq_true_eq, not_or] at hc'
      by_cases h1 : (if c = 92 then cs else c :: cs) = []
      · rw [if_pos h1] at h
        exact absurd h (by simp)
      · rw [if_neg h1] at h
        generalize hd : utf8.DecodeRune (if c = 92 then cs else c :: cs) = d at h
        obtain ⟨r', n⟩ := d
        simp only at h
        by_cases h2 : ((decide (r' = utf8.RuneError) && decide (n = 1)) ||
            decide (List.drop n (if c = 92 then cs else c :: cs) = [])) = true
        · rw [if_pos h2] at h
          exact absurd h (by simp)
        · rw [if_neg h2] at h
          simp only [Option.some.injEq, Prod.mk.injEq] at h
          obtain ⟨rfl, hrest⟩ := h
          simp only [Bool.or_eq_true, Bool.and_eq_true, decide_eq_true_eq, not_or] at h2
          obtain ⟨hv, hne⟩ := h2
          obtain ⟨body, rest', hsplit, hlen, hbne, hstab, hshape⟩ :=
            decodeRune_valid _ r' n hd hv h1
          have hdrop : List.drop n (if c = 92 then cs else c :: cs) = rest' := by
            rw [hsplit, ← hlen, List.drop_left]
          rw [hdrop] at hrest hne
          subst hrest
          have hshape' : (∃ c, body = [c] ∧ c < 0x80) ∨ (body ≠ [] ∧ ∀ b ∈ body, 0x80 ≤ b) :=
            hshape.imp id (fun h0 => ⟨hbne, h0⟩)
          refine ⟨hne, ?_⟩
          by_cases h92 : c = 92
          · subst h92
            simp only [if_true] at hsplit
            refine ⟨92 :: body, by rw [hsplit]; rfl, ⟨[92], body, rfl, Or.inr rfl, hshape'⟩, ?_⟩
            intro Y hY
            have hbY : body ++ Y ≠ [] := by simp [hbne]
            unfold filepath.getEsc
            simp only [List.cons_append, if_true, hbY, if_false, hstab Y, ← hlen,
              List.drop_left, hY, decide_False, Bool.or_false]
            have : (decide (r' = utf8.RuneError) && decide (body.length = 1)) = false := by
              rw [Bool.eq_false_iff]
              simpa [hlen] using hv
            simp [this]
          · simp only [h92, if_false] at hsplit
            have hhead : body.head? = some c := by
              cases body with
              | nil => exact absurd rfl hbne
              | cons b bs =>
                simp only [List.cons_append, List.cons.injEq] at hsplit
                simp [hsplit.1]
            refine ⟨body, hsplit, ⟨[], body, rfl, Or.inl ⟨rfl, ?_, ?_, ?_⟩, hshape'⟩, ?_⟩
            · rw [hhead]; simpa using hc'.1
            · rw [hhead]; simpa using hc'.2
            · rw [hhead]; simpa using h92
            · intro Y hY
              cases body with
              | nil => exact absurd rfl hbne
              | cons b bs =>
                simp only [List.head?_cons, Option.some.injEq] at hhead
                subst hhead
                have hst := hstab Y
                rw [List.cons_append] at hst ⊢
                unfold filepath.getEsc
                have hl : n = (b :: bs).length := hlen.symm
                have hdr : List.drop n (b :: (bs ++ Y)) = Y := by
                  rw [hl, ← List.cons_append, List.drop_left]
                simp only [hc, Bool.false_eq_true, if_false, h92, List.cons_ne_nil, hst, hdr, hY,
                  decide_False, Bool.or_false]
                have : (decide (r' = utf8.RuneError) && decide (n = 1)) = false := by
                  rw [Bool.eq_false_iff]
                  simpa using hv
                simp [this]

theorem scanSplit_plain_step (b : Bool) (c : Nat) (cs : Str) (h92 : c ≠ 92) (h91 : c ≠ 91)
    (h93 : c ≠ 93) (h42 : c ≠ 42) :
    filepath.scanSplit b (c :: cs) =
      (c :: (filepath.scanSplit b cs).1, (filepath.scanSplit b cs).2) := by
  rw [filepath.scanSplit.eq_def]
  simp [h92, h91, h93, h42]

theorem scanSplit_esc (b : Bool) (d : Nat) (ds : Str) :
    filepath.scanSplit b (92 :: d :: ds) =
      (92 :: d :: (filepath.scanSplit b ds).1, (filepath.scanSplit b ds).2) := by
  rw [filepath.scanSplit.eq_def]
  simp

theorem scanSplit_open (b : Bool) (cs : Str) :
    filepath.scanSplit b (91 :: cs) =
      (91 :: (filepath.scanSplit true cs).1, (filepath.scanSplit true cs).2) := by
  rw [filepath.scanSplit.eq_def]
  simp

theorem scanSplit_close (b : Bool) (cs : Str) :
    filepath.scanSplit b (93 :: cs) =
      (93 :: (filepath.scanSplit false cs).1, (filepath.scanSplit false cs).2) := by
  rw [filepath.scanSplit.eq_def]
  simp

theorem scanSplit_star_in (cs : Str) :
    filepath.scanSplit true (42 :: cs) =
      (42 :: (filepath.scanSplit true cs).1, (filepath.scanSplit true cs).2) := by
  rw [filepath.scanSplit.eq_def]
  simp

theorem scanSplit_star_out (cs : Str) : filepath.scanSplit false (42 :: cs) = ([], 42 :: cs) := by
  rw [filepath.scanSplit.eq_def]
  simp

theorem scanSplit_high (b : Bool) (body Y : Str) (h : ∀ x ∈ body, 0x80 ≤ x) :
    filepath.scanSplit b (body ++ Y) =
      (body ++ (filepath.scanSplit b Y).1, (filepath.scanSplit b Y).2) := by
  induction body with
  | nil => rfl
  | cons c cs ih =>
    have hc : 0x80 ≤ c := h c (by simp)
    rw [List.cons_append, scanSplit_plain_step b c _ (by omega) (by omega) (by omega) (by omega),
      ih (fun x hx => h x (by simp [hx]))]
    rfl

/-- Inside a bracket expression `scanChunk` passes over an item. -/
theorem scanSplit_item (item Y : Str) (h : classItem item) :
    filepath.scanSplit true (item ++ Y) =
      (item ++ (filepath.scanSplit true Y).1, (filepath.scanSplit true Y).2) := by
  obtain ⟨esc, body, rfl, hesc, hbody⟩ := h
  rcases hesc with ⟨rfl, h45, h93, h92⟩ | rfl
  · rw [List.nil_append]
    rcases hbody with ⟨c, rfl, hc⟩ | ⟨_, hb⟩
    · simp only [List.head?_cons, ne_eq, Option.some.injEq] at h45 h93 h92
      rw [List.singleton_append]
      by_cases h91 : c = 91
      · subst h91; rw [scanSplit_open]; rfl
      · by_cases h42 : c = 42
        · subst h42; rw [scanSplit_star_in]; rfl
        · rw [scanSplit_plain_step true c Y h92 h91 h93 h42]; rfl
    · exact scanSplit_high true body Y hb
  · rcases hbody with ⟨c, rfl, hc⟩ | ⟨hne, hb⟩
    · show filepath.scanSplit true (92 :: c :: Y) = _
      rw [scanSplit_esc]; rfl
    · cases body with
      | nil => exact absurd rfl hne
      | cons d ds =>
        show filepath.scanSplit true (92 :: d :: (ds ++ Y)) = _
        rw [scanSplit_esc, scanSplit_high true ds Y (fun x hx => hb x (by simp [hx]))]
        rfl

theorem classItem_ne_nil (item : Str) (h : classItem item) : item ≠ [] := by
  obtain ⟨esc, body, rfl, hesc, hbody⟩ := h
  rcases hbody with ⟨c, rfl, _⟩ | ⟨hne, _⟩
  · simp
  · simp [hne]

/-- What the range loop of a bracket expression accepts: the chunk begins with the
expression up to its closing bracket, `scanChunk` passes over it and leaves the bracket
expression there, and the same is accepted whatever follows. -/
theorem classLoop_some : ∀ (fuel r : Nat) (chunk : Str) (m seen m' : Bool) (rest : Str),
    filepath.classLoop r fuel chunk m seen = some (m', rest) →
      ∃ pre, chunk = pre ++ rest ∧ pre ≠ [] ∧
        (∀ Y, filepath.scanSplit true (pre ++ Y) =
          (pre ++ (filepath.scanSplit false Y).1, (filepath.scanSplit false Y).2)) ∧
        (∀ (Y : Str) (r2 : Nat) (m2 : Bool),
          ∃ m3, filepath.classLoop r2 fuel (pre ++ Y) m2 seen = some (m3, Y)) := by
  intro fuel
  induction fuel with
  | zero => intro r chunk m seen m' rest h; simp [filepath.classLoop] at h
  | succ fuel ih =>
    intro r chunk m seen m' rest h
    rw [filepath.classLoop] at h
    by_cases h1 : (decide (chunk.head? = some 93) && seen) = true
    · rw [if_pos h1] at h
      simp only [Option.some.injEq, Prod.mk.injEq] at h
      obtain ⟨_, hrest⟩ := h
      simp only [Bool.and_eq_true, decide_eq_true_eq] at h1
      obtain ⟨hh, hseen⟩ := h1
      subst hseen
      cases chunk with
      | nil => simp at hh
      | cons c cs =>
        simp only [List.head?_cons, Option.some.injEq] at hh
        subst hh
        simp only [List.tail_cons] at hrest
        subst hrest
        refine ⟨[93], rfl, by simp, ?_, ?_⟩
        · intro Y
          rw [List.singleton_append, scanSplit_close]; rfl
        · intro Y r2 m2
          exact ⟨m2, by rw [filepath.classLoop]; simp⟩
    · rw [if_neg h1] at h
      cases he : filepath.getEsc chunk with
      | none => rw [he] at h; exact absurd h (by simp)
      | some p =>
        obtain ⟨lo, chunk1⟩ := p
        rw [he] at h
        simp only at h
        obtain ⟨hc1ne, item, hchunk, hitem, hstab⟩ := getEsc_some chunk lo chunk1 he
        have hine := classItem_ne_nil item hitem
        have hhead : ∀ Y, (item ++ Y).head? = chunk.head? := by
          intro Y
          rw [hchunk]
          cases item with
          | nil => exact absurd rfl hine
          | cons a as => rfl
        by_cases h2 : chunk1.head? = some 45
        · rw [if_pos h2] at h
          cases chunk1 with
          | nil => simp at h2
          | cons d t =>
            simp only [List.head?_cons, Option.some.injEq] at h2
            subst h2
            simp only [List.tail_cons] at h
            cases he2 : filepath.getEsc t with
            | none => rw [he2] at h; exact absurd h (by simp)
            | some q =>
              obtain ⟨hi, chunk2⟩ := q
              rw [he2] at h
              simp only at h
              obtain ⟨hc2ne, item2, ht, hitem2, hstab2⟩ := getEsc_some t hi chunk2 he2
              obtain ⟨pre2, hpre2, hpre2ne, hscan2, hloop2⟩ := ih r chunk2 _ true m' rest h
              refine ⟨item ++ 45 :: (item2 ++ pre2), ?_, by simp [hine], ?_, ?_⟩
              · rw [hchunk, ht, hpre2]; simp
              · intro Y
                have e : item ++ 45 :: (item2 ++ pre2) ++ Y =
                    item ++ (45 :: (item2 ++ (pre2 ++ Y))) := by simp
                rw [e, scanSplit_item item _ hitem,
                  scanSplit_plain_step true 45 _ (by decide) (by decide) (by decide) (by decide),
                  scanSplit_item item2 _ hitem2, hscan2 Y]
                simp
              · intro Y r2 m2
                have e : item ++ 45 :: (item2 ++ pre2) ++ Y =
                    item ++ (45 :: (item2 ++ (pre2 ++ Y))) := by simp
                obtain ⟨m3, hm3⟩ := hloop2 Y r2 (m2 || (decide (lo ≤ r2) && decide (r2 ≤ hi)))
                refine ⟨m3, ?_⟩
                rw [e, filepath.classLoop]
                have hh := hhead (45 :: (item2 ++ (pre2 ++ Y)))
                rw [hh, if_neg h1, hstab _ (by simp)]
                simp only [List.head?_cons, if_true, List.tail_cons]
                rw [hstab2 _ (by simp [hpre2ne])]
                exact hm3
        · rw [if_neg h2] at h
          obtain ⟨pre2, hpre2, hpre2ne, hscan2, hloop2⟩ := ih r chunk1 _ true m' rest h
          have h2' : pre2.head? ≠ some 45 := by
            rw [hpre2] at h2
            cases pre2 with
            | nil => exact absurd rfl hpre2ne
            | cons a as => simpa using h2
          refine ⟨item ++ pre2, ?_, by simp [hine], ?_, ?_⟩
          · rw [hchunk, hpre2]; simp
          · intro Y
            rw [List.append_assoc, scanSplit_item item _ hitem, hscan2 Y]
            simp
          · intro Y r2 m2
            obtain ⟨m3, hm3⟩ := hloop2 Y r2 (m2 || (decide (lo ≤ r2) && decide (r2 ≤ lo)))
            refine ⟨m3, ?_⟩
            rw [List.append_assoc, filepath.classLoop]
            have hh := hhead (pre2 ++ Y)
            have h2'' : (pre2 ++ Y).head? ≠ some 45 := by
              cases pre2 with
              | nil => exact absurd rfl hpre2ne
              | cons a as => simpa using h2'
            rw [hh, if_neg h1, hstab _ (by simp [hpre2ne])]
            simp only [if_neg h2'']
            exact hm3

/-! ## The syntax check of a pattern as one pass over its bytes -/

theorem classLoop_mono (r : Nat) : ∀ (fuel : Nat) (chunk : Str) (m seen : Bool) (x : Bool × Str),
    filepath.classLoop r fuel chunk m seen = some x →
      filepath.classLoop r (fuel + 1) chunk m seen = some x := by
  intro fuel
  induction fuel with
  | zero => intro chunk m seen x h; simp [filepath.classLoop] at h
  | succ fuel ih =>
    intro chunk m seen x h
    rw [filepath.classLoop] at h ⊢
    by_cases h1 : (decide (chunk.head? = some 93) && seen) = true
    · rw [if_pos h1] at h ⊢; exact h
    · rw [if_neg h1] at h ⊢
      cases he : filepath.getEsc chunk with
      | none => rw [he] at h; exact absurd h (by simp)
      | some p =>
        obtain ⟨lo, chunk1⟩ := p
        rw [he] at h
        simp only at h ⊢
        by_cases h2 : chunk1.head? = some 45
        · rw [if_pos h2] at h ⊢
          cases he2 : filepath.getEsc chunk1.tail with
          | none => rw [he2] at h; exact absurd h (by simp)
          | some q =>
            obtain ⟨hi, chunk2⟩ := q
            rw [he2] at h
            exact ih _ _ _ _ h
        · rw [if_neg h2] at h ⊢
          exact ih _ _ _ _ h

theorem classLoop_mono_add (r : Nat) (fuel extra : Nat) (chunk : Str) (m seen : Bool)
    (x : Bool × Str) (h : filepath.classLoop r fuel chunk m seen = some x) :
    filepath.classLoop r (fuel + extra) chunk m seen = some x := by
  induction extra with
  | zero => exact h
  | succ extra ih => exact classLoop_mono r _ chunk m seen x ih

theorem classLoop_enough (r : Nat) (chunk : Str) (m seen : Bool) (extra : Nat) :
    filepath.classLoop r (chunk.length + 1 + extra) chunk m seen =
      filepath.classLoop r (chunk.length + 1) chunk m seen := by
  induction extra with
  | zero => rfl
  | succ extra ih =>
    rw [← ih]
    exact classLoop_fuel r (chunk.length + 1 + extra) chunk m seen (by omega)

theorem matchChunkLoop_none_iff (fuel : Nat) (q s : Str) (f : Bool) (h : q.length < fuel) :
    filepath.matchChunkLoop fuel q s f = none ↔ filepath.matchChunk q [] = none := by
  obtain ⟨extra, rfl⟩ : ∃ extra, fuel = q.length + 1 + extra := ⟨fuel - q.length - 1, by omega⟩
  have : ∀ extra, filepath.matchChunkLoop (q.length + 1 + extra) q s f =
      filepath.matchChunkLoop (q.length + 1) q s f := by
    intro extra
    induction extra with
    | zero => rfl
    | succ extra ih =>
      rw [← ih]
      exact matchChunkLoop_fuel (q.length + 1 + extra) q s f (by omega)
  rw [this]
  exact matchChunkLoop_none_indep _ q s [] f false

/-- A byte other than `[` and the backslash is passed over by the syntax check. -/
theorem bad_cons (c : Nat) (cs : Str) (h91 : c ≠ 91) (h92 : c ≠ 92) :
    filepath.matchChunk (c :: cs) [] = none ↔ filepath.matchChunk cs [] = none := by
  unfold filepath.matchChunk
  rw [List.length_cons, filepath.matchChunkLoop]
  simp only [h91, if_false, h92]
  by_cases h63 : c = 63
  · simp only [h63, if_true]
    exact (matchChunkLoop_none_iff _ cs _ _ (by omega)).trans
      (matchChunkLoop_none_iff _ cs _ _ (by omega)).symm
  · simp only [h63, if_false]
    exact (matchChunkLoop_none_iff _ cs _ _ (by omega)).trans
      (matchChunkLoop_none_iff _ cs _ _ (by omega)).symm

theorem bad_esc (d : Nat) (ds : Str) :
    filepath.matchChunk (92 :: d :: ds) [] = none ↔ filepath.matchChunk ds [] = none := by
  unfold filepath.matchChunk
  rw [List.length_cons, filepath.matchChunkLoop]
  simp only [show (92 : Nat) ≠ 91 by decide, if_false, show (92 : Nat) ≠ 63 by decide, if_true]
  exact (matchChunkLoop_none_iff _ ds _ _ (by simp only [List.length_cons]; omega)).trans
    (matchChunkLoop_none_iff _ ds _ _ (by omega)).symm

theorem bad_esc_end : filepath.matchChunk [92] [] = none := by decide

/-- At a `[` the syntax check runs the range loop and goes on after the closing bracket. -/
theorem bad_open (cs : Str) :
    filepath.matchChunk (91 :: cs) [] = none ↔
      ∀ m rest,
        filepath.classLoop 0 ((if cs.head? = some 94 then cs.tail else cs).length + 1)
            (if cs.head? = some 94 then cs.tail else cs) false false = some (m, rest) →
          filepath.matchChunk rest [] = none := by
  unfold filepath.matchChunk
  rw [List.length_cons, filepath.matchChunkLoop]
  simp only [if_true, List.isEmpty_nil, Bool.or_true, decide_eq_true_eq]
  cases hcl : filepath.classLoop 0 ((if cs.head? = some 94 then cs.tail else cs).length + 1)
      (if cs.head? = some 94 then cs.tail else cs) false false with
  | none => simp
  | some p =>
    obtain ⟨m, rest⟩ := p
    have hl := classLoop_length _ _ _ _ _ _ _ hcl
    have hle : (if cs.head? = some 94 then cs.tail else cs).length ≤ cs.length := by
      split
      · simp
      · exact le_refl _
    simp only [Option.some.injEq, Prod.mk.injEq, and_imp, forall_apply_eq_imp_iff,
      forall_eq']
    exact (matchChunkLoop_none_iff _ rest _ _ (by omega)).trans
      (matchChunkLoop_none_iff _ rest _ _ (by omega)).symm

theorem bad_nil : filepath.matchChunk [] [] ≠ none := by decide

theorem scanSplit_append : ∀ (n : Nat) (b : Bool) (q : Str), q.length ≤ n →
    (filepath.scanSplit b q).1 ++ (filepath.scanSplit b q).2 = q := by
  intro n
  induction n with
  | zero =>
    intro b q h
    have : q = [] := List.length_eq_zero.mp (by omega)
    subst this
    simp [filepath.scanSplit]
  | succ n ih =>
    intro b q h
    cases q with
    | nil => simp [filepath.scanSplit]
    | cons c cs =>
      simp only [List.length_cons] at h
      by_cases h92 : c = 92
      · subst h92
        cases cs with
        | nil => simp [filepath.scanSplit]
        | cons d ds =>
          simp only [List.length_cons] at h
          rw [scanSplit_esc]
          simp [ih b ds (by omega)]
      · by_cases h91 : c = 91
        · subst h91
          rw [scanSplit_open]
          simp [ih true cs (by omega)]
        · by_cases h93 : c = 93
          · subst h93
            rw [scanSplit_close]
            simp [ih false cs (by omega)]
          · by_cases h42 : c = 42
            · subst h42
              cases b with
              | true => rw [scanSplit_star_in]; simp [ih true cs (by omega)]
              | false => rw [scanSplit_star_out]; simp
            · rw [scanSplit_plain_step b c cs h92 h91 h93 h42]
              simp [ih b cs (by omega)]

theorem scanSplit_true_head (cs : Str) : (filepath.scanSplit true cs).1.head? = cs.head? := by
  cases cs with
  | nil => simp [filepath.scanSplit]
  | cons c t =>
    by_cases h92 : c = 92
    · subst h92
      cases t with
      | nil => simp [filepath.scanSplit]
      | cons d ds => rw [scanSplit_esc]; rfl
    · by_cases h91 : c = 91
      · subst h91; rw [scanSplit_open]; rfl
      · by_cases h93 : c = 93
        · subst h93; rw [scanSplit_close]; rfl
        · by_cases h42 : c = 42
          · subst h42; rw [scanSplit_star_in]; rfl
          · rw [scanSplit_plain_step true c t h92 h91 h93 h42]; rfl

/-- Stripping the negation mark commutes with cutting the chunk inside a bracket
expression. -/
theorem scanSplit_true_caret (cs : Str) :
    (if (filepath.scanSplit true cs).1.head? = some 94 then (filepath.scanSplit true cs).1.tail
        else (filepath.scanSplit true cs).1) =
        (filepath.scanSplit true (if cs.head? = some 94 then cs.tail else cs)).1 ∧
      (filepath.scanSplit true cs).2 =
        (filepath.scanSplit true (if cs.head? = some 94 then cs.tail else cs)).2 := by
  rw [scanSplit_true_head]
  by_cases h : cs.head? = some 94
  · rw [if_pos h, if_pos h]
    cases cs with
    | nil => simp at h
    | cons c t =>
      simp only [List.head?_cons, Option.some.injEq] at h
      subst h
      rw [scanSplit_plain_step true 94 t (by decide) (by decide) (by decide) (by decide)]
      exact ⟨rfl, rfl⟩
  · rw [if_neg h, if_neg h]
    exact ⟨rfl, rfl⟩

theorem class_split_none (X : Str)
    (h : filepath.classLoop 0 (X.length + 1) X false false = none) :
    filepath.classLoop 0 ((filepath.scanSplit true X).1.length + 1)
      (filepath.scanSplit true X).1 false false = none := by
  have happ := scanSplit_append X.length true X (le_refl _)
  cases hP : filepath.classLoop 0 ((filepath.scanSplit true X).1.length + 1)
      (filepath.scanSplit true X).1 false false with
  | none => rfl
  | some x =>
    exfalso
    obtain ⟨m, restP⟩ := x
    obtain ⟨pre, hpre, _, _, hloop⟩ := classLoop_some _ _ _ _ _ _ _ hP
    obtain ⟨m3, hm3⟩ := hloop (restP ++ (filepath.scanSplit true X).2) 0 false
    have e : pre ++ (restP ++ (filepath.scanSplit true X).2) = X := by
      rw [← List.append_assoc, ← hpre, happ]
    rw [e] at hm3
    have hlen : X.length + 1 =
        (filepath.scanSplit true X).1.length + 1 + (filepath.scanSplit true X).2.length := by
      rw [← congrArg List.length happ, List.length_append]
      omega
    have := classLoop_mono_add 0 _ (filepath.scanSplit true X).2.length X false false _ hm3
    rw [← hlen, h] at this
    exact absurd this (by simp)

theorem class_split_some (X : Str) (m : Bool) (after : Str)
    (h : filepath.classLoop 0 (X.length + 1) X false false = some (m, after)) :
    (filepath.scanSplit true X).2 = (filepath.scanSplit false after).2 ∧
      ∃ m3, filepath.classLoop 0 ((filepath.scanSplit true X).1.length + 1)
        (filepath.scanSplit true X).1 false false = some (m3, (filepath.scanSplit false after).1) := by
  obtain ⟨pre, hpre, _, hscan, hloop⟩ := classLoop_some _ _ _ _ _ _ _ h
  have hs := hscan after
  rw [← hpre] at hs
  rw [hs]
  refine ⟨rfl, ?_⟩
  obtain ⟨m3, hm3⟩ := hloop (filepath.scanSplit false after).1 0 false
  refine ⟨m3, ?_⟩
  have hle : (filepath.scanSplit false after).1.length ≤ after.length := by
    have := congrArg List.length (scanSplit_append after.length false after (le_refl _))
    rw [List.length_append] at this
    omega
  obtain ⟨extra, hextra⟩ : ∃ extra, X.length + 1 =
      (pre ++ (filepath.scanSplit false after).1).length + 1 + extra := by
    refine ⟨after.length - (filepath.scanSplit false after).1.length, ?_⟩
    rw [hpre]
    simp only [List.length_append]
    omega
  rw [hextra, classLoop_enough] at hm3
  exact hm3

/-- Cutting a chunk where `scanChunk` cuts it splits the syntax check: the whole is
malformed exactly when the chunk or what follows it is. -/
theorem bad_scanSplit : ∀ (n : Nat) (q : Str), q.length ≤ n →
    (filepath.matchChunk q [] = none ↔
      filepath.matchChunk (filepath.scanSplit false q).1 [] = none ∨
        filepath.matchChunk (filepath.scanSplit false q).2 [] = none) := by
  intro n
  induction n with
  | zero =>
    intro q h
    have : q = [] := List.length_eq_zero.mp (by omega)
    subst this
    simp [filepath.scanSplit]
  | succ n ih =>
    intro q h
    cases q with
    | nil => simp [filepath.scanSplit]
    | cons c cs =>
      simp only [List.length_cons] at h
      by_cases h92 : c = 92
      · subst h92
        cases cs with
        | nil => simp [filepath.scanSplit, bad_esc_end]
        | cons d ds =>
          simp only [List.length_cons] at h
          rw [scanSplit_esc, bad_esc, bad_esc]
          exact ih ds (by omega)
      · by_cases h91 : c = 91
        · subst h91
          rw [scanSplit_open]
          simp only
          rw [bad_open, bad_open]
          obtain ⟨hc1, hc2⟩ := scanSplit_true_caret cs
          rw [hc1, hc2]
          generalize hX : (if cs.head? = some 94 then cs.tail else cs) = X
          have hXl : X.length ≤ cs.length := by
            rw [← hX]
            split
            · simp
            · exact le_refl _
          cases hcl : filepath.classLoop 0 (X.length + 1) X false false with
          | none =>
            rw [class_split_none X hcl]
            simp
          | some x =>
            obtain ⟨m, after⟩ := x
            obtain ⟨hr, m3, hm3⟩ := class_split_some X m after hcl
            have hl := classLoop_length _ _ _ _ _ _ _ hcl
            rw [hm3, hr]
            simp only [Option.some.injEq, Prod.mk.injEq, and_imp, forall_apply_eq_imp_iff,
              forall_eq']
            exact ih after (by omega)
        · by_cases h93 : c = 93
          · subst h93
            rw [scanSplit_close, bad_cons 93 cs (by decide) (by decide)]
            simp only
            rw [bad_cons 93 _ (by decide) (by decide)]
            exact ih cs (by omega)
          · by_cases h42 : c = 42
            · subst h42
              rw [scanSplit_star_out]
              simp [bad_nil]
            · rw [scanSplit_plain_step false c cs h92 h91 h93 h42, bad_cons c cs h91 h92]
              simp only
              rw [bad_cons c _ h91 h92]
              exact ih cs (by omega)

theorem bad_dropWhile_star (p : Str) :
    filepath.matchChunk (p.dropWhile (· == 42)) [] = none ↔ filepath.matchChunk p [] = none := by
  induction p with
  | nil => rfl
  | cons c cs ih =>
    by_cases h : c = 42
    · subst h
      rw [List.dropWhile_cons_of_pos (by simp), ih, bad_cons 42 cs (by decide) (by decide)]
    · rw [List.dropWhile_cons_of_neg (by simpa using h)]

/-- The matcher and the one-pass check of the bytes of a pattern: when the matcher rejects
the pattern on some name the one-pass check fails, and a pattern whose one-pass check
fails matches no name. -/
theorem match_bad : ∀ (n : Nat) (p name : Str), p.length ≤ n →
    (filepath.Match p name = none → filepath.matchChunk p [] = none) ∧
      (filepath.matchChunk p [] = none → filepath.Match p name ≠ some true) := by
  intro n
  induction n with
  | zero =>
    intro p name h
    have : p = [] := List.length_eq_zero.mp (by omega)
    subst this
    exact ⟨by simp [filepath.Match, filepath.matchLoop], fun hb => absurd hb bad_nil⟩
  | succ n ih =>
    intro p name h
    by_cases hp : p = []
    · subst hp
      exact ⟨by simp [filepath.Match, filepath.matchLoop], fun hb => absurd hb bad_nil⟩
    · have hl := scanChunk_rest_lt p hp
      have hnil := scanChunk_rest_nil p
      have hS := bad_scanSplit _ (p.dropWhile (· == 42)) (le_refl _)
      rw [bad_dropWhile_star] at hS
      have hsc : filepath.scanChunk p =
          (decide (p.head? = some 42), (filepath.scanSplit false (p.dropWhile (· == 42))).1,
            (filepath.scanSplit false (p.dropWhile (· == 42))).2) := rfl
      unfold filepath.Match
      rw [filepath.matchLoop]
      simp only [hp, if_false]
      rw [hsc] at hl hnil ⊢
      simp only at hl hnil ⊢
      rw [hS]
      generalize (filepath.scanSplit false (p.dropWhile (· == 42))).1 = chunk at *
      generalize (filepath.scanSplit false (p.dropWhile (· == 42))).2 = rest at *
      generalize decide (p.head? = some 42) = star at *
      obtain ⟨extra, hextra⟩ : ∃ extra, p.length = rest.length + 1 + extra :=
        ⟨p.length - rest.length - 1, by omega⟩
      have hM : ∀ t, filepath.matchLoop p.length rest t = filepath.Match rest t := by
        intro t
        rw [hextra]
        exact matchLoop_enough rest t extra
      simp only [hM]
      have hfalse : ((some false : Option Bool) = none →
          filepath.matchChunk chunk [] = none ∨ filepath.matchChunk rest [] = none) ∧
          (filepath.matchChunk chunk [] = none ∨ filepath.matchChunk rest [] = none →
            (some false : Option Bool) ≠ some true) :=
        ⟨fun h0 => absurd h0 (by simp), fun _ => by simp⟩
      by_cases hsc2 : (star && decide (chunk = [])) = true
      · rw [if_pos hsc2]
        simp only [Bool.and_eq_true, decide_eq_true_eq] at hsc2
        obtain ⟨_, hc⟩ := hsc2
        subst hc
        rw [hnil rfl]
        refine ⟨fun h0 => absurd h0 (by simp), fun hb => ?_⟩
        rcases hb with hb | hb
        · exact absurd hb bad_nil
        · exact absurd hb bad_nil
      · rw [if_neg hsc2]
        cases hm : filepath.matchChunk chunk name with
        | none =>
          exact ⟨fun _ => Or.inl ((matchChunk_none_indep chunk name []).mp hm),
            fun _ => by simp⟩
        | some r =>
          have hne : filepath.matchChunk chunk [] ≠ none := fun h0 => by
            rw [(matchChunk_none_indep chunk [] name).mp h0] at hm
            exact absurd hm (by simp)
          have hrest : ∀ t, (filepath.Match rest t = none →
              filepath.matchChunk chunk [] = none ∨ filepath.matchChunk rest [] = none) ∧
              (filepath.matchChunk chunk [] = none ∨ filepath.matchChunk rest [] = none →
                filepath.Match rest t ≠ some true) := fun t =>
            ⟨fun h0 => Or.inr ((ih rest t (by omega)).1 h0),
              fun hb => (ih rest t (by omega)).2 (hb.resolve_left hne)⟩
          have hst := starLoop_ne_none chunk (decide (rest = [])) name
            (by rw [hm]; simp) name
          simp only
          cases r with
          | some t =>
            by_cases hg : (decide (t = []) || decide (rest ≠ [])) = true
            · simp only [hg, if_true]
              exact hrest t
            · simp only [hg]
              cases star with
              | false => simp
              | true =>
                simp only [if_true]
                cases hs : filepath.starLoop chunk (decide (rest = [])) name with
                | none => exact absurd hs hst
                | some u =>
                  cases u with
                  | none => simp
                  | some v => exact hrest v
          | none =>
            simp only
            cases star with
            | false => simp
            | true =>
              simp only [if_true]
              cases hs : filepath.starLoop chunk (decide (rest = [])) name with
              | none => exact absurd hs hst
              | some u =>
                cases u with
                | none => simp
                | some v => exact hrest v

/-! ## Collapsing pairs of stars keeps a malformed pattern malformed -/

theorem collapseStars_pair (rest : Str) :
    collapseStars (42 :: 42 :: rest) = 42 :: collapseStars rest := by
  rw [collapseStars]

theorem collapseStars_cons (c : Nat) (rest : Str) (h : c ≠ 42 ∨ rest.head? ≠ some 42) :
    collapseStars (c :: rest) = c :: collapseStars rest := by
  cases rest with
  | nil => simp [collapseStars]
  | cons d ds =>
    by_cases hc : c = 42
    · subst hc
      have hd : d ≠ 42 := by
        rcases h with h | h
        · exact absurd rfl h
        · simpa using h
      rw [collapseStars]
      intro rest2 _ h1
      simp only [List.cons.injEq] at h1
      exact hd h1.1
    · rw [collapseStars]
      intro rest2 h1 _
      exact hc h1

theorem collapseStars_nil : collapseStars [] = [] := by
  rw [collapseStars]

theorem replaceLoop_stars (s : Str) :
    strings.replaceLoop [42, 42] [42] 0 s = collapseStars s := by
  induction s using collapseStars.induct with
  | case1 rest ih =>
    rw [collapseStars_pair, ← ih]
    simp [strings.replaceLoop, List.isPrefixOf]
  | case2 c rest hne ih =>
    have hn : ¬ [42, 42] <+: c :: rest := by
      rintro ⟨t, ht⟩
      simp at ht
      exact hne t ht.1.symm (by rw [← ht.2])
    have hc : c ≠ 42 ∨ rest.head? ≠ some 42 := by
      by_cases h1 : c = 42
      · right
        intro h2
        cases rest with
        | nil => simp at h2
        | cons d ds =>
          simp only [List.head?_cons, Option.some.injEq] at h2
          exact hne ds h1 (by rw [h2])
      · exact Or.inl h1
    rw [collapseStars_cons c rest hc, ← ih, strings.replaceLoop]
    have : List.isPrefixOf [42, 42] (c :: rest) = false := by
      rw [Bool.eq_false_iff]; exact fun h => hn (List.isPrefixOf_iff_prefix.mp h)
    simp [this]
  | case3 => rw [collapseStars_nil]; rfl

/-- The rewriting of a directory rule is the collapsing of its pairs of stars. -/
theorem replaceAll_stars (s : Str) :
    strings.ReplaceAll s (str "**") (str "*") = collapseStars s := by
  rw [str_starstar, str_star]
  unfold strings.ReplaceAll
  simp only [show ([42, 42] : Str) ≠ [42] by decide, if_false]
  exact replaceLoop_stars s

theorem collapseStars_cases (X : Str) :
    X = [] ∨ (∃ Z, X = 42 :: 42 :: Z ∧ collapseStars X = 42 :: collapseStars Z) ∨
      ∃ c X1, X = c :: X1 ∧ (c ≠ 42 ∨ X1.head? ≠ some 42) ∧
        collapseStars X = c :: collapseStars X1 := by
  cases X with
  | nil => left; rfl
  | cons c X1 =>
    right
    by_cases h : c ≠ 42 ∨ X1.head? ≠ some 42
    · exact Or.inr ⟨c, X1, rfl, h, collapseStars_cons c X1 h⟩
    · left
      simp only [not_or, not_not] at h
      obtain ⟨rfl, h2⟩ := h
      cases X1 with
      | nil => simp at h2
      | cons d Z =>
        simp only [List.head?_cons, Option.some.injEq] at h2
        subst h2
        exact ⟨Z, rfl, collapseStars_pair Z⟩

theorem collapseStars_head (X : Str) : (collapseStars X).head? = X.head? := by
  rcases collapseStars_cases X with rfl | ⟨Z, rfl, h⟩ | ⟨c, X1, rfl, _, h⟩
  · rw [collapseStars_nil]
  · rw [h]; rfl
  · rw [h]; rfl

theorem collapseStars_eq_nil (X : Str) (h : collapseStars X = []) : X = [] := by
  rcases collapseStars_cases X with rfl | ⟨Z, rfl, h1⟩ | ⟨c, X1, rfl, _, h1⟩
  · rfl
  · rw [h1] at h; exact absurd h (by simp)
  · rw [h1] at h; exact absurd h (by simp)

theorem collapseStars_length : ∀ (n : Nat) (X : Str), X.length ≤ n →
    (collapseStars X).length ≤ X.length := by
  intro n
  induction n with
  | zero =>
    intro X h
    have : X = [] := List.length_eq_zero.mp (by omega)
    subst this
    rw [collapseStars_nil]
  | succ n ih =>
    intro X h
    rcases collapseStars_cases X with rfl | ⟨Z, rfl, h1⟩ | ⟨c, X1, rfl, _, h1⟩
    · rw [collapseStars_nil]
    · simp only [List.length_cons] at h
      have := ih Z (by omega)
      rw [h1]
      simp only [List.length_cons]
      omega
    · simp only [List.length_cons] at h
      have := ih X1 (by omega)
      rw [h1]
      simp only [List.length_cons]
      omega

/-- A byte at the head of the collapsed string is the head of the string, and what
follows it is the collapsed rest, one more star being dropped when it opens a pair. -/
theorem collapseStars_cons_inv (X : Str) (c : Nat) (W : Str) (h : collapseStars X = c :: W) :
    (∃ X1, X = c :: X1 ∧ W = collapseStars X1) ∨
      (c = 42 ∧ ∃ Z, X = 42 :: 42 :: Z ∧ W = collapseStars Z) := by
  rcases collapseStars_cases X with rfl | ⟨Z, rfl, h1⟩ | ⟨d, X1, rfl, _, h1⟩
  · rw [collapseStars_nil] at h; exact absurd h (by simp)
  · rw [h1] at h
    simp only [List.cons.injEq] at h
    exact Or.inr ⟨h.1.symm, Z, rfl, h.2.symm⟩
  · rw [h1] at h
    simp only [List.cons.injEq] at h
    obtain ⟨rfl, rfl⟩ := h
    exact Or.inl ⟨X1, rfl, rfl⟩

theorem collapseStars_append_inv (a : Str) (h42 : 42 ∉ a) : ∀ (X W : Str),
    collapseStars X = a ++ W → ∃ X1, X = a ++ X1 ∧ W = collapseStars X1 := by
  induction a with
  | nil => intro X W h; exact ⟨X, rfl, h.symm⟩
  | cons c cs ih =>
    intro X W h
    have hc : c ≠ 42 := fun h0 => h42 (by simp [h0])
    have hcs : 42 ∉ cs := fun h0 => h42 (by simp [h0])
    rcases collapseStars_cons_inv X c (cs ++ W) h with ⟨X1, rfl, h1⟩ | ⟨h0, _⟩
    · obtain ⟨X2, rfl, h2⟩ := ih hcs X1 W h1.symm
      exact ⟨X2, rfl, h2⟩
    · exact absurd h0 hc

theorem getEsc_star (Z : Str) (h : Z ≠ []) : filepath.getEsc (42 :: Z) = some (42, Z) := by
  unfold filepath.getEsc
  simp [utf8.DecodeRune, utf8.RuneError, h]

theorem getEsc_esc_star (Z : Str) (h : Z ≠ []) :
    filepath.getEsc (92 :: 42 :: Z) = some (42, Z) := by
  unfold filepath.getEsc
  simp [utf8.DecodeRune, utf8.RuneError, h]

/-- An item read from the collapsed string is read from the string itself; what is left
is the collapsed rest, or the string has one more star there. -/
theorem getEsc_collapse (X : Str) (r : Nat) (W : Str)
    (h : filepath.getEsc (collapseStars X) = some (r, W)) :
    ∃ X1, filepath.getEsc X = some (r, X1) ∧
      (W = collapseStars X1 ∨ ∃ Z, X1 = 42 :: Z ∧ W = collapseStars Z) := by
  obtain ⟨hW, item, hsplit, hitem, hstab⟩ := getEsc_some _ r W h
  by_cases h42 : 42 ∈ item
  · obtain ⟨esc, body, rfl, hesc, hbody⟩ := hitem
    have hb : body = [42] := by
      rcases hbody with ⟨c, rfl, hc⟩ | ⟨_, hb⟩
      · rcases hesc with ⟨rfl, _⟩ | rfl
        · simp only [List.nil_append, List.mem_singleton] at h42
          rw [← h42]
        · simp only [List.singleton_append, List.mem_cons, List.mem_singleton,
            show (42 : Nat) ≠ 92 by decide, false_or, List.not_mem_nil, or_false] at h42
          rw [← h42]
      · exfalso
        rcases hesc with ⟨rfl, _⟩ | rfl
        · have := hb 42 (by simpa using h42)
          omega
        · simp only [List.singleton_append, List.mem_cons,
            show (42 : Nat) ≠ 92 by decide, false_or] at h42
          have := hb 42 h42
          omega
    subst hb
    have hr : r = 42 := by
      have h2 := hstab W hW
      rcases hesc with ⟨rfl, _⟩ | rfl
      · rw [show ([] : Str) ++ [42] ++ W = 42 :: W by rfl, getEsc_star W hW] at h2
        simp only [Option.some.injEq, Prod.mk.injEq, and_true] at h2
        exact h2.symm
      · rw [show [92] ++ [42] ++ W = 92 :: 42 :: W by rfl, getEsc_esc_star W hW] at h2
        simp only [Option.some.injEq, Prod.mk.injEq, and_true] at h2
        exact h2.symm
    subst hr
    rcases hesc with ⟨rfl, _⟩ | rfl
    · rw [List.nil_append, List.singleton_append] at hsplit
      rcases collapseStars_cons_inv X 42 W hsplit with ⟨X1, rfl, h1⟩ | ⟨_, Z, rfl, h1⟩
      · have hX1 : X1 ≠ [] := by
          intro h0
          rw [h0, collapseStars_nil] at h1
          exact hW h1
        exact ⟨X1, getEsc_star X1 hX1, Or.inl h1⟩
      · exact ⟨42 :: Z, getEsc_star _ (by simp), Or.inr ⟨Z, rfl, h1⟩⟩
    · rw [show [92] ++ [42] ++ W = 92 :: 42 :: W by rfl] at hsplit
      rcases collapseStars_cons_inv X 92 (42 :: W) hsplit with ⟨X', rfl, h'⟩ | ⟨h0, _⟩
      · rcases collapseStars_cons_inv X' 42 W h'.symm with ⟨X1, rfl, h1⟩ | ⟨_, Z, rfl, h1⟩
        · have hX1 : X1 ≠ [] := by
            intro h0
            rw [h0, collapseStars_nil] at h1
            exact hW h1
          exact ⟨X1, getEsc_esc_star X1 hX1, Or.inl h1⟩
        · exact ⟨42 :: Z, getEsc_esc_star _ (by simp), Or.inr ⟨Z, rfl, h1⟩⟩
      · exact absurd h0 (by decide)
  · obtain ⟨X1, rfl, h1⟩ := collapseStars_append_inv item h42 X W hsplit
    have hX1 : X1 ≠ [] := by
      intro h0
      rw [h0, collapseStars_nil] at h1
      exact hW h1
    exact ⟨X1, hstab X1 hX1, Or.inl h1⟩

theorem classLoop_close (r : Nat) (T : Str) (m : Bool) :
    filepath.classLoop r ((93 :: T).length + 1) (93 :: T) m true = some (m, T) := by
  rw [filepath.classLoop]
  simp

theorem classLoop_canon (r : Nat) (fuel : Nat) (chunk : Str) (m seen : Bool)
    (h : chunk.length < fuel) :
    filepath.classLoop r fuel chunk m seen =
      filepath.classLoop r (chunk.length + 1) chunk m seen := by
  obtain ⟨extra, rfl⟩ : ∃ extra, fuel = chunk.length + 1 + extra :=
    ⟨fuel - chunk.length - 1, by omega⟩
  exact classLoop_enough r chunk m seen extra

theorem classLoop_plain (r : Nat) (X : Str) (m seen : Bool) (lo : Nat) (X1 : Str)
    (hnc : ¬ (X.head? = some 93 ∧ seen = true)) (he : filepath.getEsc X = some (lo, X1))
    (h45 : X1.head? ≠ some 45) :
    filepath.classLoop r (X.length + 1) X m seen =
      filepath.classLoop r (X1.length + 1) X1 (m || (decide (lo ≤ r) && decide (r ≤ lo))) true := by
  have hl := getEsc_length _ _ _ he
  rw [filepath.classLoop]
  have h1 : ¬ ((decide (X.head? = some 93) && seen) = true) := by
    simpa using hnc
  rw [if_neg h1, he]
  simp only [if_neg h45]
  exact classLoop_canon r _ X1 _ true hl

theorem classLoop_range (r : Nat) (X : Str) (m seen : Bool) (lo hi : Nat) (X2 X3 : Str)
    (hnc : ¬ (X.head? = some 93 ∧ seen = true))
    (he : filepath.getEsc X = some (lo, 45 :: X2))
    (he2 : filepath.getEsc X2 = some (hi, X3)) :
    filepath.classLoop r (X.length + 1) X m seen =
      filepath.classLoop r (X3.length + 1) X3 (m || (decide (lo ≤ r) && decide (r ≤ hi))) true := by
  have hl := getEsc_length _ _ _ he
  have hl2 := getEsc_length _ _ _ he2
  rw [filepath.classLoop]
  have h1 : ¬ ((decide (X.head? = some 93) && seen) = true) := by
    simpa using hnc
  rw [if_neg h1, he]
  simp only [List.head?_cons, if_true, List.tail_cons, he2]
  simp only [List.length_cons] at hl
  exact classLoop_canon r _ X3 _ true (by omega)

/-- How the range loop can have accepted: at the closing bracket, or by one range
followed by the loop on the rest. -/
theorem classLoop_inv (r : Nat) (V : Str) (m seen m' : Bool) (Y' : Str)
    (h : filepath.classLoop r (V.length + 1) V m seen = some (m', Y')) :
    (V = 93 :: Y' ∧ seen = true) ∨
      (¬ (V.head? = some 93 ∧ seen = true) ∧ ∃ lo V1, filepath.getEsc V = some (lo, V1) ∧
        ((V1.head? ≠ some 45 ∧
            ∃ mm, filepath.classLoop r (V1.length + 1) V1 mm true = some (m', Y')) ∨
          ∃ V2 hi V3, V1 = 45 :: V2 ∧ filepath.getEsc V2 = some (hi, V3) ∧
            ∃ mm, filepath.classLoop r (V3.length + 1) V3 mm true = some (m', Y'))) := by
  by_cases hc : V.head? = some 93 ∧ seen = true
  · left
    obtain ⟨hh, hs⟩ := hc
    subst hs
    cases V with
    | nil => simp at hh
    | cons c T =>
      simp only [List.head?_cons, Option.some.injEq] at hh
      subst hh
      rw [classLoop_close] at h
      simp only [Option.some.injEq, Prod.mk.injEq] at h
      exact ⟨by rw [h.2], rfl⟩
  · right
    refine ⟨hc, ?_⟩
    cases he : filepath.getEsc V with
    | none =>
      rw [filepath.classLoop] at h
      have h1 : ¬ ((decide (V.head? = some 93) && seen) = true) := by simpa using hc
      rw [if_neg h1, he] at h
      exact absurd h (by simp)
    | some p =>
      obtain ⟨lo, V1⟩ := p
      refine ⟨lo, V1, rfl, ?_⟩
      by_cases h45 : V1.head? = some 45
      · right
        cases V1 with
        | nil => simp at h45
        | cons d V2 =>
          simp only [List.head?_cons, Option.some.injEq] at h45
          subst h45
          cases he2 : filepath.getEsc V2 with
          | none =>
            rw [filepath.classLoop] at h
            have h1 : ¬ ((decide (V.head? = some 93) && seen) = true) := by simpa using hc
            rw [if_neg h1, he] at h
            simp only [List.head?_cons, if_true, List.tail_cons, he2] at h
            exact absurd h (by simp)
          | some q =>
            obtain ⟨hi, V3⟩ := q
            rw [classLoop_range r V m seen lo hi V2 V3 hc he he2] at h
            exact ⟨V2, hi, V3, rfl, he2, _, h⟩
      · left
        rw [classLoop_plain r V m seen lo V1 hc he h45] at h
        exact ⟨h45, _, h⟩

/-- The range loop accepts on the string what it accepts on the collapsed string, and
stops where the collapsed rest begins. -/
theorem classLoop_collapse : ∀ (n : Nat) (X : Str), X.length ≤ n →
    ∀ (r r' : Nat) (m m2 seenR seenX m' : Bool) (Y' : Str), (seenR = true → seenX = true) →
      filepath.classLoop r ((collapseStars X).length + 1) (collapseStars X) m seenR
          = some (m', Y') →
        ∃ m'' Y, filepath.classLoop r' (X.length + 1) X m2 seenX = some (m'', Y) ∧
          Y' = collapseStars Y := by
  intro n
  induction n with
  | zero =>
    intro X hX r r' m m2 seenR seenX m' Y' _ h
    have : X = [] := List.length_eq_zero.mp (by omega)
    subst this
    rw [collapseStars_nil] at h
    simp [filepath.classLoop, filepath.getEsc] at h
  | succ n ih =>
    intro X hX r r' m m2 seenR seenX m' Y' hseen h
    -- a star is pending on the side of the string
    have pending : ∀ (Z : Str), Z.length < X.length → ∀ (mm m3 : Bool),
        filepath.classLoop r ((collapseStars Z).length + 1) (collapseStars Z) mm true
            = some (m', Y') →
          ∃ m'' Y, filepath.classLoop r' ((42 :: Z).length + 1) (42 :: Z) m3 true
              = some (m'', Y) ∧ Y' = collapseStars Y := by
      intro Z hZ mm m3 hcl
      have hZne : Z ≠ [] := by
        intro h0
        subst h0
        rw [collapseStars_nil] at hcl
        simp [filepath.classLoop, filepath.getEsc] at hcl
      have h45 : Z.head? ≠ some 45 := by
        rw [← collapseStars_head]
        rcases classLoop_inv _ _ _ _ _ _ hcl with ⟨hV, _⟩ | ⟨_, lo, V1, he, _⟩
        · rw [hV]; simp
        · intro h0
          cases hcz : collapseStars Z with
          | nil => rw [hcz] at h0; simp at h0
          | cons c t =>
            rw [hcz] at h0 he
            simp only [List.head?_cons, Option.some.injEq] at h0
            subst h0
            simp [filepath.getEsc] at he
      rw [classLoop_plain r' (42 :: Z) m3 true 42 Z (by simp) (getEsc_star Z hZne) h45]
      exact ih Z (by omega) r r' mm _ true true m' Y' (fun h => h) hcl
    -- the upper end of a range and the loop after it
    have upper : ∀ (X2 : Str), X2.length < X.length → ∀ (hi : Nat) (V3 : Str) (mm m3 : Bool),
        filepath.getEsc (collapseStars X2) = some (hi, V3) →
        filepath.classLoop r (V3.length + 1) V3 mm true = some (m', Y') →
          ∃ X3 m'' Y, filepath.getEsc X2 = some (hi, X3) ∧
            filepath.classLoop r' (X3.length + 1) X3 m3 true = some (m'', Y) ∧
            Y' = collapseStars Y := by
      intro X2 hX2 hi V3 mm m3 he hcl
      obtain ⟨X3, heX, hal | ⟨Z, rfl, hZ⟩⟩ := getEsc_collapse X2 hi V3 he
      · subst hal
        have hl := getEsc_length _ _ _ heX
        obtain ⟨m'', Y, h1, h2⟩ := ih X3 (by omega) r r' mm m3 true true m' Y' (fun h => h) hcl
        exact ⟨X3, m'', Y, heX, h1, h2⟩
      · subst hZ
        have hl := getEsc_length _ _ _ heX
        simp only [List.length_cons] at hl
        obtain ⟨m'', Y, h1, h2⟩ := pending Z (by omega) mm m3 hcl
        exact ⟨42 :: Z, m'', Y, heX, h1, h2⟩
    rcases classLoop_inv _ _ _ _ _ _ h with ⟨hV, hs⟩ | ⟨hnc, lo, V1, he, hrest⟩
    · -- the closing bracket
      have hsx := hseen hs
      subst hsx
      rcases collapseStars_cons_inv X 93 Y' hV with ⟨X1, rfl, h1⟩ | ⟨h0, _⟩
      · exact ⟨m2, X1, classLoop_close r' X1 m2, h1⟩
      · exact absurd h0 (by decide)
    · have hncX : ¬ (X.head? = some 93 ∧ seenX = true) := by
        rintro ⟨h0, _⟩
        rw [← collapseStars_head] at h0
        cases hcz : collapseStars X with
        | nil => rw [hcz] at h0; simp at h0
        | cons c t =>
          rw [hcz] at h0 he
          simp only [List.head?_cons, Option.some.injEq] at h0
          subst h0
          simp [filepath.getEsc] at he
      obtain ⟨X1, heX, hal | ⟨Z, rfl, hZ⟩⟩ := getEsc_collapse X lo V1 he
      · -- the item ends at the same place on both sides
        subst hal
        have hl := getEsc_length _ _ _ heX
        rcases hrest with ⟨h45, mm, hcl⟩ | ⟨V2, hi, V3, hV1, he2, mm, hcl⟩
        · rw [collapseStars_head] at h45
          rw [classLoop_plain r' X m2 seenX lo X1 hncX heX h45]
          exact ih X1 (by omega) r r' mm _ true true m' Y' (fun h => h) hcl
        · rcases collapseStars_cons_inv X1 45 V2 hV1 with ⟨X2, rfl, h2⟩ | ⟨h0, _⟩
          · subst h2
            simp only [List.length_cons] at hl
            obtain ⟨X3, m'', Y, heX2, h1, h2⟩ := upper X2 (by omega) hi V3 mm
              (m2 || (decide (lo ≤ r') && decide (r' ≤ hi))) he2 hcl
            rw [classLoop_range r' X m2 seenX lo hi X2 X3 hncX heX heX2]
            exact ⟨m'', Y, h1, h2⟩
          · exact absurd h0 (by decide)
      · -- the string has one more star after the item
        subst hZ
        have hl := getEsc_length _ _ _ heX
        simp only [List.length_cons] at hl
        rw [classLoop_plain r' X m2 seenX lo (42 :: Z) hncX heX (by simp)]
        rcases hrest with ⟨h45, mm, hcl⟩ | ⟨V2, hi, V3, hV1, he2, mm, hcl⟩
        · exact pending Z (by omega) mm _ hcl
        · rcases collapseStars_cons_inv Z 45 V2 hV1 with ⟨Z2, rfl, h2⟩ | ⟨h0, _⟩
          · subst h2
            simp only [List.length_cons] at hl
            obtain ⟨X3, m'', Y, heX2, h1, h2⟩ := upper Z2 (by omega) hi V3 mm
              ((m2 || (decide (lo ≤ r') && decide (r' ≤ lo))) ||
                (decide (42 ≤ r') && decide (r' ≤ hi))) he2 hcl
            rw [classLoop_range r' (42 :: 45 :: Z2) _ true 42 hi Z2 X3 (by simp)
              (getEsc_star _ (by simp)) heX2]
            exact ⟨m'', Y, h1, h2⟩
          · exact absurd h0 (by decide)

theorem collapseStars_caret (X1 : Str) :
    (if (collapseStars X1).head? = some 94 then (collapseStars X1).tail else collapseStars X1) =
      collapseStars (if X1.head? = some 94 then X1.tail else X1) := by
  rw [collapseStars_head]
  by_cases h : X1.head? = some 94
  · rw [if_pos h, if_pos h]
    cases X1 with
    | nil => simp at h
    | cons c T =>
      simp only [List.head?_cons, Option.some.injEq] at h
      subst h
      rw [collapseStars_cons 94 T (Or.inl (by decide))]
      rfl
  · rw [if_neg h, if_neg h]

/-- The one-pass syntax check fails on the collapsed pattern when it fails on the
pattern. -/
theorem bad_collapse : ∀ (n : Nat) (p : Str), p.length ≤ n →
    filepath.matchChunk p [] = none → filepath.matchChunk (collapseStars p) [] = none := by
  intro n
  induction n with
  | zero =>
    intro p hp h
    have : p = [] := List.length_eq_zero.mp (by omega)
    subst this
    exact absurd h bad_nil
  | succ n ih =>
    intro p hp h
    rcases collapseStars_cases p with rfl | ⟨Z, rfl, hc⟩ | ⟨c, X1, rfl, _, hc⟩
    · exact absurd h bad_nil
    · simp only [List.length_cons] at hp
      rw [bad_cons 42 _ (by decide) (by decide), bad_cons 42 _ (by decide) (by decide)] at h
      rw [hc, bad_cons 42 _ (by decide) (by decide)]
      exact ih Z (by omega) h
    · simp only [List.length_cons] at hp
      rw [hc]
      by_cases h92 : c = 92
      · subst h92
        rcases collapseStars_cases X1 with rfl | ⟨Z, rfl, hc1⟩ | ⟨d, ds, rfl, _, hc1⟩
        · rw [collapseStars_nil]; exact bad_esc_end
        · simp only [List.length_cons] at hp
          rw [bad_esc, bad_cons 42 _ (by decide) (by decide)] at h
          rw [hc1, bad_esc]
          exact ih Z (by omega) h
        · simp only [List.length_cons] at hp
          rw [bad_esc] at h
          rw [hc1, bad_esc]
          exact ih ds (by omega) h
      · by_cases h91 : c = 91
        · subst h91
          rw [bad_open] at h ⊢
          rw [collapseStars_caret]
          intro m' Y' hcl
          have hXl : (if X1.head? = some 94 then X1.tail else X1).length ≤ X1.length := by
            split
            · simp
            · exact le_refl _
          obtain ⟨m'', Y, h1, h2⟩ := classLoop_collapse _ _ (le_refl _) 0 0 false false false
            false m' Y' (fun h => h) hcl
          have hl := classLoop_length _ _ _ _ _ _ _ h1
          rw [h2]
          exact ih Y (by omega) (h m'' Y h1)
        · rw [bad_cons c _ h91 h92] at h ⊢
          exact ih X1 (by omega) h

/-- A pattern the matcher rejects on some name matches no name. -/
theorem not_globMatches_of_rejected (pattern a b : Str) (h : filepath.Match pattern a = none) :
    ¬ globMatches pattern b :=
  (match_bad _ pattern b (le_refl _)).2 ((match_bad _ pattern a (le_refl _)).1 h)

/-- A pattern the matcher rejects on some name, rewritten with each `**` replaced by `*`,
matches no name. -/
theorem not_globMatches_replaceAll (pattern a b : Str) (h : filepath.Match pattern a = none) :
    ¬ globMatches (strings.ReplaceAll pattern (str "**") (str "*")) b := by
  rw [replaceAll_stars]
  exact (match_bad _ _ b (le_refl _)).2
    (bad_collapse _ pattern (le_refl _) ((match_bad _ pattern a (le_refl _)).1 h))

/-- C14, amended: let the matcher reject `pat` as malformed on some name. Then `pat` never
matches by glob, on any name, and neither does the rule rewritten with each `**` replaced
by `*`. Added anywhere among the directory rules of any rule set it leaves
`shouldIgnoreDir` unchanged on every path; added anywhere among the file patterns it
changes `shouldIgnoreFile` on `p` only through the extension shortcut (no `/` in `pat`,
`pat` begins with `*`, and `pat` ends with the non-empty extension of `p`). Both
classifiers are total functions to `Bool`: no error is raised. -/
theorem c14_malformed_glob (g : Globals) (pat p name : Str) (before after : List Str)
    (hbad : filepath.Match pat name = none) :
    (∀ n, filepath.matched pat n = false) ∧
      (∀ n, filepath.matched (strings.ReplaceAll pat (str "**") (str "*")) n = false) ∧
      shouldIgnoreFile
          { g with rules := { g.rules with ignoredPatterns := before ++ pat :: after } } p =
        (shouldIgnoreFile
            { g with rules := { g.rules with ignoredPatterns := before ++ after } } p ||
          decide (47 ∉ pat ∧ pat.head? = some 42 ∧ filepath.Ext p ≠ [] ∧
            filepath.Ext p <:+ pat)) ∧
      shouldIgnoreDir
          { g with rules := { g.rules with ignoredDirs := before ++ pat :: after } } p =
        shouldIgnoreDir
          { g with rules := { g.rules with ignoredDirs := before ++ after } } p := by
  have hno : ∀ n, ¬ globMatches pat n := fun n => not_globMatches_of_rejected pat name n hbad
  have hno2 : ∀ n, ¬ globMatches (strings.ReplaceAll pat (str "**") (str "*")) n :=
    fun n => not_globMatches_replaceAll pat name n hbad
  refine ⟨fun n => by simpa [filepath.matched, globMatches] using hno n,
    fun n => by simpa [filepath.matched, globMatches] using hno2 n, ?_, ?_⟩
  · rw [Bool.eq_iff_iff, Bool.or_eq_true, decide_eq_true_eq, shouldIgnoreFile_insert]
    apply or_congr_right
    unfold fileRuleHits
    constructor
    · rintro (⟨_, h⟩ | ⟨_, h⟩ | h)
      · exact absurd h (hno _)
      · exact absurd h (hno _)
      · exact h
    · exact fun h => Or.inr (Or.inr h)
  · apply shouldIgnoreDir_insert_inert
    rintro (h | ⟨_, rp, _, h⟩)
    · exact hno _ h
    · exact hno2 _ h

set_option maxRecDepth 100000 in
/-- Witness for C14: the rule `**/[ab` with an unclosed class, rejected on the name `a`,
and the path `src/a.go`. -/
theorem c14_malformed_glob_witness :
    (∀ n, filepath.matched (str "**/[ab") n = false) ∧
      (∀ n, filepath.matched (strings.ReplaceAll (str "**/[ab") (str "**") (str "*")) n
        = false) ∧
      shouldIgnoreFile
          { emptyGlobals with
            rules := { emptyGlobals.rules with
              ignoredPatterns := [str "*.log"] ++ str "**/[ab" :: [] } }
          (str "src/a.go") =
        (shouldIgnoreFile
            { emptyGlobals with
              rules := { emptyGlobals.rules with ignoredPatterns := [str "*.log"] ++ [] } }
            (str "src/a.go") ||
          decide (47 ∉ str "**/[ab" ∧ (str "**/[ab").head? = some 42 ∧
            filepath.Ext (str "src/a.go") ≠ [] ∧ filepath.Ext (str "src/a.go") <:+ str "**/[ab")) ∧
      shouldIgnoreDir
          { emptyGlobals with
            rules := { emptyGlobals.rules with ignoredDirs := [str "*.log"] ++ str "**/[ab" :: [] } }
          (str "src/a.go") =
        shouldIgnoreDir
          { emptyGlobals with
            rules := { emptyGlobals.rules with ignoredDirs := [str "*.log"] ++ [] } }
          (str "src/a.go") :=
  c14_malformed_glob emptyGlobals (str "**/[ab") (str "src/a.go") (str "a") [str "*.log"] []
    (by decide)

end Codebaseify
